import Mathlib

/-!
# A verification development for the `just` command runner

Shallow embedding of the core of the repository: the shebang parser
(`src/shebang.rs`), the built-in function table (`src/function.rs`), and —
modelled from the specification where the corresponding modules are not in
the source tree — the evaluator, the dependency planner, the runner and the
`--dump` printer.  Text is represented as `List Char`; Rust string methods
(`trim`, `lines`, `splitn`, …) are embedded with their documented semantics.
-/

namespace JustSpec

/-- Text, as a list of unicode scalar values (Rust `&str` contents). -/
abbrev Text := List Char

/-- Rust `char::is_whitespace`: the Unicode `White_Space` property. -/
def rustWhitespace (c : Char) : Bool :=
  c = ' ' || c = '\t' || c = '\n' || c.toNat = 11 || c.toNat = 12 || c = '\r' ||
  c.toNat = 0x85 || c.toNat = 0xA0 || c.toNat = 0x1680 ||
  (0x2000 ≤ c.toNat && c.toNat ≤ 0x200A) ||
  c.toNat = 0x2028 || c.toNat = 0x2029 || c.toNat = 0x202F ||
  c.toNat = 0x205F || c.toNat = 0x3000

/-- The separator class used by `Shebang::new`: a space or a tab. -/
def isSpaceTab (c : Char) : Bool := c = ' ' || c = '\t'

/-- Rust `str::trim_end`, for an arbitrary character class. -/
def trimEndP (p : Char → Bool) (s : Text) : Text :=
  (s.reverse.dropWhile p).reverse

/-- Rust `str::trim` (both ends), for an arbitrary character class. -/
def trimP (p : Char → Bool) (s : Text) : Text :=
  trimEndP p (s.dropWhile p)

/-- Rust `str::trim`: strips Unicode whitespace from both ends. -/
def rustTrim (s : Text) : Text := trimP rustWhitespace s

/-- Strip one trailing carriage return, as `str::lines` does before a `\n`. -/
def stripTrailingCR (s : Text) : Text :=
  match s.reverse with
  | '\r' :: rest => rest.reverse
  | _ => s

/-- Rust `s.lines().next().unwrap_or("")`: the text up to the first `\n`
(with a `\r` immediately before that `\n` stripped); the whole text when it
contains no `\n` (a final lone `\r` is then kept). -/
def firstLine (s : Text) : Text :=
  if '\n' ∈ s then stripTrailingCR (s.takeWhile (fun c => ¬ c = '\n')) else s

/-- Rust `s.splitn(2, p)` followed by reading both pieces: the part before
the first character satisfying `p`, and the remainder after that single
character (`none` when no character satisfies `p`). -/
def splitOnceP (p : Char → Bool) : Text → Text × Option Text
  | [] => ([], none)
  | c :: rest =>
      if p c then ([], some rest)
      else
        let r := splitOnceP p rest
        (c :: r.1, r.2)

/-! ## `src/shebang.rs` -/

/-- `Shebang` from `src/shebang.rs`. -/
structure Shebang where
  interpreter : Text
  argument : Option Text
deriving DecidableEq

/-- `Shebang::new`: recognize `#!`, take the first line of the remainder,
trim it, and split it at the first space or tab into interpreter and
argument; reject an empty interpreter. -/
def Shebang.new (line : Text) : Option Shebang :=
  if "#!".data.isPrefixOf line then
    let t := rustTrim (firstLine (line.drop 2))
    let pieces := splitOnceP isSpaceTab t
    if pieces.1 = [] then none
    else some ⟨pieces.1, pieces.2⟩
  else none

/-- The separator class of `Shebang::interpreter_filename`: `/` or `\`. -/
def isSlash (c : Char) : Bool := c = '/' || c = '\\'

/-- `Shebang::interpreter_filename`: the part of the interpreter after the
last `/` or `\` (the whole interpreter when neither occurs). -/
def Shebang.interpreter_filename (sb : Shebang) : Text :=
  (sb.interpreter.reverse.takeWhile (fun c => ! isSlash c)).reverse

/-- `Shebang::script_filename`. -/
def Shebang.script_filename (sb : Shebang) (recipe : Text) : Text :=
  if sb.interpreter_filename = "cmd".data ∨ sb.interpreter_filename = "cmd.exe".data then
    recipe ++ ".bat".data
  else if sb.interpreter_filename = "powershell".data ∨
      sb.interpreter_filename = "powershell.exe".data then
    recipe ++ ".ps1".data
  else recipe

/-- `Shebang::include_shebang_line`. -/
def Shebang.include_shebang_line (sb : Shebang) : Bool :=
  if sb.interpreter_filename = "cmd".data ∨ sb.interpreter_filename = "cmd.exe".data then
    false
  else true

/-- From the spec's words (for comparison with the code): split a text on
the first run of space/tab characters, the whole run being the separator. -/
def splitFirstRun (t : Text) : Text × Option Text :=
  let interp := t.takeWhile (fun c => ¬ isSpaceTab c)
  let rest := (t.drop interp.length).dropWhile isSpaceTab
  if t.drop interp.length = [] then (interp, none) else (interp, some rest)

/-- From the claim's words (for comparison with the code): trim only spaces
and tabs from both ends. -/
def trimSpaceTab (s : Text) : Text := trimP isSpaceTab s

/-- Modelled from the spec: a shebang recipe's child process is invoked as
`interpreter [argument] tempfile`. -/
def Shebang.command (sb : Shebang) (tempfile : Text) : List Text :=
  sb.interpreter :: (match sb.argument with
    | some a => [a, tempfile]
    | none => [tempfile])

/-! ## `src/function.rs` -/

/-- `FunctionContext` from `src/function.rs`: the dotenv mapping and the
process environment (environment values are modelled as unicode text, so
Rust's `VarError::NotUnicode` branch has no counterpart here), plus the
resolved justfile path used by the context-dependent nullary functions. -/
structure FunctionContext where
  dotenv : List (Text × Text)
  env : Text → Option Text
  justfile : Text

/-- `env_var`: dotenv first, then the process environment, else an error. -/
def env_var (context : FunctionContext) (key : Text) : Except Text Text :=
  match context.dotenv.lookup key with
  | some value => .ok value
  | none =>
    match context.env key with
    | some value => .ok value
    | none => .error ("environment variable `".data ++ key ++ "` not present".data)

/-- `env_var_or_default`: dotenv first, then the process environment, else
the default. -/
def env_var_or_default (context : FunctionContext) (key dflt : Text) :
    Except Text Text :=
  match context.dotenv.lookup key with
  | some value => .ok value
  | none =>
    match context.env key with
    | some value => .ok value
    | none => .ok dflt

/-- Split a text at every occurrence of a separator character. -/
def splitOnChar (sep : Char) : Text → List Text
  | [] => [[]]
  | c :: rest =>
    match splitOnChar sep rest with
    | [] => [[]]
    | h :: t => if c = sep then [] :: h :: t else (c :: h) :: t

/-- Whether a unix path starts at the root. -/
def hasRoot (p : Text) : Bool :=
  match p with
  | '/' :: _ => true
  | _ => false

/-- The normalized component list of a unix path, as produced by Rust's
`Path::components` (modelled): duplicate separators and interior `.`
components disappear, a leading `.` of a relative path is kept. -/
def pathComponentList (p : Text) : List Text :=
  let parts := (splitOnChar '/' p).filter (fun x => ¬ x = [])
  let nonDot := parts.filter (fun x => ¬ x = ['.'])
  if hasRoot p = false ∧ parts.head? = some ['.'] then ['.'] :: nonDot else nonDot

/-- Rust `Path::file_name` (modelled): the last normalized component when
it is a normal component. -/
def pathFileName (p : Text) : Option Text :=
  match (pathComponentList p).getLast? with
  | some c => if c = ['.'] ∨ c = "..".data then none else some c
  | none => none

/-- Split a file name at its final dot: `some (stem, ext)` when a dot
occurs, `none` otherwise. -/
def rsplitDot (n : Text) : Option (Text × Text) :=
  match splitOnceP (fun c => c = '.') n.reverse with
  | (_, none) => none
  | (revExt, some revStem) => some (revStem.reverse, revExt.reverse)

/-- Rust `Path::extension` (modelled). -/
def pathExtension (p : Text) : Option Text :=
  (pathFileName p).bind fun n =>
    match rsplitDot n with
    | none => none
    | some (stem, ext) => if stem = [] then none else some ext

/-- Rust `Path::file_stem` (modelled). -/
def pathFileStem (p : Text) : Option Text :=
  (pathFileName p).map fun n =>
    match rsplitDot n with
    | none => n
    | some (stem, _) => if stem = [] then n else stem

/-- Render a component list back into a path. -/
def renderPath (root : Bool) (comps : List Text) : Text :=
  (if root then ['/'] else []) ++ List.intercalate ['/'] comps

/-- Rust `Path::parent` (modelled, with canonical rendering): drop the last
component; `none` for the empty path and for the root. -/
def pathParent (p : Text) : Option Text :=
  match pathComponentList p with
  | [] => none
  | comps => some (renderPath (hasRoot p) comps.dropLast)

/-- Rust `Path::join` (modelled): an absolute path replaces the base. -/
def pathJoin (base w : Text) : Text :=
  if hasRoot w = true then w
  else if base = [] then w
  else if base.getLast? = some '/' then base ++ w
  else base ++ '/' :: w

/-- One step of lexical path cleaning: resolve a component against the
stack of components kept so far. -/
def cleanStep (root : Bool) (acc : List Text) (comp : Text) : List Text :=
  if comp = "..".data then
    match acc.getLast? with
    | some last => if last = "..".data then acc ++ [comp] else acc.dropLast
    | none => if root then [] else [comp]
  else acc ++ [comp]

/-- The `lexiclean` crate (modelled): lexical path normalization — remove
duplicate separators and `.` components and resolve `..` lexically. -/
def lexiclean (p : Text) : Text :=
  let root := hasRoot p
  let parts := (splitOnChar '/' p).filter (fun x => ¬ (x = [] ∨ x = ['.']))
  let stack := parts.foldl (cleanStep root) []
  if root then '/' :: List.intercalate ['/'] stack
  else if stack = [] then ['.'] else List.intercalate ['/'] stack

/-- `clean`: total, wraps `lexiclean` in `Ok`. -/
def clean (_context : FunctionContext) (path : Text) : Except Text Text :=
  .ok (lexiclean path)

/-- `join`: total, wraps `Path::join` in `Ok`. -/
def join (_context : FunctionContext) (base w : Text) : Except Text Text :=
  .ok (pathJoin base w)

/-- `lowercase`: total (Rust's full case mapping modelled by the simple
per-character mapping). -/
def lowercase (_context : FunctionContext) (s : Text) : Except Text Text :=
  .ok (s.map Char.toLower)

/-- `uppercase`: total. -/
def uppercase (_context : FunctionContext) (s : Text) : Except Text Text :=
  .ok (s.map Char.toUpper)

/-- Replace every non-overlapping occurrence of a non-empty pattern, left
to right (Rust `str::replace`, non-empty pattern); the fuel is an upper
bound on the number of scanning steps. -/
def replaceCore (pat rep : Text) : Nat → Text → Text
  | _, [] => []
  | 0, s => s
  | fuel + 1, c :: rest =>
    if pat.isPrefixOf (c :: rest) then
      rep ++ replaceCore pat rep fuel ((c :: rest).drop pat.length)
    else c :: replaceCore pat rep fuel rest

/-- `replace`: total (Rust `str::replace`; the empty pattern matches at
every character boundary). -/
def replace (_context : FunctionContext) (s pat rep : Text) : Except Text Text :=
  .ok (if pat = [] then rep ++ (s.map (fun c => c :: rep)).flatten
       else replaceCore pat rep s.length s)

/-- `trim`: total (Rust `str::trim`). -/
def trim (_context : FunctionContext) (s : Text) : Except Text Text :=
  .ok (rustTrim s)

/-- `extension`: a path-component extractor with an error branch. -/
def extension (_context : FunctionContext) (path : Text) : Except Text Text :=
  match pathExtension path with
  | some e => .ok e
  | none => .error ("Could not extract extension from `".data ++ path ++ "`".data)

/-- `file_name`: a path-component extractor with an error branch. -/
def file_name (_context : FunctionContext) (path : Text) : Except Text Text :=
  match pathFileName path with
  | some n => .ok n
  | none => .error ("Could not extract file name from `".data ++ path ++ "`".data)

/-- `file_stem`: a path-component extractor with an error branch. -/
def file_stem (_context : FunctionContext) (path : Text) : Except Text Text :=
  match pathFileStem path with
  | some n => .ok n
  | none => .error ("Could not extract file stem from `".data ++ path ++ "`".data)

/-- `parent_directory`: a path-component extractor with an error branch. -/
def parent_directory (_context : FunctionContext) (path : Text) : Except Text Text :=
  match pathParent path with
  | some d => .ok d
  | none =>
      .error ("Could not extract parent directory from `".data ++ path ++ "`".data)

/-- `without_extension`: parent joined with file stem; errors when either
part cannot be extracted. -/
def without_extension (_context : FunctionContext) (path : Text) : Except Text Text :=
  match pathParent path with
  | none => .error ("Could not extract parent from `".data ++ path ++ "`".data)
  | some parent =>
    match pathFileStem path with
    | none => .error ("Could not extract file stem from `".data ++ path ++ "`".data)
    | some stem => .ok (pathJoin parent stem)

/-- `justfile_directory`: the parent of the resolved justfile path; errors
when that path has no parent. -/
def justfile_directory (context : FunctionContext) : Except Text Text :=
  match pathParent context.justfile with
  | some d => .ok d
  | none =>
      .error ("Could not resolve justfile directory. Justfile `".data ++
        context.justfile ++ "` had no parent.".data)

/-! ## Evaluator (modelled from the spec) -/

/-- Modelled from the spec (the evaluator module is not among the source
files): the captured stdout of a successful backtick is used as a value
after stripping exactly one trailing newline, with no other trimming. -/
def backtickValue (s : Text) : Text :=
  match s.reverse with
  | c :: rest => if c = '\n' then rest.reverse else s
  | [] => s

/-- Expressions, modelled from the spec's data model §3 (string literals,
backticks, variables, concatenation and grouping; function calls are
embedded separately through the function table). -/
inductive Expr where
  | lit (s : Text)
  | backtick (cmd : Text)
  | var (name : Text)
  | concat (l r : Expr)
  | group (e : Expr)
deriving DecidableEq

/-- The configured shell, as seen by backtick evaluation: a command either
fails with an exit code or succeeds with captured stdout. -/
abbrev Shell := Text → Except Nat Text

/-- Evaluation-time errors. -/
inductive EvalError where
  | backtickFailed (code : Nat)
  | undefinedVariable (name : Text)
deriving DecidableEq

/-- Modelled from the spec §4.4: expression evaluation over a scope. -/
def evalExpr (shell : Shell) (scope : List (Text × Text)) : Expr → Except EvalError Text
  | .lit s => .ok s
  | .backtick cmd =>
    match shell cmd with
    | .ok out => .ok (backtickValue out)
    | .error code => .error (.backtickFailed code)
  | .var n =>
    match scope.lookup n with
    | some v => .ok v
    | none => .error (.undefinedVariable n)
  | .concat l r =>
    match evalExpr shell scope l with
    | .error e => .error e
    | .ok a =>
      match evalExpr shell scope r with
      | .error e => .error e
      | .ok b => .ok (a ++ b)
  | .group e => evalExpr shell scope e

/-- A top-level assignment, modelled from the spec's data model §3. -/
structure Assignment where
  name : Text
  expression : Expr
  exported : Bool
deriving DecidableEq

/-- Modelled from the spec §4.4: evaluate the top-level assignments in
(topological) order, extending the scope; command-line overrides are
applied before evaluation, and an overridden assignment's expression is
not evaluated at all. -/
def evalAssignments (shell : Shell) (overrides : List (Text × Text)) :
    List Assignment → List (Text × Text) → Except EvalError (List (Text × Text))
  | [], scope => .ok scope
  | a :: rest, scope =>
    match overrides.lookup a.name with
    | some v => evalAssignments shell overrides rest (scope ++ [(a.name, v)])
    | none =>
      match evalExpr shell scope a.expression with
      | .ok v => evalAssignments shell overrides rest (scope ++ [(a.name, v)])
      | .error e => .error e

/-- The shell of the `overrides_not_evaluated` integration test: the
backtick command `exit 1` fails with exit code 1. -/
def failingShell : Shell := fun cmd =>
  if cmd = "exit 1".data then .error 1 else .ok []

/-- The overrides of the `overrides_not_evaluated` integration test
(`foo=bar a=b`). -/
def ovTest : List (Text × Text) := [("foo".data, "bar".data), ("a".data, "b".data)]

/-- The assignments of the `overrides_not_evaluated` integration test. -/
def asgsTest : List Assignment :=
  [⟨"foo".data, .backtick "exit 1".data, false⟩,
   ⟨"a".data, .lit "a".data, false⟩,
   ⟨"baz".data, .lit "baz".data, false⟩]

/-- The scope produced by the `overrides_not_evaluated` scenario. -/
def scTest : List (Text × Text) :=
  [("foo".data, "bar".data), ("a".data, "b".data), ("baz".data, "baz".data)]

/-! ## Dependency planner (modelled from the spec) -/

/-- A dependency graph: each recipe name with its ordered list of
dependency names. -/
abbrev DepGraph := List (Text × List Text)

/-- The dependencies of a recipe; a name absent from the graph has none. -/
def depsOf (g : DepGraph) (n : Text) : List Text :=
  (g.lookup n).getD []

/-- Fold a visit function over a list of recipe names, threading the list
of already-run recipes and propagating failure. -/
def goList (f : List Text → Text → Option (List Text)) :
    List Text → List Text → Option (List Text)
  | ran, [] => some ran
  | ran, n :: ns =>
    match f ran n with
    | none => none
    | some ran2 => goList f ran2 ns

/-- Modelled from the spec §4.6 step 3: run one recipe after its
transitive dependencies — post-order depth-first traversal of the
dependency DAG with de-duplication.  `ran` is the list of recipes already
run, in execution order; fuel is spent only when descending into a
recipe's dependencies, so any fuel exceeding the height of the DAG
suffices. -/
def visitOne (g : DepGraph) : Nat → List Text → Text → Option (List Text)
  | 0, ran, n => if n ∈ ran then some ran else none
  | fuel + 1, ran, n =>
    if n ∈ ran then some ran
    else
      match goList (visitOne g fuel) ran (depsOf g n) with
      | none => none
      | some ran2 => some (ran2 ++ [n])

/-- The execution order of an invocation: the requested recipes and their
transitive dependencies, post-order, de-duplicated. -/
def plan (g : DepGraph) (targets : List Text) : Option (List Text) :=
  goList (visitOne g (g.length + 1)) [] targets

/-- Every recipe in the order runs only after all of its dependencies. -/
def depsBefore (g : DepGraph) (order : List Text) : Prop :=
  ∀ pre n post, order = pre ++ n :: post → ∀ d ∈ depsOf g n, d ∈ pre

/-- The dependency graph of the `order` integration test:
`b: a`, `a`, `d: c`, `c: b`. -/
def orderTestGraph : DepGraph :=
  [("b".data, ["a".data]), ("a".data, []),
   ("d".data, ["c".data]), ("c".data, ["b".data])]

/-- A topological rank for the `order` test graph. -/
def rankTest : Text → Nat := fun n =>
  if n = "a".data then 0 else if n = "b".data then 1
  else if n = "c".data then 2 else 3

/-! ## Runner (modelled from the spec) -/

/-- A recipe prepared for execution: its name and its numbered, evaluated
command lines (modelled from the spec §4.6 step 4). -/
structure RecipeRun where
  name : Text
  cmds : List (Nat × Text)
deriving DecidableEq

/-- The outcome of a run: the commands executed, in order, and the first
failure `(recipe, line, exit code)` when one occurred. -/
structure RunOutcome where
  executed : List (Text × Nat × Text)
  failure : Option (Text × Nat × Nat)
deriving DecidableEq

/-- Tag a recipe's lines with its name. -/
def tagLines (rname : Text) (lines : List (Nat × Text)) : List (Text × Nat × Text) :=
  lines.map (fun lc => (rname, lc.1, lc.2))

/-- All command lines of a recipe sequence, in execution order. -/
def flattenRuns (rs : List RecipeRun) : List (Text × Nat × Text) :=
  (rs.map (fun r => tagLines r.name r.cmds)).flatten

/-- Modelled from the spec §4.6: run one recipe's lines in order through
the status function; stop at the first nonzero exit status. -/
def runLines (status : Text → Nat) (rname : Text) :
    List (Nat × Text) → List (Text × Nat × Text) → RunOutcome
  | [], acc => ⟨acc, none⟩
  | (ln, cmd) :: rest, acc =>
    if status cmd = 0 then runLines status rname rest (acc ++ [(rname, ln, cmd)])
    else ⟨acc ++ [(rname, ln, cmd)], some (rname, ln, status cmd)⟩

/-- Modelled from the spec §4.6 and §7: run the planned recipes in order;
errors bubble immediately, so nothing runs after the first failing line. -/
def runRecipes (status : Text → Nat) :
    List RecipeRun → List (Text × Nat × Text) → RunOutcome
  | [], acc => ⟨acc, none⟩
  | r :: rest, acc =>
    let o := runLines status r.name r.cmds acc
    match o.failure with
    | none => runRecipes status rest o.executed
    | some _ => o

/-- The runtime error message of a failed line, in the format pinned by
the `status_passthrough` integration test. -/
def failureMessage (rname : Text) (ln code : Nat) : Text :=
  "Recipe `".data ++ rname ++ "` failed on line ".data ++ (toString ln).data ++
    " with exit code ".data ++ (toString code).data

/-- The process exit status of a run. -/
def runStatus (o : RunOutcome) : Nat :=
  match o.failure with
  | some f => f.2.2
  | none => 0

/-- The error message printed by a run, when there is one. -/
def runMessage (o : RunOutcome) : Option Text :=
  o.failure.map (fun f => failureMessage f.1 f.2.1 f.2.2)

/-- The command statuses of the `status_passthrough` integration test:
`exit 100` exits with 100, everything else succeeds. -/
def statusTest : Text → Nat := fun cmd =>
  if cmd = "exit 100".data then 100 else 0

/-- The recipes the `status_passthrough` test invocation runs: recipe
`recipe`, whose only command sits on line 6 of the justfile. -/
def rsTest : List RecipeRun := [⟨"recipe".data, [(6, "exit 100".data)]⟩]

/-! ## Dump printer and canonical parser (modelled from the spec)

The `--dump` printer and the parser are not among the source files; they
are modelled from the spec §3, §4.2 and §4.7: `--dump` emits a canonical
pretty-print of the whole justfile, and re-parsing it yields the same
canonical form.  The grammar below is the canonical fragment the printer
emits: assignments (`export`-marked or not), aliases, and recipes with
parameters, dependencies and interpolated body lines. -/

/-- A body-line fragment: literal text or an interpolation. -/
inductive Fragment where
  | text (s : Text)
  | interp (e : Expr)
deriving DecidableEq

/-- A recipe parameter: optional `+` variadic marker and optional default. -/
structure Param where
  name : Text
  variadic : Bool
  dflt : Option Expr
deriving DecidableEq

/-- A recipe of the data model §3. -/
structure RecipeAst where
  name : Text
  quiet : Bool
  params : List Param
  deps : List Text
  body : List (List Fragment)
deriving DecidableEq

/-- An alias of the data model §3. -/
structure Alias where
  name : Text
  target : Text
deriving DecidableEq

/-- The analyzed justfile as dumped: assignments, aliases and recipes. -/
structure Justfile where
  assignments : List Assignment
  aliases : List Alias
  recipes : List RecipeAst
deriving DecidableEq

/-- Escape one character of a cooked string literal (the escape sequences
of the lexer §4.1). -/
def escapeChar (c : Char) : Text :=
  if c = '\\' then ['\\', '\\']
  else if c = '\x22' then ['\\', '\x22']
  else if c = '\n' then ['\\', 'n']
  else if c = '\r' then ['\\', 'r']
  else if c = '\t' then ['\\', 't']
  else [c]

/-- Escape a cooked string literal's content. -/
def escapeText (s : Text) : Text := (s.map escapeChar).flatten

/-- Canonical pretty-printing of expressions. -/
def dumpExpr : Expr → Text
  | .lit s => '\x22' :: (escapeText s ++ ['\x22'])
  | .backtick cmd => '\x60' :: (cmd ++ ['\x60'])
  | .var n => n
  | .concat l r => dumpExpr l ++ " + ".data ++ dumpExpr r
  | .group e => '(' :: (dumpExpr e ++ [')'])

/-- Canonical pretty-printing of a parameter. -/
def dumpParam (p : Param) : Text :=
  (if p.variadic then ['+'] else []) ++ p.name ++
    (match p.dflt with
     | some e => '=' :: dumpExpr e
     | none => [])

/-- Canonical pretty-printing of a fragment. -/
def dumpFragment : Fragment → Text
  | .text s => s
  | .interp e => "\x7b\x7b".data ++ dumpExpr e ++ "\x7d\x7d".data

/-- Canonical pretty-printing of a fragment list. -/
def dumpFrags (frags : List Fragment) : Text :=
  (frags.map dumpFragment).flatten

/-- Canonical pretty-printing of a body line: four-space indent. -/
def dumpLine (frags : List Fragment) : Text :=
  "    ".data ++ dumpFrags frags ++ ['\n']

/-- Canonical pretty-printing of a recipe body. -/
def dumpBody (body : List (List Fragment)) : Text :=
  (body.map dumpLine).flatten

/-- Canonical pretty-printing of a recipe. -/
def dumpRecipe (r : RecipeAst) : Text :=
  (if r.quiet then ['@'] else []) ++ r.name ++
    (r.params.map (fun p => ' ' :: dumpParam p)).flatten ++ [':'] ++
    (r.deps.map (fun d => ' ' :: d)).flatten ++ ['\n'] ++
    dumpBody r.body

/-- Canonical pretty-printing of an assignment. -/
def dumpAssignment (a : Assignment) : Text :=
  (if a.exported then "export ".data else []) ++ a.name ++ " := ".data ++
    dumpExpr a.expression ++ ['\n']

/-- Canonical pretty-printing of an alias. -/
def dumpAlias (al : Alias) : Text :=
  "alias ".data ++ al.name ++ " := ".data ++ al.target ++ ['\n']

/-- `--dump`: the canonical pretty-print of the whole justfile. -/
def dumpJustfile (j : Justfile) : Text :=
  (j.assignments.map dumpAssignment).flatten ++
    (j.aliases.map dumpAlias).flatten ++
    (j.recipes.map dumpRecipe).flatten

/-- First character of an identifier. -/
def identStart (c : Char) : Bool := c.isAlpha || c = '_'

/-- Later characters of an identifier. -/
def identChar (c : Char) : Bool := c.isAlpha || c.isDigit || c = '_' || c = '-'

/-- A well-formed identifier. -/
def isIdent (s : Text) : Bool :=
  match s with
  | [] => false
  | c :: rest => identStart c && rest.all identChar

/-- Parse a maximal identifier. -/
def parseIdent (s : Text) : Option (Text × Text) :=
  match s with
  | [] => none
  | c :: rest =>
    if identStart c then
      some (c :: rest.takeWhile identChar, rest.dropWhile identChar)
    else none

/-- Decode one escape sequence of a cooked string. -/
def unescapeChar (e : Char) : Option Char :=
  if e = 'n' then some '\n'
  else if e = 'r' then some '\r'
  else if e = 't' then some '\t'
  else if e = '\\' then some '\\'
  else if e = '\x22' then some '\x22'
  else none

/-- Parse a cooked string body up to the closing double quote. -/
def parseStringBody : Text → Option (Text × Text)
  | [] => none
  | [c] => if c = '\x22' then some ([], []) else none
  | c :: e :: rest2 =>
    if c = '\x22' then some ([], e :: rest2)
    else if c = '\\' then
      match unescapeChar e with
      | none => none
      | some ch =>
        match parseStringBody rest2 with
        | none => none
        | some (str, rem) => some (ch :: str, rem)
    else
      match parseStringBody (e :: rest2) with
      | none => none
      | some (str, rem) => some (c :: str, rem)

/-- Parse a backtick body up to the closing backtick. -/
def parseBacktickBody : Text → Option (Text × Text)
  | [] => none
  | c :: rest =>
    if c = '\x60' then some ([], rest)
    else
      match parseBacktickBody rest with
      | none => none
      | some (cmd, rem) => some (c :: cmd, rem)

/-- Parse one term — a string, a backtick, a parenthesized group (through
the given expression parser) or a variable. -/
def parseTermWith (pe : Text → Option (Expr × Text)) (s : Text) :
    Option (Expr × Text) :=
  match s with
  | [] => none
  | c :: rest =>
    if c = '\x22' then
      match parseStringBody rest with
      | some (str, rem) => some (.lit str, rem)
      | none => none
    else if c = '\x60' then
      match parseBacktickBody rest with
      | some (cmd, rem) => some (.backtick cmd, rem)
      | none => none
    else if c = '(' then
      match pe rest with
      | some (e, rem) =>
        match rem with
        | c2 :: rem2 => if c2 = ')' then some (.group e, rem2) else none
        | [] => none
      | none => none
    else
      match parseIdent s with
      | some (n, rem) => some (.var n, rem)
      | none => none

/-- Parse an expression (term, optionally ` + ` and a further expression,
right-recursive); fuel bounds the recursion depth. -/
def parseExpr : Nat → Text → Option (Expr × Text)
  | 0, _ => none
  | fuel + 1, s =>
    match parseTermWith (parseExpr fuel) s with
    | none => none
    | some (t, rem) =>
      if " + ".data.isPrefixOf rem then
        match parseExpr fuel (rem.drop 3) with
        | some (e2, rem2) => some (.concat t e2, rem2)
        | none => none
      else some (t, rem)

/-- Take the maximal literal text of a body line: up to the end of the
line or the next interpolation opener. -/
def takeText : Text → Text
  | [] => []
  | [c] => if c = '\n' then [] else [c]
  | c :: d :: rest =>
    if c = '\n' then []
    else if c = '\x7b' && d = '\x7b' then []
    else c :: takeText (d :: rest)

/-- Parse the fragments of one body line up to the end of the line. -/
def parseFragments : Nat → Nat → Text → Option (List Fragment × Text)
  | 0, _, _ => none
  | fuelF + 1, fuelE, s =>
    match s with
    | [] => none
    | c :: rest =>
      if c = '\n' then some ([], rest)
      else if "\x7b\x7b".data.isPrefixOf s then
        match parseExpr fuelE (s.drop 2) with
        | some (e, s2) =>
          if "\x7d\x7d".data.isPrefixOf s2 then
            match parseFragments fuelF fuelE (s2.drop 2) with
            | some (fs, s3) => some (.interp e :: fs, s3)
            | none => none
          else none
        | none => none
      else
        match parseFragments fuelF fuelE (s.drop (takeText s).length) with
        | some (fs, s2) => some (.text (takeText s) :: fs, s2)
        | none => none

/-- Parse the indented body lines of a recipe. -/
def parseBodyLines (F : Nat) : Nat → Text → Option (List (List Fragment) × Text)
  | 0, _ => none
  | fuelL + 1, s =>
    if "    ".data.isPrefixOf s then
      match parseFragments F F (s.drop 4) with
      | some (frags, s2) =>
        match parseBodyLines F fuelL s2 with
        | some (ls, s3) => some (frags :: ls, s3)
        | none => none
      | none => none
    else some ([], s)

/-- Parse what follows a parameter's name: an optional `=`-prefixed
default value. -/
def parseParamTail (F : Nat) (variadic : Bool) (n : Text) :
    Text → Option (Param × Text)
  | c :: s3 =>
    if c = '=' then
      match parseExpr F s3 with
      | some (e, s4) => some (⟨n, variadic, some e⟩, s4)
      | none => none
    else some (⟨n, variadic, none⟩, c :: s3)
  | [] => some (⟨n, variadic, none⟩, [])

/-- Parse one parameter: an optional `+` variadic marker, a name and an
optional default. -/
def parseParam (F : Nat) (s : Text) : Option (Param × Text) :=
  match s with
  | [] => none
  | c :: rest =>
    if c = '+' then
      match parseIdent rest with
      | none => none
      | some (n, s2) => parseParamTail F true n s2
    else
      match parseIdent (c :: rest) with
      | none => none
      | some (n, s2) => parseParamTail F false n s2

/-- Parse the space-prefixed parameters of a recipe header. -/
def parseParams (F : Nat) : Nat → Text → Option (List Param × Text)
  | 0, _ => none
  | fuelP + 1, s =>
    match s with
    | c :: rest =>
      if c = ' ' then
        match parseParam F rest with
        | some (p, s2) =>
          match parseParams F fuelP s2 with
          | some (ps, s3) => some (p :: ps, s3)
          | none => none
        | none => none
      else some ([], s)
    | [] => some ([], s)

/-- Parse the space-prefixed dependencies of a recipe header. -/
def parseDeps : Nat → Text → Option (List Text × Text)
  | 0, _ => none
  | fuelD + 1, s =>
    match s with
    | c :: rest =>
      if c = ' ' then
        match parseIdent rest with
        | some (d, s2) =>
          match parseDeps fuelD s2 with
          | some (ds, s3) => some (d :: ds, s3)
          | none => none
        | none => none
      else some ([], s)
    | [] => some ([], s)

/-- Parse the remainder of a recipe after its name: parameters, colon,
dependencies, newline and body. -/
def parseRecipeRest (F : Nat) (n : Text) (quiet : Bool) (s : Text) :
    Option (RecipeAst × Text) :=
  match parseParams F F s with
  | none => none
  | some (ps, s2) =>
    match s2 with
    | [] => none
    | c :: s3 =>
      if c = ':' then
        match parseDeps F s3 with
        | none => none
        | some (ds, s4) =>
          match s4 with
          | [] => none
          | c2 :: s5 =>
            if c2 = '\n' then
              match parseBodyLines F F s5 with
              | some (body, s6) => some (⟨n, quiet, ps, ds, body⟩, s6)
              | none => none
            else none
      else none

/-- One top-level item. -/
inductive Item where
  | asg (a : Assignment)
  | al (a : Alias)
  | recipe (r : RecipeAst)
deriving DecidableEq

/-- Parse `NAME := EXPR` followed by a newline. -/
def parseAssignBody (F : Nat) (s : Text) : Option ((Text × Expr) × Text) :=
  match parseIdent s with
  | none => none
  | some (n, s2) =>
    if " := ".data.isPrefixOf s2 then
      match parseExpr F (s2.drop 4) with
      | some (e, s3) =>
        match s3 with
        | c :: s4 => if c = '\n' then some ((n, e), s4) else none
        | [] => none
      | none => none
    else none

/-- Parse one top-level item: an alias, an exported assignment, a quiet
recipe, a plain assignment or a plain recipe. -/
def parseItem (F : Nat) (s : Text) : Option (Item × Text) :=
  if "alias ".data.isPrefixOf s then
    match parseIdent (s.drop 6) with
    | none => none
    | some (n, s2) =>
      if " := ".data.isPrefixOf s2 then
        match parseIdent (s2.drop 4) with
        | none => none
        | some (t, s3) =>
          match s3 with
          | c :: s4 => if c = '\n' then some (.al ⟨n, t⟩, s4) else none
          | [] => none
      else none
  else if "export ".data.isPrefixOf s then
    match parseAssignBody F (s.drop 7) with
    | some (ne, s2) => some (.asg ⟨ne.1, ne.2, true⟩, s2)
    | none => none
  else
    match s with
    | [] => none
    | c :: rest =>
      if c = '@' then
        match parseIdent rest with
        | none => none
        | some (n, s2) =>
          match parseRecipeRest F n true s2 with
          | some (r, s3) => some (.recipe r, s3)
          | none => none
      else
        match parseIdent s with
        | none => none
        | some (n, s2) =>
          if " := ".data.isPrefixOf s2 then
            match parseExpr F (s2.drop 4) with
            | some (e, s3) =>
              match s3 with
              | c2 :: s4 => if c2 = '\n' then some (.asg ⟨n, e, false⟩, s4) else none
              | [] => none
            | none => none
          else
            match parseRecipeRest F n false s2 with
            | some (r, s3) => some (.recipe r, s3)
            | none => none

/-- Rebuild a justfile from a parsed item and the justfile of the
remaining items. -/
def consItem : Item → Justfile → Justfile
  | .asg a, j => ⟨a :: j.assignments, j.aliases, j.recipes⟩
  | .al a, j => ⟨j.assignments, a :: j.aliases, j.recipes⟩
  | .recipe r, j => ⟨j.assignments, j.aliases, r :: j.recipes⟩

/-- Parse a sequence of items up to the end of the text. -/
def parseItems (F : Nat) : Nat → Text → Option Justfile
  | 0, _ => none
  | fuelI + 1, s =>
    match s with
    | [] => some ⟨[], [], []⟩
    | _ :: _ =>
      match parseItem F s with
      | some (item, s2) =>
        match parseItems F fuelI s2 with
        | some j => some (consItem item j)
        | none => none
      | none => none

/-- The compile step, on canonical text: parse a whole justfile. -/
def parseJustfile (text : Text) : Option Justfile :=
  parseItems (text.length + 1) (text.length + 1) text

/-- `e` is not a concatenation (concatenations are right-nested). -/
def notConcat : Expr → Bool
  | .concat _ _ => false
  | _ => true

/-- Well-formed expressions, as the analyzer §3 and the lexer §4.1
guarantee them: identifiers as variables, no backtick inside a backtick
command, right-nested concatenations. -/
def exprWF : Expr → Bool
  | .lit _ => true
  | .backtick cmd => cmd.all (fun c => ¬ c = '\x60')
  | .var n => isIdent n
  | .concat l r => notConcat l && exprWF l && exprWF r
  | .group e => exprWF e

/-- Whether the text contains a `\x7b\x7b` interpolation opener. -/
def hasOpenBrace : Text → Bool
  | c :: d :: rest => (c = '\x7b' && d = '\x7b') || hasOpenBrace (d :: rest)
  | _ => false

/-- Well-formed body lines: nonempty literal fragments free of newlines
and interpolation openers, no two adjacent literal fragments, and no
literal fragment ending in `\x7b` directly before an interpolation. -/
def lineWF : List Fragment → Bool
  | [] => true
  | .interp e :: rest => exprWF e && lineWF rest
  | .text t :: rest =>
    (¬ t.isEmpty) && t.all (fun c => ¬ c = '\n') && (¬ hasOpenBrace t) &&
      (match rest with
       | [] => true
       | .text _ :: _ => false
       | .interp _ :: _ => ¬ t.getLast? = some '\x7b') &&
      lineWF rest

/-- Well-formed parameters. -/
def paramWF (p : Param) : Bool :=
  isIdent p.name &&
    (match p.dflt with
     | some e => exprWF e
     | none => true)

/-- Well-formed recipes; a non-quiet recipe named like the `alias` or
`export` keyword can carry no parameters (its header would otherwise
collide with the keyword form). -/
def recipeWF (r : RecipeAst) : Bool :=
  isIdent r.name && r.params.all paramWF && r.deps.all isIdent &&
    r.body.all lineWF &&
    (r.quiet || !(r.name = "alias".data || r.name = "export".data) ||
      r.params.isEmpty)

/-- Well-formed assignments; a non-exported assignment cannot be named
like a keyword. -/
def assignmentWF (a : Assignment) : Bool :=
  isIdent a.name && exprWF a.expression &&
    (a.exported || (¬ a.name = "alias".data && ¬ a.name = "export".data))

/-- Well-formed aliases. -/
def aliasWF (al : Alias) : Bool := isIdent al.name && isIdent al.target

/-- The invariants §3 guarantees of every justfile the compile step
produces, as far as the canonical printer is concerned. -/
def justfileWF (j : Justfile) : Bool :=
  j.assignments.all assignmentWF && j.aliases.all aliasWF &&
    j.recipes.all recipeWF

/-- Canonical pretty-printing of one item. -/
def dumpItem : Item → Text
  | .asg a => dumpAssignment a
  | .al a => dumpAlias a
  | .recipe r => dumpRecipe r

/-- Well-formedness of one item. -/
def itemWF : Item → Bool
  | .asg a => assignmentWF a
  | .al a => aliasWF a
  | .recipe r => recipeWF r

/-- Canonical pretty-printing of an item sequence. -/
def dumpItems (items : List Item) : Text :=
  (items.map dumpItem).flatten

/-- The items of a justfile, in dump order. -/
def itemsOf (j : Justfile) : List Item :=
  j.assignments.map .asg ++ j.aliases.map .al ++ j.recipes.map .recipe

/-- Whether a text's first character fails a test (vacuously true for the
empty text). -/
def headNo (p : Char → Bool) : Text → Bool
  | [] => true
  | c :: _ => ! p c

/-- Round-trip fixture: a justfile with exported and plain assignments, an
alias, and quiet and plain recipes with parameters, defaults, variadics,
dependencies, interpolations and an empty body line. -/
def rtJf : Justfile :=
  ⟨[⟨"foo".data, Expr.concat (Expr.lit "bar".data)
      (Expr.backtick "echo hi".data), true⟩,
    ⟨"opt".data, Expr.group (Expr.var "foo".data), false⟩],
   [⟨"b".data, "build".data⟩],
   [⟨"build".data, false,
     [⟨"target".data, false, some (Expr.lit "all".data)⟩,
      ⟨"flags".data, true, none⟩],
     ["other".data],
     [[Fragment.text "echo ".data, Fragment.interp (Expr.var "target".data)],
      []]⟩,
    ⟨"other".data, true, [], [], [[Fragment.text "ok".data]]⟩]⟩

/-- The canonical text of the round-trip fixture. -/
def rtText : Text := dumpJustfile rtJf

/-! ## Helper lemmas on list scanning -/

theorem dropWhile_append_forall {α} {p : α → Bool} {a : List α} (s : List α)
    (h : ∀ c ∈ a, p c = true) : (a ++ s).dropWhile p = s.dropWhile p := by
  induction a with
  | nil => rfl
  | cons x xs ih =>
      simp only [List.cons_append, List.dropWhile_cons, h x (by simp)]
      exact ih fun c hc => h c (by simp [hc])

theorem dropWhile_forall_neg {α} {p : α → Bool} {s : List α}
    (h : ∀ c ∈ s, p c = false) : s.dropWhile p = s := by
  cases s with
  | nil => rfl
  | cons x xs => simp [List.dropWhile_cons, h x (by simp)]

theorem dropWhile_head_neg {α} {p : α → Bool} {s t : List α} {c : α}
    (h : s.dropWhile p = c :: t) : p c = false := by
  induction s with
  | nil => simp [List.dropWhile] at h
  | cons x xs ih =>
      rw [List.dropWhile_cons] at h
      by_cases hx : p x = true
      · exact ih (by simpa [hx] using h)
      · simp [hx] at h
        simp [← h.1]
        simpa using hx

theorem dropWhile_is_suffix {α} (p : α → Bool) (s : List α) :
    ∃ u, s = u ++ s.dropWhile p := by
  induction s with
  | nil => exact ⟨[], rfl⟩
  | cons x xs ih =>
      rw [List.dropWhile_cons]
      by_cases hx : p x = true
      · obtain ⟨u, hu⟩ := ih
        exact ⟨x :: u, by simp [hx, List.cons_append, ← hu]⟩
      · exact ⟨[], by simp [hx]⟩

theorem takeWhile_forall {α} {p : α → Bool} {s : List α}
    (h : ∀ c ∈ s, p c = true) : s.takeWhile p = s := by
  induction s with
  | nil => rfl
  | cons x xs ih =>
      simp only [List.takeWhile_cons, h x (by simp)]
      simp [ih fun c hc => h c (by simp [hc])]

theorem takeWhile_append_sep {α} {p : α → Bool} {a : List α} {c : α} (b : List α)
    (ha : ∀ x ∈ a, p x = true) (hc : p c = false) :
    (a ++ c :: b).takeWhile p = a := by
  induction a with
  | nil => simp [List.takeWhile_cons, hc]
  | cons x xs ih =>
      simp only [List.cons_append, List.takeWhile_cons, ha x (by simp)]
      simp [ih fun y hy => ha y (by simp [hy])]

theorem splitOnceP_forall_neg {p : Char → Bool} {s : Text}
    (h : ∀ c ∈ s, p c = false) : splitOnceP p s = (s, none) := by
  induction s with
  | nil => rfl
  | cons x xs ih =>
      rw [splitOnceP]
      simp only [h x (by simp)]
      simp [ih fun c hc => h c (by simp [hc])]

theorem splitOnceP_append_sep {p : Char → Bool} {a : Text} {c : Char} (r : Text)
    (ha : ∀ x ∈ a, p x = false) (hc : p c = true) :
    splitOnceP p (a ++ c :: r) = (a, some r) := by
  induction a with
  | nil => simp [splitOnceP, hc]
  | cons x xs ih =>
      rw [List.cons_append, splitOnceP]
      simp only [ha x (by simp)]
      simp [ih fun y hy => ha y (by simp [hy])]

theorem trimEndP_append_forall {p : Char → Bool} {b : Text} (s : Text)
    (h : ∀ c ∈ b, p c = true) : trimEndP p (s ++ b) = trimEndP p s := by
  unfold trimEndP
  rw [List.reverse_append,
    dropWhile_append_forall _ (fun c hc => h c (by simpa using hc))]

theorem trimEndP_forall_neg {p : Char → Bool} {s : Text}
    (h : ∀ c ∈ s, p c = false) : trimEndP p s = s := by
  unfold trimEndP
  rw [dropWhile_forall_neg (fun c hc => h c (by simpa using hc)), List.reverse_reverse]

theorem trimEndP_last_neg {p : Char → Bool} {a : Text} {c : Char}
    (hc : p c = false) : trimEndP p (a ++ [c]) = a ++ [c] := by
  unfold trimEndP
  rw [List.reverse_append]
  simp only [List.reverse_singleton, List.singleton_append, List.dropWhile_cons, hc]
  simp

theorem trimEndP_head {p : Char → Bool} {s t : Text} {c : Char}
    (h : trimEndP p s = c :: t) : ∃ u, s = c :: u := by
  obtain ⟨v, hv⟩ := dropWhile_is_suffix p s.reverse
  have hs : s = trimEndP p s ++ v.reverse := by
    unfold trimEndP
    conv_lhs => rw [← s.reverse_reverse, hv]
    simp
  exact ⟨t ++ v.reverse, by rw [hs, h]; simp⟩

theorem rustTrim_head_not_ws {s t : Text} {c : Char}
    (h : rustTrim s = c :: t) : rustWhitespace c = false := by
  unfold rustTrim trimP at h
  obtain ⟨u, hu⟩ := trimEndP_head h
  have hu2 : s.dropWhile rustWhitespace = c :: u := hu
  exact dropWhile_head_neg hu2

theorem spaceTab_whitespace {c : Char} (h : isSpaceTab c = true) :
    rustWhitespace c = true := by
  simp only [isSpaceTab, Bool.or_eq_true, decide_eq_true_eq] at h
  rcases h with h | h <;> subst h <;> decide

theorem spaceTab_ne_newline {c : Char} (h : isSpaceTab c = true) : ¬ c = '\n' := by
  simp only [isSpaceTab, Bool.or_eq_true, decide_eq_true_eq] at h
  rcases h with h | h <;> subst h <;> decide

theorem not_ws_ne_newline {c : Char} (h : rustWhitespace c = false) : ¬ c = '\n' := by
  intro hc
  subst hc
  simp [rustWhitespace] at h

theorem not_ws_not_spaceTab {c : Char} (h : rustWhitespace c = false) :
    isSpaceTab c = false := by
  by_contra hc
  rw [spaceTab_whitespace (by simpa using hc)] at h
  exact absurd h (by simp)

theorem firstLine_no_newline {s : Text} (h : '\n' ∉ s) : firstLine s = s := by
  unfold firstLine
  rw [if_neg h]

theorem isPrefixOf_append {α} [BEq α] [LawfulBEq α] (a s : List α) :
    a.isPrefixOf (a ++ s) = true := by
  induction a with
  | nil => simp [List.isPrefixOf]
  | cons x xs ih => simp [List.isPrefixOf, ih]

theorem dropWhile_length_le {α} (p : α → Bool) (s : List α) :
    (s.dropWhile p).length ≤ s.length := by
  induction s with
  | nil => simp
  | cons x xs ih =>
      rw [List.dropWhile_cons]
      by_cases hx : p x = true
      · simp only [hx, if_true]
        exact Nat.le_succ_of_le ih
      · simp [hx]

theorem trimEndP_length_le (p : Char → Bool) (s : Text) :
    (trimEndP p s).length ≤ s.length := by
  unfold trimEndP
  simpa using dropWhile_length_le p s.reverse

theorem last_not_of_trimEndP_fixed {p : Char → Bool} {a : Text} {ch : Char}
    (h : trimEndP p (a ++ [ch]) = a ++ [ch]) : p ch = false := by
  by_contra hch
  have hch2 : p ch = true := by simpa using hch
  have h2 : trimEndP p (a ++ [ch]) = trimEndP p a :=
    trimEndP_append_forall a (by simpa using hch2)
  have h3 := trimEndP_length_le p a
  rw [h2] at h
  have h4 : (a ++ [ch]).length = a.length + 1 := by simp
  have h5 : (trimEndP p a).length = (a ++ [ch]).length := by rw [h]
  omega

theorem rustTrim_pad {p1 p2 core : Text}
    (hp1 : ∀ ch ∈ p1, rustWhitespace ch = true)
    (hp2 : ∀ ch ∈ p2, rustWhitespace ch = true)
    (hhead : ∃ i itail, core = i :: itail ∧ rustWhitespace i = false)
    (hlast : ∃ a ch, core = a ++ [ch] ∧ rustWhitespace ch = false) :
    rustTrim (p1 ++ core ++ p2) = core := by
  obtain ⟨i, itail, hcore, hi⟩ := hhead
  obtain ⟨a, ch, hcore2, hch⟩ := hlast
  unfold rustTrim trimP
  rw [List.append_assoc, dropWhile_append_forall _ hp1]
  have h1 : List.dropWhile rustWhitespace (core ++ p2) = core ++ p2 := by
    rw [hcore, List.cons_append, List.dropWhile_cons]
    simp [hi]
  rw [h1, trimEndP_append_forall _ hp2, hcore2]
  exact trimEndP_last_neg hch

/-! ## Claim C7: shebang line splitting -/

/-- C7 counterexample: on the line `#!a  b` the code's `Shebang::new`
produces the argument `" b"` (everything after the first space or tab
character), while splitting on the first *run* of space/tab characters, as
the claim states, would produce the argument `"b"`. -/
theorem shebang_split_counterexample :
    Shebang.new "#!a  b".data = some ⟨"a".data, some " b".data⟩ ∧
    splitFirstRun (rustTrim (firstLine ("#!a  b".data.drop 2))) =
      ("a".data, some "b".data) ∧
    some " b".data ≠ some "b".data := by
  refine ⟨by decide, by decide, by decide⟩

/-- C7 (amended): `Shebang::new` trims the post-`#!` portion of the first
line and splits it at the first space-or-tab *character*: the interpreter
field is the text before that character and the argument field is all of
the text after it (it may itself begin with further spaces or tabs);
leading and trailing space/tab padding around the portion does not affect
the result, and the child is invoked as `interpreter [argument] tempfile`. -/
theorem shebang_split_amended (p1 p2 interp r : Text) (c : Char)
    (hp1 : ∀ ch ∈ p1, isSpaceTab ch = true)
    (hp2 : ∀ ch ∈ p2, isSpaceTab ch = true)
    (hne : interp ≠ [])
    (hws : ∀ ch ∈ interp, rustWhitespace ch = false)
    (hc : isSpaceTab c = true)
    (hrn : '\n' ∉ r)
    (htr : trimEndP rustWhitespace r = r) :
    Shebang.new ("#!".data ++ p1 ++ interp ++ p2) = some ⟨interp, none⟩ ∧
    (r ≠ [] →
      Shebang.new ("#!".data ++ p1 ++ interp ++ c :: r ++ p2) =
        some ⟨interp, some r⟩) ∧
    (∀ i a tmp, Shebang.command ⟨i, some a⟩ tmp = [i, a, tmp] ∧
      Shebang.command ⟨i, none⟩ tmp = [i, tmp]) := by
  obtain ⟨i0, itail, rfl⟩ := List.exists_cons_of_ne_nil hne
  have hi0 : rustWhitespace i0 = false := hws i0 (by simp)
  have hp1w : ∀ ch ∈ p1, rustWhitespace ch = true :=
    fun ch hch => spaceTab_whitespace (hp1 ch hch)
  have hp2w : ∀ ch ∈ p2, rustWhitespace ch = true :=
    fun ch hch => spaceTab_whitespace (hp2 ch hch)
  refine ⟨?_, ?_, fun i a tmp => ⟨rfl, rfl⟩⟩
  · have hx : '\n' ∉ p1 ++ (i0 :: itail) ++ p2 := by
      intro hmem
      simp only [List.mem_append, List.mem_cons] at hmem
      rcases hmem with (hmem | hmem) | hmem
      · exact spaceTab_ne_newline (hp1 _ hmem) rfl
      · rcases hmem with hmem | hmem
        · exact not_ws_ne_newline hi0 hmem.symm
        · exact not_ws_ne_newline (hws _ (by simp [hmem])) rfl
      · exact spaceTab_ne_newline (hp2 _ hmem) rfl
    have hdrop : ("#!".data ++ p1 ++ (i0 :: itail) ++ p2).drop 2 =
        p1 ++ (i0 :: itail) ++ p2 := rfl
    have hlast : ∃ a ch, (i0 :: itail : Text) = a ++ [ch] ∧
        rustWhitespace ch = false := by
      obtain (h | ⟨a, ch, hch⟩) := (i0 :: itail : Text).eq_nil_or_concat
      · exact absurd h (by simp)
      · rw [List.concat_eq_append] at hch
        exact ⟨a, ch, hch, hws ch (by rw [hch]; simp)⟩
    unfold Shebang.new
    rw [if_pos (by
      have : "#!".data ++ p1 ++ (i0 :: itail) ++ p2 =
          "#!".data ++ (p1 ++ (i0 :: itail) ++ p2) := by simp
      rw [this]
      exact isPrefixOf_append _ _)]
    rw [hdrop, firstLine_no_newline hx,
      rustTrim_pad hp1w hp2w ⟨i0, itail, rfl, hi0⟩ hlast]
    simp [splitOnceP_forall_neg (fun ch hch => not_ws_not_spaceTab (hws ch hch))]
  · intro hrne
    have hx : '\n' ∉ p1 ++ (i0 :: itail) ++ c :: r ++ p2 := by
      intro hmem
      simp only [List.mem_append, List.mem_cons] at hmem
      rcases hmem with ((hmem | hmem) | hmem) | hmem
      · exact spaceTab_ne_newline (hp1 _ hmem) rfl
      · rcases hmem with hmem | hmem
        · exact not_ws_ne_newline hi0 hmem.symm
        · exact not_ws_ne_newline (hws _ (by simp [hmem])) rfl
      · rcases hmem with hmem | hmem
        · exact spaceTab_ne_newline hc hmem.symm
        · exact hrn hmem
      · exact spaceTab_ne_newline (hp2 _ hmem) rfl
    have hlast : ∃ a ch, ((i0 :: itail) ++ c :: r : Text) = a ++ [ch] ∧
        rustWhitespace ch = false := by
      obtain (h | ⟨a, ch, hch⟩) := r.eq_nil_or_concat
      · exact absurd h hrne
      · rw [List.concat_eq_append] at hch
        refine ⟨(i0 :: itail) ++ c :: a, ch, by rw [hch]; simp, ?_⟩
        have htr2 : trimEndP rustWhitespace (a ++ [ch]) = a ++ [ch] := by
          rw [← hch]; exact htr
        exact last_not_of_trimEndP_fixed htr2
    have hdrop : ("#!".data ++ p1 ++ (i0 :: itail) ++ c :: r ++ p2).drop 2 =
        p1 ++ (i0 :: itail) ++ c :: r ++ p2 := rfl
    unfold Shebang.new
    rw [if_pos (by
      have : "#!".data ++ p1 ++ (i0 :: itail) ++ c :: r ++ p2 =
          "#!".data ++ (p1 ++ (i0 :: itail) ++ c :: r ++ p2) := by simp
      rw [this]
      exact isPrefixOf_append _ _)]
    rw [hdrop]
    have hassoc : p1 ++ (i0 :: itail) ++ c :: r ++ p2 =
        p1 ++ ((i0 :: itail) ++ c :: r) ++ p2 := by simp
    rw [hassoc, firstLine_no_newline (by rw [← hassoc]; exact hx),
      rustTrim_pad hp1w hp2w ⟨i0, itail ++ c :: r, by simp, hi0⟩ hlast]
    simp only [splitOnceP_append_sep r
      (fun ch hch => not_ws_not_spaceTab (hws ch hch)) hc]
    simp

/-- Witness for C7: the amended split theorem at the line `#! /bin/sh -x`. -/
theorem shebang_split_amended_witness :
    Shebang.new "#! /bin/sh -x".data = some ⟨"/bin/sh".data, some "-x".data⟩ := by
  have h := (shebang_split_amended [' '] [] "/bin/sh".data "-x".data ' '
    (by decide) (by decide) (by decide) (by decide) (by decide) (by decide)
    (by decide)).2.1 (by decide)
  exact h

/-! ## Claim C8: temp-file naming and shebang-line inclusion -/

/-- C8 counterexample: for the interpreter `/bin/cmd` — which is none of
`cmd`, `cmd.exe`, `powershell`, `powershell.exe` — the temp filename is
`foo.bat`, not the recipe name `foo`, and the shebang line is stripped:
the classification uses the final path component, not the interpreter. -/
theorem script_filename_counterexample :
    Shebang.new "#!/bin/cmd".data = some ⟨"/bin/cmd".data, none⟩ ∧
    "/bin/cmd".data ≠ "cmd".data ∧ "/bin/cmd".data ≠ "cmd.exe".data ∧
    "/bin/cmd".data ≠ "powershell".data ∧
    "/bin/cmd".data ≠ "powershell.exe".data ∧
    Shebang.script_filename ⟨"/bin/cmd".data, none⟩ "foo".data =
      "foo.bat".data ∧
    "foo.bat".data ≠ "foo".data ∧
    Shebang.include_shebang_line ⟨"/bin/cmd".data, none⟩ = false := by
  refine ⟨by decide, by decide, by decide, by decide, by decide, by decide,
    by decide, by decide⟩

/-- C8 (amended): the classification is made on the final path component of
the interpreter: when it is `cmd` or `cmd.exe` the temp filename is the
recipe name with `.bat` and the shebang line is stripped; when it is
`powershell` or `powershell.exe` the filename uses `.ps1` and the shebang
line is kept; otherwise the filename is exactly the recipe's name and the
shebang line is kept. -/
theorem script_filename_amended (sb : Shebang) (recipe : Text) :
    (sb.interpreter_filename = "cmd".data ∨
        sb.interpreter_filename = "cmd.exe".data →
      sb.script_filename recipe = recipe ++ ".bat".data ∧
      sb.include_shebang_line = false) ∧
    (sb.interpreter_filename = "powershell".data ∨
        sb.interpreter_filename = "powershell.exe".data →
      sb.script_filename recipe = recipe ++ ".ps1".data ∧
      sb.include_shebang_line = true) ∧
    (sb.interpreter_filename ∉
        ["cmd".data, "cmd.exe".data, "powershell".data, "powershell.exe".data] →
      sb.script_filename recipe = recipe ∧
      sb.include_shebang_line = true) := by
  refine ⟨fun h => ?_, fun h => ?_, fun h => ?_⟩
  · constructor
    · unfold Shebang.script_filename
      rw [if_pos h]
    · unfold Shebang.include_shebang_line
      rw [if_pos h]
  · have hcmd : ¬ (sb.interpreter_filename = "cmd".data ∨
        sb.interpreter_filename = "cmd.exe".data) := by
      rcases h with h | h <;> rw [h] <;> decide
    constructor
    · unfold Shebang.script_filename
      rw [if_neg hcmd, if_pos h]
    · unfold Shebang.include_shebang_line
      rw [if_neg hcmd]
  · simp only [List.mem_cons, List.mem_singleton] at h
    push_neg at h
    obtain ⟨h1, h2, h3, h4⟩ := h
    constructor
    · unfold Shebang.script_filename
      rw [if_neg (by simp [h1, h2]), if_neg (by simp [h3, h4])]
    · unfold Shebang.include_shebang_line
      rw [if_neg (by simp [h1, h2])]

/-- Witness for C8: the amended classification theorem at the interpreter
`a/powershell`, whose final path component is `powershell`. -/
theorem script_filename_amended_witness :
    Shebang.script_filename ⟨"a/powershell".data, none⟩ "foo".data =
      "foo".data ++ ".ps1".data ∧
    Shebang.include_shebang_line ⟨"a/powershell".data, none⟩ = true :=
  (script_filename_amended ⟨"a/powershell".data, none⟩ "foo".data).2.1
    (Or.inl (by decide))

/-! ## Claim C9: when `Shebang::new` returns `None` -/

/-- C9 counterexample: on the line `#!\r` the code returns `None` — Rust's
`str::trim` strips the carriage return, leaving an empty interpreter — but
the claim's condition (the post-`#!` text trimmed of spaces and tabs only
is empty) does not hold there, so the claimed "exactly when" fails. -/
theorem shebang_new_none_counterexample :
    Shebang.new "#!\r".data = none ∧
    "#!".data.isPrefixOf "#!\r".data = true ∧
    trimSpaceTab (firstLine ("#!\r".data.drop 2)) ≠ [] := by
  refine ⟨by decide, by decide, by decide⟩

/-- C9 (amended): `Shebang::new(line)` returns `None` exactly when the line
does not begin with `#!` or when the text after `#!` (up to the first
newline, trimmed of Unicode whitespace as by Rust's `str::trim` — not only
of spaces and tabs) is empty; any recognized shebang has a non-empty
interpreter; and the `cmd`/`powershell` classification is made on the final
path component of the interpreter, splitting on either `/` or `\`. -/
theorem shebang_new_none_amended :
    (∀ line : Text, Shebang.new line = none ↔
      ("#!".data.isPrefixOf line = false ∨
        rustTrim (firstLine (line.drop 2)) = [])) ∧
    (∀ line : Text, ∀ sb, Shebang.new line = some sb → sb.interpreter ≠ []) ∧
    (∀ pre rest : Text, ∀ c : Char, ∀ arg recipe,
      (c = '/' ∨ c = '\\') → (∀ ch ∈ rest, ch ≠ '/' ∧ ch ≠ '\\') →
      Shebang.interpreter_filename ⟨pre ++ c :: rest, arg⟩ = rest ∧
      Shebang.script_filename ⟨pre ++ c :: rest, arg⟩ recipe =
        Shebang.script_filename ⟨rest, arg⟩ recipe ∧
      Shebang.include_shebang_line ⟨pre ++ c :: rest, arg⟩ =
        Shebang.include_shebang_line ⟨rest, arg⟩) := by
  refine ⟨fun line => ?_, fun line sb h => ?_, fun pre rest c arg recipe hc hrest => ?_⟩
  · unfold Shebang.new
    by_cases hp : "#!".data.isPrefixOf line = true
    · rw [if_pos hp]
      rcases ht : rustTrim (firstLine (line.drop 2)) with _ | ⟨c, ts⟩
      · simp [splitOnceP, hp]
      · have hcw : rustWhitespace c = false := rustTrim_head_not_ws ht
        have hcs : isSpaceTab c = false := not_ws_not_spaceTab hcw
        simp [splitOnceP, hcs, hp]
    · rw [if_neg hp]
      simp only [Bool.not_eq_true] at hp
      simp [hp]
  · unfold Shebang.new at h
    by_cases hp : "#!".data.isPrefixOf line = true
    · rw [if_pos hp] at h
      by_cases hi : (splitOnceP isSpaceTab (rustTrim (firstLine (line.drop 2)))).1 = []
      · rw [if_pos hi] at h
        exact absurd h (by simp)
      · rw [if_neg hi] at h
        have := Option.some.inj h
        rw [← this]
        exact hi
    · rw [if_neg hp] at h
      exact absurd h (by simp)
  · have hcsl : isSlash c = true := by
      rcases hc with hc | hc <;> subst hc <;> decide
    have hall : ∀ x ∈ rest.reverse, (! isSlash x) = true := by
      intro x hx
      have hx2 := hrest x (by simpa using hx)
      simp [isSlash, hx2.1, hx2.2]
    have hfn1 : Shebang.interpreter_filename ⟨pre ++ c :: rest, arg⟩ = rest := by
      unfold Shebang.interpreter_filename
      have hrev : (pre ++ c :: rest).reverse = rest.reverse ++ c :: pre.reverse := by
        simp
      rw [hrev, takeWhile_append_sep pre.reverse hall (by simp [hcsl]),
        List.reverse_reverse]
    have hfn2 : Shebang.interpreter_filename ⟨rest, arg⟩ = rest := by
      unfold Shebang.interpreter_filename
      rw [takeWhile_forall hall, List.reverse_reverse]
    refine ⟨hfn1, ?_, ?_⟩
    · unfold Shebang.script_filename
      rw [hfn1, hfn2]
    · unfold Shebang.include_shebang_line
      rw [hfn1, hfn2]

theorem mem_of_lookup {α β} [BEq α] [LawfulBEq α] {k : α} {v : β} :
    ∀ {l : List (α × β)}, l.lookup k = some v → (k, v) ∈ l := by
  intro l
  induction l with
  | nil => intro h; simp [List.lookup] at h
  | cons x xs ih =>
      intro h
      rcases x with ⟨a, b⟩
      simp only [List.lookup] at h
      cases hk : k == a with
      | true =>
          rw [hk] at h
          simp only [] at h
          have hkv : (k, v) = (a, b) := by
            rw [eq_of_beq hk, Option.some.inj h]
          rw [hkv]
          exact List.mem_cons_self _ _
      | false =>
          rw [hk] at h
          exact List.mem_cons_of_mem _ (ih h)

theorem snoc_split {α} {l : List α} {x : α} :
    ∀ {pre post : List α} {m : α},
      l ++ [x] = pre ++ m :: post →
      (pre = l ∧ m = x ∧ post = []) ∨
        ∃ post2, l = pre ++ m :: post2 ∧ post = post2 ++ [x] := by
  induction l with
  | nil =>
      intro pre post m h
      rcases pre with _ | ⟨p, ps⟩
      · simp only [List.nil_append] at h
        obtain ⟨h1, h2⟩ := List.cons.inj h.symm
        exact Or.inl ⟨rfl, h1, h2⟩
      · exfalso
        simp only [List.nil_append, List.cons_append] at h
        have := congrArg List.length h
        simp at this
  | cons y ys ih =>
      intro pre post m h
      rcases pre with _ | ⟨p, ps⟩
      · simp only [List.cons_append, List.nil_append] at h
        obtain ⟨hm, hpost⟩ := List.cons.inj h
        exact Or.inr ⟨ys, by simp [hm], hpost.symm⟩
      · simp only [List.cons_append] at h
        obtain ⟨hy, hrest⟩ := List.cons.inj h
        rcases ih hrest with ⟨h1, h2, h3⟩ | ⟨post2, h1, h2⟩
        · exact Or.inl ⟨by rw [hy, h1], h2, h3⟩
        · exact Or.inr ⟨post2, by rw [hy, h1]; simp, h2⟩

theorem depsBefore_snoc {g : DepGraph} {ran2 : List Text} {n : Text}
    (hdb : depsBefore g ran2) (hdeps : ∀ d ∈ depsOf g n, d ∈ ran2) :
    depsBefore g (ran2 ++ [n]) := by
  intro pre m post heq d hd
  rcases snoc_split heq with ⟨hpre, hm, hpost⟩ | ⟨post2, hl, hpost⟩
  · rw [hpre]
    rw [hm] at hd
    exact hdeps d hd
  · exact hdb pre m post2 hl d hd

theorem visit_sound (g : DepGraph) (rank : Text → Nat)
    (hrank : ∀ n, ∀ d ∈ depsOf g n, rank d < rank n) :
    ∀ fuel : Nat,
      (∀ (n : Text) (ran : List Text), rank n < fuel →
        ran.Nodup → depsBefore g ran →
        ∃ out ext, visitOne g fuel ran n = some out ∧
          out = ran ++ ext ∧ out.Nodup ∧ depsBefore g out ∧
          (∀ x ∈ ext, rank x ≤ rank n) ∧ n ∈ out) ∧
      (∀ (l ran : List Text), (∀ x ∈ l, rank x < fuel) →
        ran.Nodup → depsBefore g ran →
        ∃ out ext, goList (visitOne g fuel) ran l = some out ∧
          out = ran ++ ext ∧ out.Nodup ∧ depsBefore g out ∧
          (∀ x ∈ ext, ∃ y ∈ l, rank x ≤ rank y) ∧
          (∀ x ∈ l, x ∈ out)) := by
  intro fuel
  induction fuel using Nat.strong_induction_on with
  | _ fuel ihf =>
    have hP1 : ∀ (n : Text) (ran : List Text), rank n < fuel →
        ran.Nodup → depsBefore g ran →
        ∃ out ext, visitOne g fuel ran n = some out ∧
          out = ran ++ ext ∧ out.Nodup ∧ depsBefore g out ∧
          (∀ x ∈ ext, rank x ≤ rank n) ∧ n ∈ out := by
      intro n ran hn hnd hdb
      cases fuel with
      | zero => exact absurd hn (by omega)
      | succ fuel2 =>
          by_cases hmem : n ∈ ran
          · exact ⟨ran, [], by simp [visitOne, hmem], by simp, hnd, hdb,
              by simp, hmem⟩
          · obtain ⟨ran2, ext2, hgo, hran2, hnd2, hdb2, hbound2, hsub2⟩ :=
              (ihf fuel2 (by omega)).2 (depsOf g n) ran
                (fun d hd => by
                  have h1 := hrank n d hd
                  omega)
                hnd hdb
            have hn2 : n ∉ ran2 := by
              rw [hran2]
              intro hmm
              rcases List.mem_append.mp hmm with hmm | hmm
              · exact hmem hmm
              · obtain ⟨y, hy, hle⟩ := hbound2 n hmm
                have := hrank n y hy
                omega
            have hnd2b : (ran2 ++ [n]).Nodup := by
              rw [List.nodup_append]
              exact ⟨hnd2, List.nodup_singleton n, by
                intro x hx hx2
                rw [List.mem_singleton.mp hx2] at hx
                exact hn2 hx⟩
            have hdb2b : depsBefore g (ran2 ++ [n]) :=
              depsBefore_snoc hdb2 (fun d hd => hsub2 d hd)
            refine ⟨ran2 ++ [n], ext2 ++ [n], ?_, ?_, hnd2b, hdb2b, ?_, ?_⟩
            · simp [visitOne, hmem, hgo]
            · rw [hran2]
              simp
            · intro x hx
              rcases List.mem_append.mp hx with hx | hx
              · obtain ⟨y, hy, hle⟩ := hbound2 x hx
                have := hrank n y hy
                omega
              · simp [List.mem_singleton.mp hx]
            · exact List.mem_append_right _ (by simp)
    refine ⟨hP1, ?_⟩
    intro l
    induction l with
    | nil =>
        intro ran hl hnd hdb
        exact ⟨ran, [], rfl, by simp, hnd, hdb, by simp, by simp⟩
    | cons n ns ihl =>
        intro ran hl hnd hdb
        obtain ⟨out1, ext1, hv1, hout1, hnd1, hdb1, hbound1, hmem1⟩ :=
          hP1 n ran (hl n (by simp)) hnd hdb
        obtain ⟨out, ext2, hgo, hout, hnd2, hdb2, hbound2, hsub2⟩ :=
          ihl out1 (fun x hx => hl x (by simp [hx])) hnd1 hdb1
        refine ⟨out, ext1 ++ ext2, ?_, ?_, hnd2, hdb2, ?_, ?_⟩
        · show goList (visitOne g fuel) ran (n :: ns) = some out
          rw [goList]
          simp only [hv1]
          exact hgo
        · rw [hout, hout1]
          simp
        · intro x hx
          rcases List.mem_append.mp hx with hx | hx
          · exact ⟨n, by simp, hbound1 x hx⟩
          · obtain ⟨y, hy, hle⟩ := hbound2 x hx
            exact ⟨y, by simp [hy], hle⟩
        · intro x hx
          rcases List.mem_cons.mp hx with rfl | hx
          · rw [hout]
            exact List.mem_append_left _ hmem1
          · exact hsub2 x hx

theorem lookup_append {α β} [BEq α] (k : α) (l1 l2 : List (α × β)) :
    (l1 ++ l2).lookup k =
      match l1.lookup k with
      | some v => some v
      | none => l2.lookup k := by
  induction l1 with
  | nil => simp [List.lookup]
  | cons x xs ih =>
      rcases x with ⟨a, b⟩
      simp only [List.cons_append, List.lookup]
      by_cases hk : (k == a) = true
      · simp [hk]
      · simp only [Bool.not_eq_true] at hk
        simp [hk, ih]

theorem evalAssignments_extends (shell : Shell) (ov : List (Text × Text)) :
    ∀ (asgs : List Assignment) (scope sc : List (Text × Text)),
      evalAssignments shell ov asgs scope = .ok sc → ∃ ext, sc = scope ++ ext := by
  intro asgs
  induction asgs with
  | nil =>
      intro scope sc h
      exact ⟨[], by simpa using (Except.ok.inj h).symm⟩
  | cons b rest ih =>
      intro scope sc h
      simp only [evalAssignments] at h
      split at h
      · rename_i w hw
        obtain ⟨ext, hext⟩ := ih _ _ h
        exact ⟨(b.name, w) :: ext, by rw [hext]; simp⟩
      · split at h
        · rename_i hw v2 hev
          obtain ⟨ext, hext⟩ := ih _ _ h
          exact ⟨(b.name, v2) :: ext, by rw [hext]; simp⟩
        · exact absurd h (by simp)

/-! ## Inversion of the canonical parser against the printer -/

theorem ne_of_pred {p : Char → Bool} {c d : Char} (hc : p c = true)
    (hd : p d = false) : ¬ c = d := by
  intro h
  rw [h, hd] at hc
  exact absurd hc (by simp)

theorem isPrefixOf_cons_false {c d : Char} {a b : Text} (h : ¬ c = d) :
    (c :: a).isPrefixOf (d :: b) = false := by
  simp [List.isPrefixOf, h]

theorem parseIdent_inv {n : Text} (hn : isIdent n = true) (rest : Text)
    (hrest : headNo identChar rest = true) :
    parseIdent (n ++ rest) = some (n, rest) := by
  cases n with
  | nil => simp [isIdent] at hn
  | cons c ntail =>
      simp only [isIdent, Bool.and_eq_true, List.all_eq_true] at hn
      obtain ⟨hc, hall⟩ := hn
      have htake : (ntail ++ rest).takeWhile identChar = ntail := by
        cases rest with
        | nil => rw [List.append_nil]; exact takeWhile_forall (fun x hx => hall x hx)
        | cons r rtail =>
            apply takeWhile_append_sep
            · exact fun x hx => hall x hx
            · simpa [headNo] using hrest
      have hdrop : (ntail ++ rest).dropWhile identChar = rest := by
        rw [dropWhile_append_forall _ (fun x hx => hall x hx)]
        cases rest with
        | nil => rfl
        | cons r rtail =>
            rw [List.dropWhile_cons]
            have hr : identChar r = false := by simpa [headNo] using hrest
            simp [hr]
      simp [parseIdent, hc, htake, hdrop]

theorem parseStringBody_cons_escape (e ch : Char) (hu : unescapeChar e = some ch)
    (t : Text) :
    parseStringBody ('\\' :: e :: t) =
      (match parseStringBody t with
       | none => none
       | some (str, rem) => some (ch :: str, rem)) := by
  simp [parseStringBody, hu]

theorem parseStringBody_cons_plain {c : Char} (h2 : ¬ c = '\x22')
    (h1 : ¬ c = '\\') (t : Text) (ht : ¬ t = []) :
    parseStringBody (c :: t) =
      (match parseStringBody t with
       | none => none
       | some (str, rem) => some (c :: str, rem)) := by
  cases t with
  | nil => exact absurd rfl ht
  | cons e rest2 => simp [parseStringBody, h1, h2]

theorem parseStringBody_inv (s : Text) :
    ∀ rest, parseStringBody (escapeText s ++ '\x22' :: rest) = some (s, rest) := by
  induction s with
  | nil =>
      intro rest
      cases rest with
      | nil => rfl
      | cons a b => rfl
  | cons c cs ih =>
      intro rest
      rw [show escapeText (c :: cs) = escapeChar c ++ escapeText cs from by
        simp [escapeText], List.append_assoc]
      by_cases h1 : c = '\\'
      · subst h1
        rw [show (escapeChar '\\' : Text) = ['\\', '\\'] from rfl]
        simp only [List.cons_append, List.nil_append]
        rw [parseStringBody_cons_escape '\\' '\\' (by simp [unescapeChar]) _, ih]
      · by_cases h2 : c = '\x22'
        · subst h2
          rw [show (escapeChar '\x22' : Text) = ['\\', '\x22'] from rfl]
          simp only [List.cons_append, List.nil_append]
          rw [parseStringBody_cons_escape '\x22' '\x22' (by simp [unescapeChar]) _, ih]
        · by_cases h3 : c = '\n'
          · subst h3
            rw [show (escapeChar '\n' : Text) = ['\\', 'n'] from rfl]
            simp only [List.cons_append, List.nil_append]
            rw [parseStringBody_cons_escape 'n' '\n' (by simp [unescapeChar]) _, ih]
          · by_cases h4 : c = '\r'
            · subst h4
              rw [show (escapeChar '\r' : Text) = ['\\', 'r'] from rfl]
              simp only [List.cons_append, List.nil_append]
              rw [parseStringBody_cons_escape 'r' '\r' (by simp [unescapeChar]) _, ih]
            · by_cases h5 : c = '\t'
              · subst h5
                rw [show (escapeChar '\t' : Text) = ['\\', 't'] from rfl]
                simp only [List.cons_append, List.nil_append]
                rw [parseStringBody_cons_escape 't' '\t' (by simp [unescapeChar]) _, ih]
              · rw [show escapeChar c = [c] from by
                  simp [escapeChar, h1, h2, h3, h4, h5]]
                simp only [List.cons_append, List.nil_append]
                rw [parseStringBody_cons_plain h2 h1 _ (by simp), ih]

theorem parseBacktickBody_inv (cmd : Text) (hc : ∀ c ∈ cmd, ¬ c = '\x60') :
    ∀ rest, parseBacktickBody (cmd ++ '\x60' :: rest) = some (cmd, rest) := by
  induction cmd with
  | nil => intro rest; simp [parseBacktickBody]
  | cons c cs ih =>
      intro rest
      simp [parseBacktickBody, hc c (by simp),
        ih (fun x hx => hc x (by simp [hx])) rest]

theorem plusPrefix_cons_false {d : Char} (h : ¬ d = ' ') (b : Text) :
    " + ".data.isPrefixOf (d :: b) = false := by
  rw [show (" + ".data : Text) = ' ' :: "+ ".data from rfl]
  exact isPrefixOf_cons_false (fun he => h he.symm)

theorem dumpExpr_length_pos (e : Expr) (hwf : exprWF e = true) :
    1 ≤ (dumpExpr e).length := by
  cases e with
  | lit s => simp [dumpExpr]
  | backtick cmd => simp [dumpExpr]
  | var n =>
      cases n with
      | nil => simp [exprWF, isIdent] at hwf
      | cons c rest => simp [dumpExpr]
  | concat l r =>
      simp [dumpExpr]
      omega
  | group e2 => simp [dumpExpr]

theorem parseExpr_inv : ∀ fuel : Nat,
    (∀ e : Expr, exprWF e = true → notConcat e = true →
      (dumpExpr e).length ≤ fuel + 1 →
      ∀ rest, headNo identChar rest = true →
        parseTermWith (parseExpr fuel) (dumpExpr e ++ rest) = some (e, rest)) ∧
    (∀ e : Expr, exprWF e = true → (dumpExpr e).length ≤ fuel →
      ∀ rest, headNo identChar rest = true →
        " + ".data.isPrefixOf rest = false →
        parseExpr fuel (dumpExpr e ++ rest) = some (e, rest)) := by
  intro fuel
  induction fuel using Nat.strong_induction_on with
  | _ fuel ihf =>
    have hP2 : ∀ e : Expr, exprWF e = true → (dumpExpr e).length ≤ fuel →
        ∀ rest, headNo identChar rest = true →
          " + ".data.isPrefixOf rest = false →
          parseExpr fuel (dumpExpr e ++ rest) = some (e, rest) := by
      intro e hwf hlen rest hrest hplus
      cases fuel with
      | zero =>
          have := dumpExpr_length_pos e hwf
          omega
      | succ f =>
          by_cases hnc : notConcat e = true
          · have hterm := (ihf f (by omega)).1 e hwf hnc (by omega) rest hrest
            simp [parseExpr, hterm, hplus]
          · cases e with
            | lit s => simp [notConcat] at hnc
            | backtick cmd => simp [notConcat] at hnc
            | var n => simp [notConcat] at hnc
            | group e2 => simp [notConcat] at hnc
            | concat l r =>
                simp only [exprWF, Bool.and_eq_true] at hwf
                obtain ⟨⟨hncl, hwl⟩, hwr⟩ := hwf
                have hlpos := dumpExpr_length_pos l hwl
                have hrpos := dumpExpr_length_pos r hwr
                have hlen2 : (dumpExpr (Expr.concat l r)).length =
                    (dumpExpr l).length + 3 + (dumpExpr r).length := by
                  simp [dumpExpr]
                  omega
                have hterm := (ihf f (by omega)).1 l hwl hncl
                  (by rw [hlen2] at hlen; omega)
                  (" + ".data ++ (dumpExpr r ++ rest))
                  (by simp [headNo, identChar])
                have hrec := (ihf f (by omega)).2 r hwr
                  (by rw [hlen2] at hlen; omega) rest hrest hplus
                have hshape : dumpExpr (Expr.concat l r) ++ rest =
                    dumpExpr l ++ (" + ".data ++ (dumpExpr r ++ rest)) := by
                  simp [dumpExpr]
                rw [hshape]
                have hdrop : ((" + ".data ++ (dumpExpr r ++ rest)).drop 3 : Text) =
                    dumpExpr r ++ rest := rfl
                simp only [parseExpr]
                simp only [hterm, isPrefixOf_append, eq_self_iff_true, if_true,
                  hdrop, hrec]
    have hP1 : ∀ e : Expr, exprWF e = true → notConcat e = true →
        (dumpExpr e).length ≤ fuel + 1 →
        ∀ rest, headNo identChar rest = true →
          parseTermWith (parseExpr fuel) (dumpExpr e ++ rest) = some (e, rest) := by
      intro e hwf hnc hlen rest hrest
      cases e with
      | lit s =>
          have hs := parseStringBody_inv s rest
          have hshape : dumpExpr (Expr.lit s) ++ rest =
              '\x22' :: (escapeText s ++ '\x22' :: rest) := by
            simp [dumpExpr]
          rw [hshape]
          simp [parseTermWith, hs]
      | backtick cmd =>
          simp only [exprWF, List.all_eq_true, decide_eq_true_eq] at hwf
          have hb := parseBacktickBody_inv cmd hwf rest
          have hshape : dumpExpr (Expr.backtick cmd) ++ rest =
              '\x60' :: (cmd ++ '\x60' :: rest) := by
            simp [dumpExpr]
          rw [hshape]
          simp [parseTermWith, hb]
      | var n =>
          simp only [exprWF] at hwf
          cases n with
          | nil => simp [isIdent] at hwf
          | cons c ntail =>
              have hc : identStart c = true := by
                simp only [isIdent, Bool.and_eq_true] at hwf
                exact hwf.1
              have h1 : ¬ c = '\x22' := ne_of_pred hc (by decide)
              have h2 : ¬ c = '\x60' := ne_of_pred hc (by decide)
              have h3 : ¬ c = '(' := ne_of_pred hc (by decide)
              have hid := parseIdent_inv hwf rest hrest
              simp only [List.cons_append] at hid
              simp only [dumpExpr, List.cons_append, parseTermWith]
              rw [if_neg h1, if_neg h2, if_neg h3, hid]
      | concat l r => simp [notConcat] at hnc
      | group e2 =>
          simp only [exprWF] at hwf
          have hb : (dumpExpr e2).length ≤ fuel := by
            have : (dumpExpr (Expr.group e2)).length = (dumpExpr e2).length + 2 := by
              simp [dumpExpr]
            omega
          have hrec := hP2 e2 hwf hb (')' :: rest)
            (by simp [headNo, identChar])
            (plusPrefix_cons_false (by decide) rest)
          have hshape : dumpExpr (Expr.group e2) ++ rest =
              '(' :: (dumpExpr e2 ++ ')' :: rest) := by
            simp [dumpExpr]
          rw [hshape]
          simp [parseTermWith, hrec]
    exact ⟨hP1, hP2⟩

theorem braces_not_prefix_head {c : Char} (h : ¬ c = '\x7b') (s : Text) :
    "\x7b\x7b".data.isPrefixOf (c :: s) = false := by
  rw [show ("\x7b\x7b".data : Text) = '\x7b' :: ['\x7b'] from rfl]
  exact isPrefixOf_cons_false (fun he => h he.symm)

theorem braces_not_prefix_second {c d : Char} (h : ¬ d = '\x7b') (s : Text) :
    "\x7b\x7b".data.isPrefixOf (c :: d :: s) = false := by
  have hd : ('\x7b' == d) = false := beq_eq_false_iff_ne.mpr (fun he => h he.symm)
  simp [List.isPrefixOf, hd]

theorem dumpFrags_cons (fr : Fragment) (rest : List Fragment) :
    dumpFrags (fr :: rest) = dumpFragment fr ++ dumpFrags rest := by
  simp [dumpFrags]

theorem takeText_inv (t : Text) (hne : ¬ t = []) (hn : ∀ c ∈ t, ¬ c = '\n')
    (hob : hasOpenBrace t = false) (u : Text)
    (hu : (∃ u2, u = '\n' :: u2) ∨
      ((∃ u2, u = '\x7b' :: '\x7b' :: u2) ∧ ¬ t.getLast? = some '\x7b')) :
    takeText (t ++ u) = t ∧ "\x7b\x7b".data.isPrefixOf (t ++ u) = false := by
  induction t with
  | nil => exact absurd rfl hne
  | cons c t2 ih =>
      have hcn : ¬ c = '\n' := hn c (by simp)
      cases t2 with
      | nil =>
          rcases hu with ⟨u2, rfl⟩ | ⟨⟨u2, rfl⟩, hlast⟩
          · constructor
            · cases u2 with
              | nil => simp [takeText, hcn]
              | cons a b => simp [takeText, hcn]
            · exact braces_not_prefix_second (by decide) u2
          · have hcb : ¬ c = '\x7b' := by
              intro h
              exact hlast (by simp [h])
            constructor
            · simp [takeText, hcn, hcb]
            · exact braces_not_prefix_head hcb _
      | cons d t3 =>
          have hnodd : ¬ (c = '\x7b' ∧ d = '\x7b') := by
            intro h
            rw [hasOpenBrace] at hob
            simp [h.1, h.2] at hob
          have hob2 : hasOpenBrace (d :: t3) = false := by
            rw [hasOpenBrace] at hob
            rcases Bool.or_eq_false_iff.mp hob with ⟨h1, h2⟩
            exact h2
          have hu2 : (∃ u2, u = '\n' :: u2) ∨
              ((∃ u2, u = '\x7b' :: '\x7b' :: u2) ∧
                ¬ (d :: t3).getLast? = some '\x7b') := by
            rcases hu with h | ⟨h1, h2⟩
            · exact Or.inl h
            · refine Or.inr ⟨h1, ?_⟩
              simpa using h2
          obtain ⟨ht1, ht2⟩ := ih (by simp) (fun x hx => hn x (by simp [hx]))
            hob2 hu2
          have hstep : takeText ((c :: d :: t3) ++ u) =
              c :: takeText ((d :: t3) ++ u) := by
            show takeText (c :: d :: (t3 ++ u)) = _
            rw [takeText]
            rw [if_neg hcn, if_neg (by
              intro hb
              simp only [Bool.and_eq_true, decide_eq_true_eq] at hb
              exact hnodd hb)]
            simp
          constructor
          · rw [hstep, ht1]
          · by_cases hcb : c = '\x7b'
            · have hdb : ¬ d = '\x7b' := fun hd => hnodd ⟨hcb, hd⟩
              exact braces_not_prefix_second hdb _
            · exact braces_not_prefix_head hcb _

theorem parseFragments_inv : ∀ (frags : List Fragment) (fuelF F : Nat),
    lineWF frags = true →
    (dumpFrags frags).length < fuelF →
    (dumpFrags frags).length < F →
    ∀ rest, parseFragments fuelF F (dumpFrags frags ++ '\n' :: rest) =
      some (frags, rest) := by
  intro frags
  induction frags with
  | nil =>
      intro fuelF F hwf hf hF rest
      cases fuelF with
      | zero => simp [dumpFrags] at hf
      | succ f => simp [dumpFrags, parseFragments]
  | cons fr rest2 ih =>
      intro fuelF F hwf hf hF rest
      cases fuelF with
      | zero => omega
      | succ f =>
        cases fr with
        | interp e =>
            simp only [lineWF, Bool.and_eq_true] at hwf
            obtain ⟨hwe, hwrest⟩ := hwf
            have hlen : (dumpFrags (Fragment.interp e :: rest2)).length =
                (dumpExpr e).length + 4 + (dumpFrags rest2).length := by
              simp [dumpFrags_cons, dumpFragment]
              omega
            have hshape : dumpFrags (Fragment.interp e :: rest2) ++ '\n' :: rest =
                '\x7b' :: '\x7b' ::
                  (dumpExpr e ++
                    ('\x7d' :: '\x7d' :: (dumpFrags rest2 ++ '\n' :: rest))) := by
              simp [dumpFrags_cons, dumpFragment]
            have hexpr := (parseExpr_inv F).2 e hwe (by omega)
              ('\x7d' :: '\x7d' :: (dumpFrags rest2 ++ '\n' :: rest))
              (by simp [headNo, identChar])
              (plusPrefix_cons_false (by decide) _)
            have hrec := ih f F hwrest (by omega) (by omega) rest
            rw [hshape]
            simp only [parseFragments]
            rw [if_neg (by decide)]
            rw [if_pos (by
              rw [show ('\x7b' :: '\x7b' ::
                  (dumpExpr e ++
                    ('\x7d' :: '\x7d' :: (dumpFrags rest2 ++ '\n' :: rest))) : Text) =
                "\x7b\x7b".data ++
                  (dumpExpr e ++
                    ('\x7d' :: '\x7d' :: (dumpFrags rest2 ++ '\n' :: rest))) from rfl]
              exact isPrefixOf_append _ _)]
            have hdrop2 : (('\x7b' : Char) :: '\x7b' ::
                (dumpExpr e ++
                  ('\x7d' :: '\x7d' :: (dumpFrags rest2 ++ '\n' :: rest)))).drop 2 =
                dumpExpr e ++
                  ('\x7d' :: '\x7d' :: (dumpFrags rest2 ++ '\n' :: rest)) := rfl
            rw [hdrop2, hexpr]
            simp only []
            rw [if_pos (by
              rw [show (('\x7d' : Char) :: '\x7d' :: (dumpFrags rest2 ++ '\n' :: rest) : Text) =
                "\x7d\x7d".data ++ (dumpFrags rest2 ++ '\n' :: rest) from rfl]
              exact isPrefixOf_append _ _)]
            have hdrop3 : (('\x7d' : Char) :: '\x7d' ::
                (dumpFrags rest2 ++ '\n' :: rest)).drop 2 =
                dumpFrags rest2 ++ '\n' :: rest := rfl
            rw [hdrop3, hrec]
        | text t =>
            simp only [lineWF, Bool.and_eq_true] at hwf
            obtain ⟨⟨⟨⟨hne, hnl⟩, hob⟩, hnext⟩, hwrest⟩ := hwf
            have hne2 : ¬ t = [] := by simpa using hne
            have hnl2 : ∀ c ∈ t, ¬ c = '\n' := by
              intro c hc
              have := List.all_eq_true.mp hnl c hc
              simpa using this
            have hob2 : hasOpenBrace t = false := by
              simpa using hob
            have hu : (∃ u2, dumpFrags rest2 ++ '\n' :: rest = '\n' :: u2) ∨
                ((∃ u2, dumpFrags rest2 ++ '\n' :: rest = '\x7b' :: '\x7b' :: u2) ∧
                  ¬ t.getLast? = some '\x7b') := by
              cases rest2 with
              | nil => exact Or.inl ⟨rest, by simp [dumpFrags]⟩
              | cons fr2 rest3 =>
                  cases fr2 with
                  | text t2 => simp at hnext
                  | interp e2 =>
                      refine Or.inr ⟨⟨dumpExpr e2 ++
                        ('\x7d' :: '\x7d' :: (dumpFrags rest3 ++ '\n' :: rest)), ?_⟩, ?_⟩
                      · simp [dumpFrags_cons, dumpFragment]
                      · simpa using hnext
            obtain ⟨htake, hpre⟩ := takeText_inv t hne2 hnl2 hob2
              (dumpFrags rest2 ++ '\n' :: rest) hu
            have htlen : 1 ≤ t.length := by
              cases t with
              | nil => exact absurd rfl hne2
              | cons a b => simp
            have hflen : (dumpFrags (Fragment.text t :: rest2)).length =
                t.length + (dumpFrags rest2).length := by
              simp [dumpFrags_cons, dumpFragment]
            have hrec := ih f F hwrest (by omega) (by omega) rest
            have hshape : dumpFrags (Fragment.text t :: rest2) ++ '\n' :: rest =
                t ++ (dumpFrags rest2 ++ '\n' :: rest) := by
              simp [dumpFrags_cons, dumpFragment]
            rw [hshape]
            cases ht : t with
            | nil => exact absurd ht hne2
            | cons c t2 =>
                rw [ht] at htake hpre
                have hcn : ¬ c = '\n' := hnl2 c (by rw [ht]; simp)
                show parseFragments (f + 1) F
                  (c :: (t2 ++ (dumpFrags rest2 ++ '\n' :: rest))) = _
                simp only [parseFragments]
                rw [if_neg hcn]
                rw [show (c :: (t2 ++ (dumpFrags rest2 ++ '\n' :: rest)) : Text) =
                  (c :: t2) ++ (dumpFrags rest2 ++ '\n' :: rest) from by simp]
                rw [if_neg (by rw [hpre]; simp)]
                rw [htake]
                rw [List.drop_left]
                rw [hrec]

theorem headNo_cons (p : Char → Bool) (c : Char) (t : Text) :
    headNo p (c :: t) = ! p c := rfl

theorem plusPrefix_space_cons_false {d : Char} (h : ¬ d = '+') (b : Text) :
    " + ".data.isPrefixOf (' ' :: d :: b) = false := by
  have hd : ('+' == d) = false := beq_eq_false_iff_ne.mpr (fun he => h he.symm)
  simp [List.isPrefixOf, hd]

theorem plusPrefix_space_plus_false {d : Char} (h : ¬ d = ' ') (b : Text) :
    " + ".data.isPrefixOf (' ' :: '+' :: d :: b) = false := by
  have hd : (' ' == d) = false := beq_eq_false_iff_ne.mpr (fun he => h he.symm)
  simp [List.isPrefixOf, hd]

theorem parseParamTail_none (F : Nat) (v : Bool) (n rest : Text)
    (heq : headNo (fun c => c = '=') rest = true) :
    parseParamTail F v n rest = some (⟨n, v, none⟩, rest) := by
  cases rest with
  | nil => rfl
  | cons c s3 =>
      have hc : ¬ c = '=' := by
        simp [headNo] at heq
        exact heq
      simp [parseParamTail, hc]

theorem parseParam_inv (F : Nat) (p : Param) (hwf : paramWF p = true)
    (hF : (dumpParam p).length ≤ F) (rest : Text)
    (hra : headNo identChar rest = true)
    (heq : headNo (fun c => c = '=') rest = true)
    (hplus : " + ".data.isPrefixOf rest = false) :
    parseParam F (dumpParam p ++ rest) = some (p, rest) := by
  obtain ⟨pn, pv, pd⟩ := p
  cases pn with
  | nil => simp [paramWF, isIdent] at hwf
  | cons nc ntail =>
  simp only [paramWF, Bool.and_eq_true] at hwf
  obtain ⟨hn, hd⟩ := hwf
  have hstart : identStart nc = true := by
    simp only [isIdent, Bool.and_eq_true] at hn
    exact hn.1
  cases pv with
  | true =>
      cases pd with
      | some e =>
          have hwe : exprWF e = true := hd
          have hshape : dumpParam ⟨nc :: ntail, true, some e⟩ ++ rest =
              '+' :: ((nc :: ntail) ++ ('=' :: (dumpExpr e ++ rest))) := by
            simp [dumpParam]
          have hlen : (dumpExpr e).length ≤ F := by
            simp [dumpParam] at hF
            omega
          rw [hshape]
          simp only [parseParam]
          rw [if_pos (by trivial)]
          rw [parseIdent_inv hn ('=' :: (dumpExpr e ++ rest))
            (by rw [headNo_cons]; decide)]
          simp only [parseParamTail]
          rw [if_pos (by trivial)]
          rw [(parseExpr_inv F).2 e hwe hlen rest hra hplus]
      | none =>
          have hshape : dumpParam ⟨nc :: ntail, true, none⟩ ++ rest =
              '+' :: ((nc :: ntail) ++ rest) := by
            simp [dumpParam]
          rw [hshape]
          simp only [parseParam]
          rw [if_pos (by trivial)]
          rw [parseIdent_inv hn rest hra]
          exact parseParamTail_none F true (nc :: ntail) rest heq
  | false =>
      have hplusname : ¬ nc = '+' := ne_of_pred hstart (by decide)
      cases pd with
      | some e =>
          have hwe : exprWF e = true := hd
          have hshape : dumpParam ⟨nc :: ntail, false, some e⟩ ++ rest =
              nc :: (ntail ++ ('=' :: (dumpExpr e ++ rest))) := by
            simp [dumpParam]
          have hlen : (dumpExpr e).length ≤ F := by
            simp [dumpParam] at hF
            omega
          rw [hshape]
          simp only [parseParam]
          rw [if_neg hplusname]
          rw [show (nc :: (ntail ++ ('=' :: (dumpExpr e ++ rest))) : Text) =
            (nc :: ntail) ++ ('=' :: (dumpExpr e ++ rest)) from by simp]
          rw [parseIdent_inv hn ('=' :: (dumpExpr e ++ rest))
            (by rw [headNo_cons]; decide)]
          simp only [parseParamTail]
          rw [if_pos (by trivial)]
          rw [(parseExpr_inv F).2 e hwe hlen rest hra hplus]
      | none =>
          have hshape : dumpParam ⟨nc :: ntail, false, none⟩ ++ rest =
              nc :: (ntail ++ rest) := by
            simp [dumpParam]
          rw [hshape]
          simp only [parseParam]
          rw [if_neg hplusname]
          rw [show (nc :: (ntail ++ rest) : Text) = (nc :: ntail) ++ rest
            from by simp]
          rw [parseIdent_inv hn rest hra]
          exact parseParamTail_none F false (nc :: ntail) rest heq

theorem paramDump_plusPrefix_false (p : Param) (hwf : paramWF p = true)
    (w : Text) :
    " + ".data.isPrefixOf (' ' :: (dumpParam p ++ w)) = false := by
  obtain ⟨pn, pv, pd⟩ := p
  cases pn with
  | nil => simp [paramWF, isIdent] at hwf
  | cons nc ntail =>
  simp only [paramWF, Bool.and_eq_true] at hwf
  have hstart : identStart nc = true := by
    have := hwf.1
    simp only [isIdent, Bool.and_eq_true] at this
    exact this.1
  cases pv with
  | true =>
      cases pd with
      | some e =>
          rw [show (dumpParam ⟨nc :: ntail, true, some e⟩ ++ w : Text) =
            '+' :: nc :: (ntail ++ ('=' :: (dumpExpr e ++ w))) from by
              simp [dumpParam]]
          exact plusPrefix_space_plus_false (ne_of_pred hstart (by decide)) _
      | none =>
          rw [show (dumpParam ⟨nc :: ntail, true, none⟩ ++ w : Text) =
            '+' :: nc :: (ntail ++ w) from by simp [dumpParam]]
          exact plusPrefix_space_plus_false (ne_of_pred hstart (by decide)) _
  | false =>
      cases pd with
      | some e =>
          rw [show (dumpParam ⟨nc :: ntail, false, some e⟩ ++ w : Text) =
            nc :: (ntail ++ ('=' :: (dumpExpr e ++ w))) from by simp [dumpParam]]
          exact plusPrefix_space_cons_false (ne_of_pred hstart (by decide)) _
      | none =>
          rw [show (dumpParam ⟨nc :: ntail, false, none⟩ ++ w : Text) =
            nc :: (ntail ++ w) from by simp [dumpParam]]
          exact plusPrefix_space_cons_false (ne_of_pred hstart (by decide)) _

theorem parseParams_inv : ∀ (ps : List Param) (F fuelP : Nat),
    ps.all paramWF = true →
    (∀ p ∈ ps, (dumpParam p).length ≤ F) →
    ps.length < fuelP →
    ∀ rest, headNo (fun c => c = ' ') rest = true →
      headNo identChar rest = true →
      headNo (fun c => c = '=') rest = true →
      " + ".data.isPrefixOf rest = false →
      parseParams F fuelP
        ((ps.map (fun p => ' ' :: dumpParam p)).flatten ++ rest) =
        some (ps, rest) := by
  intro ps
  induction ps with
  | nil =>
      intro F fuelP hwf hb hlen rest hsp hra heq hplus
      cases fuelP with
      | zero => omega
      | succ f =>
          cases rest with
          | nil => simp [parseParams]
          | cons c r2 =>
              have hc : ¬ c = ' ' := by
                simp [headNo] at hsp
                exact hsp
              simp [parseParams, hc]
  | cons p ps2 ih =>
      intro F fuelP hwf hb hlen rest hsp hra heq hplus
      cases fuelP with
      | zero => omega
      | succ f =>
          simp only [List.all_cons, Bool.and_eq_true] at hwf
          obtain ⟨hwp, hwps⟩ := hwf
          have hcases : ((ps2.map (fun q => ' ' :: dumpParam q)).flatten ++ rest
                = rest) ∨
              (∃ q w, paramWF q = true ∧
                (ps2.map (fun q2 => ' ' :: dumpParam q2)).flatten ++ rest =
                  ' ' :: (dumpParam q ++ w)) := by
            cases ps2 with
            | nil => exact Or.inl (by simp)
            | cons q qs =>
                refine Or.inr ⟨q, (qs.map (fun q2 => ' ' :: dumpParam q2)).flatten
                  ++ rest, ?_, by simp⟩
                simp only [List.all_cons, Bool.and_eq_true] at hwps
                exact hwps.1
          have hraU : headNo identChar
              ((ps2.map (fun q => ' ' :: dumpParam q)).flatten ++ rest) = true := by
            rcases hcases with h | ⟨q, w, hq, h⟩
            · rw [h]; exact hra
            · rw [h, headNo_cons]; decide
          have heqU : headNo (fun c => c = '=')
              ((ps2.map (fun q => ' ' :: dumpParam q)).flatten ++ rest) = true := by
            rcases hcases with h | ⟨q, w, hq, h⟩
            · rw [h]; exact heq
            · rw [h, headNo_cons]; decide
          have hplusU : " + ".data.isPrefixOf
              ((ps2.map (fun q => ' ' :: dumpParam q)).flatten ++ rest) = false := by
            rcases hcases with h | ⟨q, w, hq, h⟩
            · rw [h]; exact hplus
            · rw [h]; exact paramDump_plusPrefix_false q hq w
          have hshape : ((p :: ps2).map (fun q => ' ' :: dumpParam q)).flatten
              ++ rest =
              ' ' :: (dumpParam p ++
                ((ps2.map (fun q => ' ' :: dumpParam q)).flatten ++ rest)) := by
            simp
          rw [hshape]
          simp only [parseParams]
          rw [if_pos (by trivial)]
          rw [parseParam_inv F p hwp (hb p (by simp)) _ hraU heqU hplusU]
          simp only []
          have hrec := ih F f hwps (fun q hq => hb q (by simp [hq]))
            (by simp at hlen ⊢; omega) rest hsp hra heq hplus
          rw [hrec]

theorem parseDeps_inv : ∀ (ds : List Text) (fuelD : Nat),
    ds.all isIdent = true →
    ds.length < fuelD →
    ∀ rest, headNo (fun c => c = ' ') rest = true →
      headNo identChar rest = true →
      parseDeps fuelD ((ds.map (fun d => ' ' :: d)).flatten ++ rest) =
        some (ds, rest) := by
  intro ds
  induction ds with
  | nil =>
      intro fuelD hwf hlen rest hsp hra
      cases fuelD with
      | zero => omega
      | succ f =>
          cases rest with
          | nil => simp [parseDeps]
          | cons c r2 =>
              have hc : ¬ c = ' ' := by
                simp [headNo] at hsp
                exact hsp
              simp [parseDeps, hc]
  | cons d ds2 ih =>
      intro fuelD hwf hlen rest hsp hra
      cases fuelD with
      | zero => omega
      | succ f =>
          simp only [List.all_cons, Bool.and_eq_true] at hwf
          obtain ⟨hwd, hwds⟩ := hwf
          have hraU : headNo identChar
              ((ds2.map (fun d2 => ' ' :: d2)).flatten ++ rest) = true := by
            cases ds2 with
            | nil => simpa using hra
            | cons q qs =>
                rw [show ((((q :: qs).map (fun d2 => ' ' :: d2)).flatten ++ rest
                  : Text)) = ' ' :: (q ++
                    ((qs.map (fun d2 => ' ' :: d2)).flatten ++ rest)) from by simp]
                rw [headNo_cons]
                decide
          have hshape : ((d :: ds2).map (fun d2 => ' ' :: d2)).flatten ++ rest =
              ' ' :: (d ++ ((ds2.map (fun d2 => ' ' :: d2)).flatten ++ rest)) := by
            simp
          rw [hshape]
          simp only [parseDeps]
          rw [if_pos (by trivial)]
          rw [parseIdent_inv hwd _ hraU]
          simp only []
          have hrec := ih f hwds (by simp at hlen ⊢; omega) rest hsp hra
          rw [hrec]

theorem parseBodyLines_inv : ∀ (body : List (List Fragment)) (F fuelL : Nat),
    body.all lineWF = true →
    (∀ l ∈ body, (dumpFrags l).length < F) →
    body.length < fuelL →
    ∀ rest, "    ".data.isPrefixOf rest = false →
      parseBodyLines F fuelL (dumpBody body ++ rest) = some (body, rest) := by
  intro body
  induction body with
  | nil =>
      intro F fuelL hwf hb hlen rest hrest
      cases fuelL with
      | zero => omega
      | succ f => simp [dumpBody, parseBodyLines, hrest]
  | cons l body2 ih =>
      intro F fuelL hwf hb hlen rest hrest
      cases fuelL with
      | zero => omega
      | succ f =>
          simp only [List.all_cons, Bool.and_eq_true] at hwf
          obtain ⟨hwl, hwb⟩ := hwf
          have hshape : dumpBody (l :: body2) ++ rest =
              ' ' :: ' ' :: ' ' :: ' ' ::
                (dumpFrags l ++ '\n' :: (dumpBody body2 ++ rest)) := by
            simp [dumpBody, dumpLine]
          rw [hshape]
          simp only [parseBodyLines]
          rw [if_pos (by
            rw [show (' ' :: ' ' :: ' ' :: ' ' ::
              (dumpFrags l ++ '\n' :: (dumpBody body2 ++ rest)) : Text) =
              "    ".data ++ (dumpFrags l ++ '\n' :: (dumpBody body2 ++ rest))
              from rfl]
            exact isPrefixOf_append _ _)]
          have hdrop : ((' ' : Char) :: ' ' :: ' ' :: ' ' ::
              (dumpFrags l ++ '\n' :: (dumpBody body2 ++ rest))).drop 4 =
              dumpFrags l ++ '\n' :: (dumpBody body2 ++ rest) := rfl
          rw [hdrop]
          rw [parseFragments_inv l F F hwl (hb l (by simp)) (hb l (by simp))
            (dumpBody body2 ++ rest)]
          simp only []
          have hrec := ih F f hwb (fun l2 hl2 => hb l2 (by simp [hl2]))
            (by simp at hlen ⊢; omega) rest hrest
          rw [hrec]

theorem identStart_identChar {c : Char} (h : identStart c = true) :
    identChar c = true := by
  simp only [identStart, Bool.or_eq_true] at h
  rcases h with h | h <;> simp [identChar, h]

theorem isIdent_all {n : Text} (h : isIdent n = true) :
    ∀ c ∈ n, identChar c = true := by
  cases n with
  | nil => intro c hc; simp at hc
  | cons a t =>
      simp only [isIdent, Bool.and_eq_true, List.all_eq_true] at h
      intro c hc
      rcases List.mem_cons.mp hc with rfl | hc2
      · exact identStart_identChar h.1
      · exact h.2 c hc2

theorem keyword_prefix_iff : ∀ (k n : Text),
    (∀ c ∈ k, identChar c = true) → (∀ c ∈ n, identChar c = true) →
    ∀ (c : Char), identChar c = false → ∀ (w : Text),
    ((k ++ [' ']).isPrefixOf (n ++ c :: w) = true ↔ (n = k ∧ c = ' ')) := by
  intro k
  induction k with
  | nil =>
      intro n hk hn c hc w
      cases n with
      | nil =>
          constructor
          · intro h
            refine ⟨rfl, ?_⟩
            simp [List.isPrefixOf] at h
            exact h.symm
          · rintro ⟨-, rfl⟩
            simp [List.isPrefixOf]
      | cons d n2 =>
          have hd : identChar d = true := hn d (by simp)
          constructor
          · intro h
            rw [show (([] : Text) ++ [' ']) = [' '] from rfl] at h
            rw [show ((d :: n2 : Text) ++ c :: w) = d :: (n2 ++ c :: w)
              from rfl] at h
            rw [isPrefixOf_cons_false
              (fun he => (ne_of_pred hd (by decide)) he.symm)] at h
            exact absurd h (by simp)
          · rintro ⟨he, -⟩
            exact absurd he (by simp)
  | cons a k2 ih =>
      intro n hk hn c hc w
      have ha : identChar a = true := hk a (by simp)
      cases n with
      | nil =>
          constructor
          · intro h
            rw [show ((a :: k2 : Text) ++ [' ']) = a :: (k2 ++ [' '])
              from rfl] at h
            rw [show (([] : Text) ++ c :: w) = c :: w from rfl] at h
            rw [isPrefixOf_cons_false (ne_of_pred ha hc)] at h
            exact absurd h (by simp)
          · rintro ⟨he, -⟩
            exact absurd he (by simp)
      | cons d n2 =>
          by_cases had : a = d
          · subst had
            have hstep : ((a :: k2) ++ [' ']).isPrefixOf ((a :: n2) ++ c :: w) =
                ((k2 ++ [' ']).isPrefixOf (n2 ++ c :: w)) := by
              simp [List.isPrefixOf]
            rw [hstep]
            rw [ih n2 (fun x hx => hk x (by simp [hx]))
              (fun x hx => hn x (by simp [hx])) c hc w]
            constructor
            · rintro ⟨rfl, rfl⟩
              exact ⟨rfl, rfl⟩
            · rintro ⟨he, rfl⟩
              exact ⟨(List.cons.inj he).2, rfl⟩
          · have hstep : ((a :: k2) ++ [' ']).isPrefixOf ((d :: n2) ++ c :: w) =
                false := by
              rw [show ((a :: k2 : Text) ++ [' ']) = a :: (k2 ++ [' '])
                from rfl]
              rw [show ((d :: n2 : Text) ++ c :: w) = d :: (n2 ++ c :: w)
                from rfl]
              exact isPrefixOf_cons_false had
            rw [hstep]
            constructor
            · intro h
              exact absurd h (by simp)
            · rintro ⟨he, -⟩
              exact absurd ((List.cons.inj he).1.symm) had

theorem keyword_not_pref (k n : Text) (hk : ∀ c ∈ k, identChar c = true)
    (hn : isIdent n = true) (hne : ¬ n = k) (c : Char)
    (hc : identChar c = false) (w : Text) :
    (k ++ [' ']).isPrefixOf (n ++ c :: w) = false := by
  have hiff := keyword_prefix_iff k n hk (isIdent_all hn) c hc w
  cases h : (k ++ [' ']).isPrefixOf (n ++ c :: w) with
  | false => rfl
  | true => exact absurd (hiff.mp h).1 hne

theorem keyword_sep_not_space (k n : Text) (hk : ∀ c ∈ k, identChar c = true)
    (hn : isIdent n = true) (c : Char) (hc : identChar c = false)
    (hcsp : ¬ c = ' ') (w : Text) :
    (k ++ [' ']).isPrefixOf (n ++ c :: w) = false := by
  have hiff := keyword_prefix_iff k n hk (isIdent_all hn) c hc w
  cases h : (k ++ [' ']).isPrefixOf (n ++ c :: w) with
  | false => rfl
  | true => exact absurd (hiff.mp h).2 hcsp

theorem colonPrefix_space_cons_false {d : Char} (h : ¬ d = ':') (b : Text) :
    " := ".data.isPrefixOf (' ' :: d :: b) = false := by
  have hd : (':' == d) = false := beq_eq_false_iff_ne.mpr (fun he => h he.symm)
  simp [List.isPrefixOf, hd]

theorem paramDump_colonPrefix_false (p : Param) (hwf : paramWF p = true)
    (w : Text) :
    " := ".data.isPrefixOf (' ' :: (dumpParam p ++ w)) = false := by
  obtain ⟨pn, pv, pd⟩ := p
  cases pn with
  | nil => simp [paramWF, isIdent] at hwf
  | cons nc ntail =>
  simp only [paramWF, Bool.and_eq_true] at hwf
  have hstart : identStart nc = true := by
    have := hwf.1
    simp only [isIdent, Bool.and_eq_true] at this
    exact this.1
  cases pv with
  | true =>
      cases pd with
      | some e =>
          rw [show (dumpParam ⟨nc :: ntail, true, some e⟩ ++ w : Text) =
            '+' :: (nc :: (ntail ++ ('=' :: (dumpExpr e ++ w)))) from by
              simp [dumpParam]]
          exact colonPrefix_space_cons_false (by decide) _
      | none =>
          rw [show (dumpParam ⟨nc :: ntail, true, none⟩ ++ w : Text) =
            '+' :: (nc :: (ntail ++ w)) from by simp [dumpParam]]
          exact colonPrefix_space_cons_false (by decide) _
  | false =>
      cases pd with
      | some e =>
          rw [show (dumpParam ⟨nc :: ntail, false, some e⟩ ++ w : Text) =
            nc :: (ntail ++ ('=' :: (dumpExpr e ++ w))) from by simp [dumpParam]]
          exact colonPrefix_space_cons_false (ne_of_pred hstart (by decide)) _
      | none =>
          rw [show (dumpParam ⟨nc :: ntail, false, none⟩ ++ w : Text) =
            nc :: (ntail ++ w) from by simp [dumpParam]]
          exact colonPrefix_space_cons_false (ne_of_pred hstart (by decide)) _

theorem parseAssignBody_inv (F : Nat) (n : Text) (e : Expr)
    (hn : isIdent n = true) (hwe : exprWF e = true)
    (hF : (dumpExpr e).length ≤ F) (rest : Text) :
    parseAssignBody F (n ++ (" := ".data ++ (dumpExpr e ++ '\n' :: rest))) =
      some ((n, e), rest) := by
  simp only [parseAssignBody]
  rw [parseIdent_inv hn (" := ".data ++ (dumpExpr e ++ '\n' :: rest)) (by
    rw [show (" := ".data ++ (dumpExpr e ++ '\n' :: rest) : Text) =
      ' ' :: (":= ".data ++ (dumpExpr e ++ '\n' :: rest)) from rfl]
    rw [headNo_cons]
    decide)]
  simp only []
  rw [if_pos (isPrefixOf_append _ _)]
  have hdrop : ((" := ".data : Text) ++ (dumpExpr e ++ '\n' :: rest)).drop 4 =
      dumpExpr e ++ '\n' :: rest := rfl
  rw [hdrop]
  rw [(parseExpr_inv F).2 e hwe hF ('\n' :: rest)
    (by rw [headNo_cons]; decide) (plusPrefix_cons_false (by decide) _)]
  simp only []
  rw [if_pos (by trivial)]

theorem parseRecipeRest_inv (F : Nat) (n : Text) (q : Bool) (ps : List Param)
    (ds : List Text) (body : List (List Fragment))
    (hwps : ps.all paramWF = true) (hwds : ds.all isIdent = true)
    (hwb : body.all lineWF = true)
    (hps : ∀ p ∈ ps, (dumpParam p).length ≤ F) (hpl : ps.length < F)
    (hdl : ds.length < F)
    (hbb : ∀ l ∈ body, (dumpFrags l).length < F) (hbl : body.length < F)
    (rest : Text) (hrest : "    ".data.isPrefixOf rest = false) :
    parseRecipeRest F n q
      ((ps.map (fun p => ' ' :: dumpParam p)).flatten ++
        ':' :: ((ds.map (fun d => ' ' :: d)).flatten ++
          '\n' :: (dumpBody body ++ rest))) = some (⟨n, q, ps, ds, body⟩, rest) := by
  simp only [parseRecipeRest]
  rw [parseParams_inv ps F F hwps hps hpl _
    (by rw [headNo_cons]; decide) (by rw [headNo_cons]; decide)
    (by rw [headNo_cons]; decide) (plusPrefix_cons_false (by decide) _)]
  simp only []
  rw [if_pos (by trivial)]
  rw [parseDeps_inv ds F hwds hdl _
    (by rw [headNo_cons]; decide) (by rw [headNo_cons]; decide)]
  simp only []
  rw [if_pos (by trivial)]
  rw [parseBodyLines_inv body F F hwb hbb hbl rest hrest]

theorem length_le_flatten {α : Type} (f : α → Text) (L : List α) (x : α)
    (hx : x ∈ L) : (f x).length ≤ ((L.map f).flatten).length := by
  induction L with
  | nil => simp at hx
  | cons a t ih =>
      rcases List.mem_cons.mp hx with rfl | hx2
      · simp
      · simp only [List.map_cons, List.flatten_cons, List.length_append]
        have := ih hx2
        omega

theorem count_le_flatten {α : Type} (f : α → Text) (L : List α)
    (h : ∀ x ∈ L, 1 ≤ (f x).length) :
    L.length ≤ ((L.map f).flatten).length := by
  induction L with
  | nil => simp
  | cons a t ih =>
      simp only [List.map_cons, List.flatten_cons, List.length_append,
        List.length_cons]
      have h1 := h a (by simp)
      have h2 := ih (fun x hx => h x (by simp [hx]))
      omega

theorem recipeBounds (F : Nat) (n : Text) (q : Bool) (ps : List Param)
    (ds : List Text) (body : List (List Fragment))
    (hF : (dumpRecipe ⟨n, q, ps, ds, body⟩).length ≤ F) :
    (∀ p ∈ ps, (dumpParam p).length ≤ F) ∧ ps.length < F ∧ ds.length < F ∧
      (∀ l ∈ body, (dumpFrags l).length < F) ∧ body.length < F := by
  have hlen : ((ps.map (fun p => ' ' :: dumpParam p)).flatten).length +
      ((ds.map (fun d => ' ' :: d)).flatten).length +
      (dumpBody body).length + 2 ≤
      (dumpRecipe ⟨n, q, ps, ds, body⟩).length := by
    cases q <;> simp [dumpRecipe] <;> omega
  refine ⟨?_, ?_, ?_, ?_, ?_⟩
  · intro p hp
    have h1 := length_le_flatten (fun p2 => ' ' :: dumpParam p2) ps p hp
    simp only [List.length_cons] at h1
    omega
  · have h1 := count_le_flatten (fun p2 => ' ' :: dumpParam p2) ps
      (by intro x hx; simp)
    omega
  · have h1 := count_le_flatten (fun d => ' ' :: d) ds (by intro x hx; simp)
    omega
  · intro l hl
    have h1 := length_le_flatten dumpLine body l hl
    have h2 : dumpBody body = (body.map dumpLine).flatten := rfl
    rw [← h2] at h1
    have h3 : (dumpLine l).length = (dumpFrags l).length + 5 := by
      have h44 : ("    ".data : Text).length = 4 := rfl
      simp [dumpLine, h44]
    omega
  · have h1 := count_le_flatten dumpLine body (by
      intro x hx
      have h44 : ("    ".data : Text).length = 4 := rfl
      simp [dumpLine, h44])
    have h2 : dumpBody body = (body.map dumpLine).flatten := rfl
    rw [← h2] at h1
    omega

theorem not_eq_true_of_false {b : Bool} (h : b = false) : ¬ b = true := by
  simp [h]

theorem parseItem_inv (F : Nat) (item : Item) (hwf : itemWF item = true)
    (hF : (dumpItem item).length ≤ F) (rest : Text)
    (hrest : "    ".data.isPrefixOf rest = false) :
    parseItem F (dumpItem item ++ rest) = some (item, rest) := by
  cases item with
  | al a =>
      obtain ⟨n, t⟩ := a
      simp only [itemWF, aliasWF, Bool.and_eq_true] at hwf
      obtain ⟨hn, ht⟩ := hwf
      have hshape : dumpItem (Item.al ⟨n, t⟩) ++ rest =
          "alias ".data ++ (n ++ (" := ".data ++ (t ++ '\n' :: rest))) := by
        simp [dumpItem, dumpAlias]
      rw [hshape]
      simp only [parseItem]
      rw [if_pos (isPrefixOf_append _ _)]
      have hdrop : (("alias ".data : Text) ++
          (n ++ (" := ".data ++ (t ++ '\n' :: rest)))).drop 6 =
          n ++ (" := ".data ++ (t ++ '\n' :: rest)) := rfl
      rw [hdrop]
      rw [parseIdent_inv hn _ (by
        rw [show (" := ".data ++ (t ++ '\n' :: rest) : Text) =
          ' ' :: (":= ".data ++ (t ++ '\n' :: rest)) from rfl, headNo_cons]
        decide)]
      simp only []
      rw [if_pos (isPrefixOf_append _ _)]
      have hdrop2 : ((" := ".data : Text) ++ (t ++ '\n' :: rest)).drop 4 =
          t ++ '\n' :: rest := rfl
      rw [hdrop2]
      rw [parseIdent_inv ht ('\n' :: rest) (by rw [headNo_cons]; decide)]
      simp only []
      rw [if_pos (by trivial)]
  | asg a =>
      obtain ⟨n, e, x⟩ := a
      cases x with
      | true =>
          simp only [itemWF, assignmentWF, Bool.and_eq_true] at hwf
          obtain ⟨⟨hn, hwe⟩, -⟩ := hwf
          have h7 : ("export ".data : Text).length = 7 := rfl
          have h4 : (" := ".data : Text).length = 4 := rfl
          have hlen : (dumpExpr e).length ≤ F := by
            have hcopy := hF
            rw [show dumpItem (Item.asg ⟨n, e, true⟩) =
              "export ".data ++ (n ++ (" := ".data ++ (dumpExpr e ++ ['\n'])))
              from by simp [dumpItem, dumpAssignment]] at hcopy
            simp only [List.length_append, List.length_cons, List.length_nil,
              h7, h4] at hcopy
            omega
          have hshape : dumpItem (Item.asg ⟨n, e, true⟩) ++ rest =
              "export ".data ++
                (n ++ (" := ".data ++ (dumpExpr e ++ '\n' :: rest))) := by
            simp [dumpItem, dumpAssignment]
          rw [hshape]
          simp only [parseItem]
          rw [if_neg (by simp [List.isPrefixOf])]
          rw [if_pos (isPrefixOf_append _ _)]
          have hdrop : (("export ".data : Text) ++
              (n ++ (" := ".data ++ (dumpExpr e ++ '\n' :: rest)))).drop 7 =
              n ++ (" := ".data ++ (dumpExpr e ++ '\n' :: rest)) := rfl
          rw [hdrop]
          rw [parseAssignBody_inv F n e hn hwe hlen rest]
      | false =>
          simp only [itemWF, assignmentWF, Bool.and_eq_true] at hwf
          obtain ⟨⟨hn, hwe⟩, hcl⟩ := hwf
          have hcl2 : ¬ n = "alias".data ∧ ¬ n = "export".data := by
            simp at hcl
            exact hcl
          have h4 : (" := ".data : Text).length = 4 := rfl
          have hlen : (dumpExpr e).length ≤ F := by
            have hcopy := hF
            rw [show dumpItem (Item.asg ⟨n, e, false⟩) =
              n ++ (" := ".data ++ (dumpExpr e ++ ['\n']))
              from by simp [dumpItem, dumpAssignment]] at hcopy
            simp only [List.length_append, List.length_cons, List.length_nil,
              h4] at hcopy
            omega
          have heq0 : (" := ".data : Text) = ' ' :: ":= ".data := rfl
          have hshape : dumpItem (Item.asg ⟨n, e, false⟩) ++ rest =
              n ++ ' ' :: (":= ".data ++ (dumpExpr e ++ '\n' :: rest)) := by
            simp [dumpItem, dumpAssignment, heq0]
          rw [hshape]
          simp only [parseItem]
          rw [if_neg (show ¬ (((['a','l','i','a','s',' '] : Text)).isPrefixOf
              (n ++ ' ' :: (([':','=',' '] : Text) ++
                (dumpExpr e ++ '\n' :: rest))) = true) from
            not_eq_true_of_false (keyword_not_pref "alias".data n
              (by decide) hn hcl2.1 ' ' (by decide)
              (":= ".data ++ (dumpExpr e ++ '\n' :: rest))))]
          rw [if_neg (show ¬ (((['e','x','p','o','r','t',' '] : Text)).isPrefixOf
              (n ++ ' ' :: (([':','=',' '] : Text) ++
                (dumpExpr e ++ '\n' :: rest))) = true) from
            not_eq_true_of_false (keyword_not_pref "export".data n
              (by decide) hn hcl2.2 ' ' (by decide)
              (":= ".data ++ (dumpExpr e ++ '\n' :: rest))))]
          cases n with
          | nil => simp [isIdent] at hn
          | cons nc ntail =>
              have hstart : identStart nc = true := by
                simp only [isIdent, Bool.and_eq_true] at hn
                exact hn.1
              simp only [List.cons_append, List.nil_append]
              rw [if_neg (ne_of_pred hstart (by decide))]
              rw [show (nc :: (ntail ++ ' ' :: ':' :: '=' :: ' ' ::
                (dumpExpr e ++ '\n' :: rest)) : Text) =
                (nc :: ntail) ++
                  (([' ',':','=',' '] : Text) ++ (dumpExpr e ++ '\n' :: rest))
                from by simp]
              rw [parseIdent_inv hn _ (by
                rw [show (([' ',':','=',' '] : Text) ++
                  (dumpExpr e ++ '\n' :: rest) : Text) =
                  ' ' :: (([':','=',' '] : Text) ++
                    (dumpExpr e ++ '\n' :: rest)) from rfl,
                  headNo_cons]
                decide)]
              simp only []
              rw [if_pos (isPrefixOf_append _ _)]
              have hdrop4 : (([' ',':','=',' '] : Text) ++
                  (dumpExpr e ++ '\n' :: rest)).drop 4 =
                  dumpExpr e ++ '\n' :: rest := rfl
              rw [hdrop4]
              rw [(parseExpr_inv F).2 e hwe hlen ('\n' :: rest)
                (by rw [headNo_cons]; decide)
                (plusPrefix_cons_false (by decide) _)]
              simp only []
              rw [if_pos (by trivial)]
  | recipe r =>
      obtain ⟨n, q, ps, ds, body⟩ := r
      simp only [itemWF, recipeWF, Bool.and_eq_true] at hwf
      obtain ⟨⟨⟨⟨hn, hwps⟩, hwds⟩, hwb⟩, hclause⟩ := hwf
      cases q with
      | true =>
          obtain ⟨hpsB, hplB, hdlB, hbbB, hblB⟩ :=
            recipeBounds F n true ps ds body (by
              simpa [dumpItem] using hF)
          have hheadX : headNo identChar
              ((ps.map (fun p => ' ' :: dumpParam p)).flatten ++
                ':' :: ((ds.map (fun d => ' ' :: d)).flatten ++
                  '\n' :: (dumpBody body ++ rest))) = true := by
            cases ps with
            | nil =>
                simp only [List.map_nil, List.flatten_nil, List.nil_append]
                rw [headNo_cons]
                decide
            | cons p ps3 =>
                rw [show (((p :: ps3).map (fun p2 => ' ' :: dumpParam p2)).flatten
                  ++ ':' :: ((ds.map (fun d => ' ' :: d)).flatten ++
                    '\n' :: (dumpBody body ++ rest)) : Text) =
                  ' ' :: (dumpParam p ++
                    ((ps3.map (fun p2 => ' ' :: dumpParam p2)).flatten ++
                      ':' :: ((ds.map (fun d => ' ' :: d)).flatten ++
                        '\n' :: (dumpBody body ++ rest)))) from by simp,
                  headNo_cons]
                decide
          have hshape : dumpItem (Item.recipe ⟨n, true, ps, ds, body⟩) ++ rest =
              '@' :: (n ++ ((ps.map (fun p => ' ' :: dumpParam p)).flatten ++
                ':' :: ((ds.map (fun d => ' ' :: d)).flatten ++
                  '\n' :: (dumpBody body ++ rest)))) := by
            simp [dumpItem, dumpRecipe]
          rw [hshape]
          simp only [parseItem]
          rw [if_neg (by simp [List.isPrefixOf])]
          rw [if_neg (by simp [List.isPrefixOf])]
          rw [if_pos (by trivial)]
          rw [parseIdent_inv hn _ hheadX]
          simp only []
          rw [parseRecipeRest_inv F n true ps ds body hwps hwds hwb hpsB hplB
            hdlB hbbB hblB rest hrest]
      | false =>
          obtain ⟨hpsB, hplB, hdlB, hbbB, hblB⟩ :=
            recipeBounds F n false ps ds body (by
              simpa [dumpItem] using hF)
          cases ps with
          | nil =>
              have hshape : dumpItem (Item.recipe ⟨n, false, [], ds, body⟩)
                  ++ rest =
                  n ++ ':' :: ((ds.map (fun d => ' ' :: d)).flatten ++
                    '\n' :: (dumpBody body ++ rest)) := by
                simp [dumpItem, dumpRecipe]
              rw [hshape]
              simp only [parseItem]
              rw [if_neg (show
                ¬ (((['a','l','i','a','s',' '] : Text)).isPrefixOf
                  (n ++ ':' :: ((ds.map (fun d => ' ' :: d)).flatten ++
                    '\n' :: (dumpBody body ++ rest))) = true) from
                not_eq_true_of_false (keyword_sep_not_space
                  "alias".data n (by decide) hn ':' (by decide) (by decide)
                  ((ds.map (fun d => ' ' :: d)).flatten ++
                    '\n' :: (dumpBody body ++ rest))))]
              rw [if_neg (show
                ¬ (((['e','x','p','o','r','t',' '] : Text)).isPrefixOf
                  (n ++ ':' :: ((ds.map (fun d => ' ' :: d)).flatten ++
                    '\n' :: (dumpBody body ++ rest))) = true) from
                not_eq_true_of_false (keyword_sep_not_space
                  "export".data n (by decide) hn ':' (by decide) (by decide)
                  ((ds.map (fun d => ' ' :: d)).flatten ++
                    '\n' :: (dumpBody body ++ rest))))]
              cases n with
              | nil => simp [isIdent] at hn
              | cons nc ntail =>
                  have hstart : identStart nc = true := by
                    simp only [isIdent, Bool.and_eq_true] at hn
                    exact hn.1
                  simp only [List.cons_append]
                  rw [if_neg (ne_of_pred hstart (by decide))]
                  rw [show (nc :: (ntail ++ ':' ::
                    ((ds.map (fun d => ' ' :: d)).flatten ++
                      '\n' :: (dumpBody body ++ rest))) : Text) =
                    (nc :: ntail) ++ (':' ::
                      ((ds.map (fun d => ' ' :: d)).flatten ++
                        '\n' :: (dumpBody body ++ rest))) from by simp]
                  rw [parseIdent_inv hn _ (by rw [headNo_cons]; decide)]
                  simp only []
                  rw [if_neg (by simp [List.isPrefixOf])]
                  have h5 := parseRecipeRest_inv F (nc :: ntail) false [] ds
                    body (by simp) hwds hwb (by simp) hplB hdlB hbbB hblB
                    rest hrest
                  simp only [List.map_nil, List.flatten_nil,
                    List.nil_append] at h5
                  rw [h5]
          | cons p ps3 =>
              have hcl2 : ¬ n = "alias".data ∧ ¬ n = "export".data := by
                simp at hclause
                exact hclause
              have hwp : paramWF p = true := by
                simp only [List.all_cons, Bool.and_eq_true] at hwps
                exact hwps.1
              have hshape : dumpItem
                  (Item.recipe ⟨n, false, p :: ps3, ds, body⟩) ++ rest =
                  n ++ ' ' :: (dumpParam p ++
                    ((ps3.map (fun p2 => ' ' :: dumpParam p2)).flatten ++
                      ':' :: ((ds.map (fun d => ' ' :: d)).flatten ++
                        '\n' :: (dumpBody body ++ rest)))) := by
                simp [dumpItem, dumpRecipe]
              rw [hshape]
              simp only [parseItem]
              rw [if_neg (show
                ¬ (((['a','l','i','a','s',' '] : Text)).isPrefixOf
                  (n ++ ' ' :: (dumpParam p ++
                    ((ps3.map (fun p2 => ' ' :: dumpParam p2)).flatten ++
                      ':' :: ((ds.map (fun d => ' ' :: d)).flatten ++
                        '\n' :: (dumpBody body ++ rest))))) = true) from
                not_eq_true_of_false (keyword_not_pref
                  "alias".data n (by decide) hn hcl2.1 ' ' (by decide)
                  (dumpParam p ++
                    ((ps3.map (fun p2 => ' ' :: dumpParam p2)).flatten ++
                      ':' :: ((ds.map (fun d => ' ' :: d)).flatten ++
                        '\n' :: (dumpBody body ++ rest))))))]
              rw [if_neg (show
                ¬ (((['e','x','p','o','r','t',' '] : Text)).isPrefixOf
                  (n ++ ' ' :: (dumpParam p ++
                    ((ps3.map (fun p2 => ' ' :: dumpParam p2)).flatten ++
                      ':' :: ((ds.map (fun d => ' ' :: d)).flatten ++
                        '\n' :: (dumpBody body ++ rest))))) = true) from
                not_eq_true_of_false (keyword_not_pref
                  "export".data n (by decide) hn hcl2.2 ' ' (by decide)
                  (dumpParam p ++
                    ((ps3.map (fun p2 => ' ' :: dumpParam p2)).flatten ++
                      ':' :: ((ds.map (fun d => ' ' :: d)).flatten ++
                        '\n' :: (dumpBody body ++ rest))))))]
              cases n with
              | nil => simp [isIdent] at hn
              | cons nc ntail =>
                  have hstart : identStart nc = true := by
                    simp only [isIdent, Bool.and_eq_true] at hn
                    exact hn.1
                  simp only [List.cons_append]
                  rw [if_neg (ne_of_pred hstart (by decide))]
                  rw [show (nc :: (ntail ++ ' ' :: (dumpParam p ++
                    ((ps3.map (fun p2 => ' ' :: dumpParam p2)).flatten ++
                      ':' :: ((ds.map (fun d => ' ' :: d)).flatten ++
                        '\n' :: (dumpBody body ++ rest))))) : Text) =
                    (nc :: ntail) ++ (' ' :: (dumpParam p ++
                      ((ps3.map (fun p2 => ' ' :: dumpParam p2)).flatten ++
                        ':' :: ((ds.map (fun d => ' ' :: d)).flatten ++
                          '\n' :: (dumpBody body ++ rest))))) from by simp]
                  rw [parseIdent_inv hn _ (by rw [headNo_cons]; decide)]
                  simp only []
                  rw [if_neg (show
                    ¬ ((([' ',':','=',' '] : Text)).isPrefixOf
                      (' ' :: (dumpParam p ++
                        ((ps3.map (fun p2 => ' ' :: dumpParam p2)).flatten ++
                          ':' :: ((ds.map (fun d => ' ' :: d)).flatten ++
                            '\n' :: (dumpBody body ++ rest))))) = true) from
                    not_eq_true_of_false (paramDump_colonPrefix_false p hwp
                      ((ps3.map (fun p2 => ' ' :: dumpParam p2)).flatten ++
                        ':' :: ((ds.map (fun d => ' ' :: d)).flatten ++
                          '\n' :: (dumpBody body ++ rest)))))]
                  have h5 := parseRecipeRest_inv F (nc :: ntail) false
                    (p :: ps3) ds body hwps hwds hwb hpsB hplB hdlB hbbB hblB
                    rest hrest
                  simp only [List.map_cons, List.flatten_cons,
                    List.cons_append, List.append_assoc] at h5
                  rw [h5]

theorem dumpItem_length_pos (i : Item) : 1 ≤ (dumpItem i).length := by
  cases i with
  | asg a =>
      obtain ⟨n, e, x⟩ := a
      cases x <;> (simp [dumpItem, dumpAssignment]; try omega)
  | al a =>
      simp [dumpItem, dumpAlias]
      try omega
  | recipe r =>
      obtain ⟨n, q, ps, ds, body⟩ := r
      cases q <;> (simp [dumpItem, dumpRecipe]; try omega)

theorem dumpItems_no_indent : ∀ (items : List Item), items.all itemWF = true →
    "    ".data.isPrefixOf (dumpItems items) = false := by
  intro items hwf
  cases items with
  | nil => rfl
  | cons i items2 =>
      simp only [List.all_cons, Bool.and_eq_true] at hwf
      obtain ⟨hwi, -⟩ := hwf
      have hsp : (("    ".data : Text)) = ' ' :: "   ".data := rfl
      cases i with
      | al a =>
          rw [show dumpItems (Item.al a :: items2) =
            'a' :: ("lias ".data ++ (a.name ++ (" := ".data ++ (a.target ++
              '\n' :: dumpItems items2)))) from by
              simp [dumpItems, dumpItem, dumpAlias,
                show ("alias ".data : Text) = 'a' :: "lias ".data from rfl]]
          rw [hsp]
          exact isPrefixOf_cons_false (by decide)
      | asg a =>
          obtain ⟨n, e, x⟩ := a
          cases x with
          | true =>
              rw [show dumpItems (Item.asg ⟨n, e, true⟩ :: items2) =
                'e' :: ("xport ".data ++ (n ++ (" := ".data ++ (dumpExpr e ++
                  '\n' :: dumpItems items2)))) from by
                  simp [dumpItems, dumpItem, dumpAssignment,
                    show ("export ".data : Text) = 'e' :: "xport ".data
                      from rfl]]
              rw [hsp]
              exact isPrefixOf_cons_false (by decide)
          | false =>
              simp only [itemWF, assignmentWF, Bool.and_eq_true] at hwi
              obtain ⟨⟨hn, -⟩, -⟩ := hwi
              cases n with
              | nil => simp [isIdent] at hn
              | cons nc ntail =>
                  have hstart : identStart nc = true := by
                    simp only [isIdent, Bool.and_eq_true] at hn
                    exact hn.1
                  rw [show dumpItems (Item.asg ⟨nc :: ntail, e, false⟩ ::
                    items2) = nc :: (ntail ++ (" := ".data ++ (dumpExpr e ++
                      '\n' :: dumpItems items2))) from by
                      simp [dumpItems, dumpItem, dumpAssignment]]
                  rw [hsp]
                  exact isPrefixOf_cons_false
                    (fun he => (ne_of_pred hstart (by decide)) he.symm)
      | recipe r =>
          obtain ⟨n, q, ps, ds, body⟩ := r
          cases q with
          | true =>
              rw [show dumpItems (Item.recipe ⟨n, true, ps, ds, body⟩ ::
                items2) = '@' :: (n ++
                  ((ps.map (fun p => ' ' :: dumpParam p)).flatten ++
                    ':' :: ((ds.map (fun d => ' ' :: d)).flatten ++
                      '\n' :: (dumpBody body ++ dumpItems items2)))) from by
                  simp [dumpItems, dumpItem, dumpRecipe]]
              rw [hsp]
              exact isPrefixOf_cons_false (by decide)
          | false =>
              simp only [itemWF, recipeWF, Bool.and_eq_true] at hwi
              obtain ⟨⟨⟨⟨hn, -⟩, -⟩, -⟩, -⟩ := hwi
              cases n with
              | nil => simp [isIdent] at hn
              | cons nc ntail =>
                  have hstart : identStart nc = true := by
                    simp only [isIdent, Bool.and_eq_true] at hn
                    exact hn.1
                  rw [show dumpItems (Item.recipe ⟨nc :: ntail, false, ps, ds,
                    body⟩ :: items2) = nc :: (ntail ++
                      ((ps.map (fun p => ' ' :: dumpParam p)).flatten ++
                        ':' :: ((ds.map (fun d => ' ' :: d)).flatten ++
                          '\n' :: (dumpBody body ++ dumpItems items2))))
                    from by simp [dumpItems, dumpItem, dumpRecipe]]
                  rw [hsp]
                  exact isPrefixOf_cons_false
                    (fun he => (ne_of_pred hstart (by decide)) he.symm)

theorem dumpItems_cons (i : Item) (items : List Item) :
    dumpItems (i :: items) = dumpItem i ++ dumpItems items := by
  simp [dumpItems]

theorem parseItems_inv : ∀ (items : List Item) (F fuelI : Nat),
    items.all itemWF = true →
    (∀ i ∈ items, (dumpItem i).length ≤ F) →
    items.length < fuelI →
    parseItems F fuelI (dumpItems items) =
      some (items.foldr consItem ⟨[], [], []⟩) := by
  intro items
  induction items with
  | nil =>
      intro F fuelI hwf hb hlen
      cases fuelI with
      | zero => omega
      | succ f => simp [dumpItems, parseItems]
  | cons i items2 ih =>
      intro F fuelI hwf hb hlen
      cases fuelI with
      | zero => omega
      | succ f =>
          have hwf2 := hwf
          simp only [List.all_cons, Bool.and_eq_true] at hwf2
          obtain ⟨hwi, hwis⟩ := hwf2
          rw [dumpItems_cons]
          cases hs : (dumpItem i ++ dumpItems items2) with
          | nil =>
              have h0 := congrArg List.length hs
              simp only [List.length_append, List.length_nil] at h0
              have := dumpItem_length_pos i
              omega
          | cons c t =>
              simp only [parseItems]
              rw [← hs]
              rw [parseItem_inv F i hwi (hb i (by simp)) (dumpItems items2)
                (dumpItems_no_indent items2 hwis)]
              simp only []
              rw [ih F f hwis (fun j hj => hb j (by simp [hj]))
                (by simp at hlen ⊢; omega)]
              rfl

theorem dumpJustfile_eq_items (j : Justfile) :
    dumpJustfile j = dumpItems (itemsOf j) := by
  obtain ⟨A, B, C⟩ := j
  simp only [dumpJustfile, dumpItems, itemsOf, List.map_append, List.map_map,
    List.flatten_append]
  rw [show (dumpItem ∘ Item.asg) = dumpAssignment from funext (fun a => rfl)]
  rw [show (dumpItem ∘ Item.al) = dumpAlias from funext (fun a => rfl)]
  rw [show (dumpItem ∘ Item.recipe) = dumpRecipe from funext (fun a => rfl)]

theorem foldr_recipes (C : List RecipeAst) (j0 : Justfile) :
    (C.map Item.recipe).foldr consItem j0 =
      ⟨j0.assignments, j0.aliases, C ++ j0.recipes⟩ := by
  induction C with
  | nil => simp
  | cons r C2 ih => simp [consItem, ih]

theorem foldr_aliases (B : List Alias) (j0 : Justfile) :
    (B.map Item.al).foldr consItem j0 =
      ⟨j0.assignments, B ++ j0.aliases, j0.recipes⟩ := by
  induction B with
  | nil => simp
  | cons b B2 ih => simp [consItem, ih]

theorem foldr_assignments (A : List Assignment) (j0 : Justfile) :
    (A.map Item.asg).foldr consItem j0 =
      ⟨A ++ j0.assignments, j0.aliases, j0.recipes⟩ := by
  induction A with
  | nil => simp
  | cons a A2 ih => simp [consItem, ih]

theorem foldr_itemsOf (j : Justfile) :
    (itemsOf j).foldr consItem ⟨[], [], []⟩ = j := by
  obtain ⟨A, B, C⟩ := j
  simp only [itemsOf, List.foldr_append]
  rw [foldr_recipes, foldr_aliases, foldr_assignments]
  simp

theorem justfileWF_items (j : Justfile) (hwf : justfileWF j = true) :
    (itemsOf j).all itemWF = true := by
  obtain ⟨A, B, C⟩ := j
  simp only [justfileWF, Bool.and_eq_true] at hwf
  obtain ⟨⟨hA, hB⟩, hC⟩ := hwf
  simp only [itemsOf, List.all_append, List.all_map, Bool.and_eq_true]
  refine ⟨⟨?_, ?_⟩, ?_⟩
  · simpa [Function.comp, itemWF] using hA
  · simpa [Function.comp, itemWF] using hB
  · simpa [Function.comp, itemWF] using hC

/-- Inversion: parsing the canonical dump of a well-formed justfile
recovers it exactly. -/
theorem parse_dump (j : Justfile) (hwf : justfileWF j = true) :
    parseJustfile (dumpJustfile j) = some j := by
  have hitems : (itemsOf j).all itemWF = true := justfileWF_items j hwf
  have hbound : ∀ i ∈ itemsOf j, (dumpItem i).length ≤
      (dumpJustfile j).length + 1 := by
    intro i hi
    have h1 := length_le_flatten dumpItem (itemsOf j) i hi
    have h2 : dumpItems (itemsOf j) = ((itemsOf j).map dumpItem).flatten := rfl
    rw [← h2] at h1
    rw [← dumpJustfile_eq_items] at h1
    omega
  have hcount : (itemsOf j).length < (dumpJustfile j).length + 1 := by
    have h1 := count_le_flatten dumpItem (itemsOf j)
      (fun i _ => dumpItem_length_pos i)
    have h2 : dumpItems (itemsOf j) = ((itemsOf j).map dumpItem).flatten := rfl
    rw [← h2] at h1
    rw [← dumpJustfile_eq_items] at h1
    omega
  simp only [parseJustfile]
  rw [dumpJustfile_eq_items]
  rw [← dumpJustfile_eq_items]
  rw [show parseItems ((dumpJustfile j).length + 1)
    ((dumpJustfile j).length + 1) (dumpJustfile j) =
    parseItems ((dumpJustfile j).length + 1) ((dumpJustfile j).length + 1)
      (dumpItems (itemsOf j)) from by rw [← dumpJustfile_eq_items]]
  rw [parseItems_inv (itemsOf j) ((dumpJustfile j).length + 1)
    ((dumpJustfile j).length + 1) hitems hbound hcount]
  rw [foldr_itemsOf]

theorem mem_takeWhile_pred {α : Type} {p : α → Bool} :
    ∀ {l : List α} {x : α}, x ∈ l.takeWhile p → p x = true := by
  intro l
  induction l with
  | nil => intro x hx; simp at hx
  | cons a t ih =>
      intro x hx
      rw [List.takeWhile_cons] at hx
      by_cases ha : p a = true
      · rw [if_pos ha] at hx
        rcases List.mem_cons.mp hx with rfl | hx2
        · exact ha
        · exact ih hx2
      · rw [if_neg ha] at hx
        simp at hx

theorem isPrefixOf_exists {α : Type} [BEq α] [LawfulBEq α] : ∀ (k s : List α),
    k.isPrefixOf s = true → ∃ w, s = k ++ w := by
  intro k
  induction k with
  | nil => intro s h; exact ⟨s, rfl⟩
  | cons a k2 ih =>
      intro s h
      cases s with
      | nil => simp [List.isPrefixOf] at h
      | cons b s2 =>
          simp only [List.isPrefixOf, Bool.and_eq_true, beq_iff_eq] at h
          obtain ⟨rfl, h2⟩ := h
          obtain ⟨w, rfl⟩ := ih s2 h2
          exact ⟨w, rfl⟩

theorem parseIdent_sound (s n s2 : Text) (h : parseIdent s = some (n, s2)) :
    isIdent n = true ∧ s = n ++ s2 := by
  cases s with
  | nil => simp [parseIdent] at h
  | cons c r =>
      simp only [parseIdent] at h
      by_cases hc : identStart c = true
      · rw [if_pos hc] at h
        have h2 := Option.some.inj h
        have hn : c :: r.takeWhile identChar = n := congrArg Prod.fst h2
        have hs : r.dropWhile identChar = s2 := congrArg Prod.snd h2
        subst hn
        subst hs
        constructor
        · simp only [isIdent, Bool.and_eq_true]
          refine ⟨hc, ?_⟩
          simp only [List.all_eq_true]
          intro x hx
          exact mem_takeWhile_pred hx
        · simp [List.takeWhile_append_dropWhile]
      · rw [if_neg hc] at h
        simp at h

theorem parseBacktickBody_sound : ∀ (s cmd rem : Text),
    parseBacktickBody s = some (cmd, rem) →
    cmd.all (fun c => ¬ c = '\x60') = true := by
  intro s
  induction s with
  | nil => intro cmd rem h; simp [parseBacktickBody] at h
  | cons c r ih =>
      intro cmd rem h
      simp only [parseBacktickBody] at h
      by_cases hc : c = '\x60'
      · rw [if_pos hc] at h
        have h2 := Option.some.inj h
        have hcmd : ([] : Text) = cmd := congrArg Prod.fst h2
        subst hcmd
        simp
      · rw [if_neg hc] at h
        cases hres : parseBacktickBody r with
        | none => rw [hres] at h; simp at h
        | some pr =>
            obtain ⟨cmd2, rem2⟩ := pr
            rw [hres] at h
            simp only [] at h
            have h2 := Option.some.inj h
            have hcmd : c :: cmd2 = cmd := congrArg Prod.fst h2
            subst hcmd
            simp only [List.all_cons, Bool.and_eq_true]
            refine ⟨by simpa using hc, ?_⟩
            exact ih cmd2 rem2 hres

theorem parseTermWith_sound (pe : Text → Option (Expr × Text))
    (hpe : ∀ s e s2, pe s = some (e, s2) → exprWF e = true) :
    ∀ s e s2, parseTermWith pe s = some (e, s2) →
      exprWF e = true ∧ notConcat e = true := by
  intro s e s2 h
  cases s with
  | nil => simp [parseTermWith] at h
  | cons c r =>
      simp only [parseTermWith] at h
      by_cases h1 : c = '\x22'
      · rw [if_pos h1] at h
        cases hsb : parseStringBody r with
        | none => rw [hsb] at h; simp at h
        | some pr =>
            obtain ⟨str, rem⟩ := pr
            rw [hsb] at h
            simp only [] at h
            have h2 := Option.some.inj h
            have he : Expr.lit str = e := congrArg Prod.fst h2
            subst he
            exact ⟨by simp [exprWF], rfl⟩
      · rw [if_neg h1] at h
        by_cases h2 : c = '\x60'
        · rw [if_pos h2] at h
          cases hbb : parseBacktickBody r with
          | none => rw [hbb] at h; simp at h
          | some pr =>
              obtain ⟨cmd, rem⟩ := pr
              rw [hbb] at h
              simp only [] at h
              have h3 := Option.some.inj h
              have he : Expr.backtick cmd = e := congrArg Prod.fst h3
              subst he
              refine ⟨?_, rfl⟩
              simp only [exprWF]
              exact parseBacktickBody_sound r cmd rem hbb
        · rw [if_neg h2] at h
          by_cases h3 : c = '('
          · rw [if_pos h3] at h
            cases hpe2 : pe r with
            | none => rw [hpe2] at h; simp at h
            | some pr =>
                obtain ⟨e0, rem⟩ := pr
                rw [hpe2] at h
                simp only [] at h
                cases rem with
                | nil => simp at h
                | cons c2 rem2 =>
                    simp only [] at h
                    by_cases h4 : c2 = ')'
                    · rw [if_pos h4] at h
                      have h5 := Option.some.inj h
                      have he : Expr.group e0 = e := congrArg Prod.fst h5
                      subst he
                      refine ⟨?_, rfl⟩
                      simp only [exprWF]
                      exact hpe r e0 (c2 :: rem2) hpe2
                    · rw [if_neg h4] at h
                      simp at h
          · rw [if_neg h3] at h
            cases hid : parseIdent (c :: r) with
            | none => rw [hid] at h; simp at h
            | some pr =>
                obtain ⟨n, rem⟩ := pr
                rw [hid] at h
                simp only [] at h
                have h5 := Option.some.inj h
                have he : Expr.var n = e := congrArg Prod.fst h5
                subst he
                refine ⟨?_, rfl⟩
                simp only [exprWF]
                exact (parseIdent_sound (c :: r) n rem hid).1

theorem parseExpr_sound : ∀ (fuel : Nat) (s : Text) (e : Expr) (s2 : Text),
    parseExpr fuel s = some (e, s2) → exprWF e = true := by
  intro fuel
  induction fuel with
  | zero => intro s e s2 h; simp [parseExpr] at h
  | succ f ih =>
      intro s e s2 h
      simp only [parseExpr] at h
      cases ht : parseTermWith (parseExpr f) s with
      | none => rw [ht] at h; simp at h
      | some pr =>
          obtain ⟨t, rem⟩ := pr
          rw [ht] at h
          simp only [] at h
          obtain ⟨hwt, hnc⟩ := parseTermWith_sound (parseExpr f)
            (fun s3 e3 s4 h3 => ih s3 e3 s4 h3) s t rem ht
          by_cases hp : " + ".data.isPrefixOf rem = true
          · rw [if_pos hp] at h
            cases hrec : parseExpr f (rem.drop 3) with
            | none => rw [hrec] at h; simp at h
            | some pr2 =>
                obtain ⟨e2, rem2⟩ := pr2
                rw [hrec] at h
                simp only [] at h
                have h5 := Option.some.inj h
                have he : Expr.concat t e2 = e := congrArg Prod.fst h5
                subst he
                simp only [exprWF, Bool.and_eq_true]
                exact ⟨⟨hnc, hwt⟩, ih _ _ _ hrec⟩
          · rw [if_neg hp] at h
            have h5 := Option.some.inj h
            have he : t = e := congrArg Prod.fst h5
            subst he
            exact hwt

theorem takeText_step {c d : Char} (r2 : Text) (hc : ¬ c = '\n')
    (hcd : ¬ (c = '\x7b' ∧ d = '\x7b')) :
    takeText (c :: d :: r2) = c :: takeText (d :: r2) := by
  rw [takeText]
  rw [if_neg hc, if_neg (by
    intro hb
    simp only [Bool.and_eq_true, decide_eq_true_eq] at hb
    exact hcd hb)]

theorem takeText_head : ∀ (c : Char) (r : Text),
    takeText (c :: r) = [] ∨ ∃ t2, takeText (c :: r) = c :: t2 := by
  intro c r
  cases r with
  | nil =>
      by_cases hc : c = '\n'
      · left; simp [takeText, hc]
      · right; exact ⟨[], by simp [takeText, hc]⟩
  | cons d r2 =>
      by_cases hc : c = '\n'
      · left; simp [takeText, hc]
      · by_cases hcd : c = '\x7b' ∧ d = '\x7b'
        · left; simp [takeText, hcd.1, hcd.2]
        · right
          exact ⟨takeText (d :: r2), takeText_step r2 hc hcd⟩

theorem takeText_all_not_newline : ∀ s : Text, ∀ c ∈ takeText s, ¬ c = '\n' := by
  intro s
  induction s with
  | nil => intro c hc; simp [takeText] at hc
  | cons a r ih =>
      intro c hc
      cases r with
      | nil =>
          by_cases ha : a = '\n'
          · simp [takeText, ha] at hc
          · simp [takeText, ha] at hc
            subst hc
            exact ha
      | cons d r2 =>
          by_cases ha : a = '\n'
          · simp [takeText, ha] at hc
          · by_cases had : a = '\x7b' ∧ d = '\x7b'
            · simp [takeText, had.1, had.2] at hc
            · rw [takeText_step r2 ha had] at hc
              rcases List.mem_cons.mp hc with rfl | hc2
              · exact ha
              · exact ih c hc2

theorem takeText_no_openbrace : ∀ s : Text, hasOpenBrace (takeText s) = false := by
  intro s
  induction s with
  | nil => rfl
  | cons a r ih =>
      cases r with
      | nil =>
          by_cases ha : a = '\n' <;> simp [takeText, ha, hasOpenBrace]
      | cons d r2 =>
          by_cases ha : a = '\n'
          · simp [takeText, ha, hasOpenBrace]
          · by_cases had : a = '\x7b' ∧ d = '\x7b'
            · simp [takeText, had.1, had.2, hasOpenBrace]
            · rw [takeText_step r2 ha had]
              rcases takeText_head d r2 with h0 | ⟨t2, h0⟩
              · rw [h0]
                rfl
              · rw [h0]
                rw [h0] at ih
                rw [hasOpenBrace]
                simp only [ih, Bool.or_false]
                rcases not_and_or.mp had with h | h <;> simp [h]

theorem takeText_drop_shape : ∀ s : Text,
    s.drop (takeText s).length = [] ∨
    (∃ u, s.drop (takeText s).length = '\n' :: u) ∨
    "\x7b\x7b".data.isPrefixOf (s.drop (takeText s).length) = true := by
  intro s
  induction s with
  | nil => left; rfl
  | cons a r ih =>
      cases r with
      | nil =>
          by_cases ha : a = '\n'
          · right; left
            exact ⟨[], by simp [takeText, ha]⟩
          · left
            simp [takeText, ha]
      | cons d r2 =>
          by_cases ha : a = '\n'
          · right; left
            exact ⟨d :: r2, by simp [takeText, ha]⟩
          · by_cases had : a = '\x7b' ∧ d = '\x7b'
            · right; right
              rw [show takeText (a :: d :: r2) = [] from by
                simp [takeText, had.1, had.2]]
              simp only [List.length_nil, List.drop_zero]
              rw [had.1, had.2]
              rw [show ('\x7b' :: '\x7b' :: r2 : Text) =
                "\x7b\x7b".data ++ r2 from rfl]
              exact isPrefixOf_append _ _
            · rw [takeText_step r2 ha had]
              simp only [List.length_cons, List.drop_succ_cons]
              exact ih

theorem takeText_last_brace : ∀ s : Text,
    "\x7b\x7b".data.isPrefixOf (s.drop (takeText s).length) = true →
    ¬ (takeText s).getLast? = some '\x7b' := by
  intro s
  induction s with
  | nil =>
      intro h
      exact absurd h (by decide)
  | cons a r ih =>
      intro h
      cases r with
      | nil =>
          by_cases ha : a = '\n'
          · rw [show takeText [a] = [] from by simp [takeText, ha]]
            simp
          · rw [show takeText [a] = [a] from by simp [takeText, ha]] at h
            rw [show (([a] : Text)).drop ([a] : Text).length = [] from by simp]
              at h
            exact absurd h (by decide)
      | cons d r2 =>
          by_cases ha : a = '\n'
          · rw [show takeText (a :: d :: r2) = [] from by simp [takeText, ha]]
            simp
          · by_cases had : a = '\x7b' ∧ d = '\x7b'
            · rw [show takeText (a :: d :: r2) = [] from by
                simp [takeText, had.1, had.2]]
              simp
            · rw [takeText_step r2 ha had] at h ⊢
              simp only [List.length_cons, List.drop_succ_cons] at h
              have ih2 := ih h
              rcases takeText_head d r2 with h0 | ⟨t2, h0⟩
              · rw [h0]
                rw [h0] at h
                simp only [List.length_nil, List.drop_zero] at h
                have hd : d = '\x7b' := by
                  obtain ⟨w, hw⟩ := isPrefixOf_exists _ _ h
                  have := congrArg (fun l => l.head?) hw
                  simpa using this
                have hna : ¬ a = '\x7b' := fun haa => had ⟨haa, hd⟩
                intro hcon
                have h1 : (([a] : Text)).getLast? = some a := rfl
                rw [h1] at hcon
                exact hna (Option.some.inj hcon)
              · rw [h0] at ih2 ⊢
                rw [List.getLast?_cons_cons]
                exact ih2

theorem parseFragments_nl (fuelF F : Nat) (u : Text) (fs : List Fragment)
    (s3 : Text) (h : parseFragments fuelF F ('\n' :: u) = some (fs, s3)) :
    fs = [] := by
  cases fuelF with
  | zero => simp [parseFragments] at h
  | succ f =>
      simp only [parseFragments] at h
      rw [if_pos (by trivial)] at h
      have h2 := Option.some.inj h
      exact (congrArg Prod.fst h2).symm

theorem parseFragments_brace (fuelF F : Nat) (u : Text) (fs : List Fragment)
    (s3 : Text) (hpre : "\x7b\x7b".data.isPrefixOf u = true)
    (h : parseFragments fuelF F u = some (fs, s3)) :
    ∃ e fs2, fs = Fragment.interp e :: fs2 := by
  cases fuelF with
  | zero => simp [parseFragments] at h
  | succ f =>
      obtain ⟨w, rfl⟩ := isPrefixOf_exists _ _ hpre
      rw [show ("\x7b\x7b".data ++ w : Text) = '\x7b' :: '\x7b' :: w
        from rfl] at h
      simp only [parseFragments] at h
      rw [if_neg (by decide)] at h
      rw [if_pos (by
        rw [show ('\x7b' :: '\x7b' :: w : Text) = "\x7b\x7b".data ++ w from rfl]
        exact isPrefixOf_append _ _)] at h
      cases hpe : parseExpr F (('\x7b' :: '\x7b' :: w : Text).drop 2) with
      | none => rw [hpe] at h; simp at h
      | some pr =>
          obtain ⟨e, s2⟩ := pr
          rw [hpe] at h
          simp only [] at h
          by_cases hp2 : "\x7d\x7d".data.isPrefixOf s2 = true
          · rw [if_pos hp2] at h
            cases hrec : parseFragments f F (s2.drop 2) with
            | none => rw [hrec] at h; simp at h
            | some pr2 =>
                obtain ⟨fs2, s4⟩ := pr2
                rw [hrec] at h
                simp only [] at h
                have h2 := Option.some.inj h
                exact ⟨e, fs2, (congrArg Prod.fst h2).symm⟩
          · rw [if_neg hp2] at h
            simp at h

theorem parseFragments_sound : ∀ (fuelF F : Nat) (s : Text)
    (fs : List Fragment) (s3 : Text),
    parseFragments fuelF F s = some (fs, s3) → lineWF fs = true := by
  intro fuelF
  induction fuelF with
  | zero => intro F s fs s3 h; simp [parseFragments] at h
  | succ f ih =>
      intro F s fs s3 h
      cases s with
      | nil => simp [parseFragments] at h
      | cons c r =>
          simp only [parseFragments] at h
          by_cases hc : c = '\n'
          · rw [if_pos hc] at h
            have h2 := Option.some.inj h
            have h3 : ([] : List Fragment) = fs := congrArg Prod.fst h2
            rw [← h3]
            rfl
          · rw [if_neg hc] at h
            by_cases hb : "\x7b\x7b".data.isPrefixOf (c :: r) = true
            · rw [if_pos hb] at h
              cases hpe : parseExpr F ((c :: r : Text).drop 2) with
              | none => rw [hpe] at h; simp at h
              | some pr =>
                  obtain ⟨e, s2⟩ := pr
                  rw [hpe] at h
                  simp only [] at h
                  by_cases hp2 : "\x7d\x7d".data.isPrefixOf s2 = true
                  · rw [if_pos hp2] at h
                    cases hrec : parseFragments f F (s2.drop 2) with
                    | none => rw [hrec] at h; simp at h
                    | some pr2 =>
                        obtain ⟨fs2, s4⟩ := pr2
                        rw [hrec] at h
                        simp only [] at h
                        have h2 := Option.some.inj h
                        have hfs : Fragment.interp e :: fs2 = fs :=
                          congrArg Prod.fst h2
                        rw [← hfs]
                        simp only [lineWF, Bool.and_eq_true]
                        exact ⟨parseExpr_sound F _ e s2 hpe, ih F _ fs2 s4 hrec⟩
                  · rw [if_neg hp2] at h
                    simp at h
            · rw [if_neg hb] at h
              cases hrec : parseFragments f F
                  ((c :: r : Text).drop (takeText (c :: r)).length) with
              | none => rw [hrec] at h; simp at h
              | some pr2 =>
                  obtain ⟨fs2, s4⟩ := pr2
                  rw [hrec] at h
                  simp only [] at h
                  have h2 := Option.some.inj h
                  have hfs : Fragment.text (takeText (c :: r)) :: fs2 = fs :=
                    congrArg Prod.fst h2
                  rw [← hfs]
                  have hwfs2 : lineWF fs2 = true := ih F _ fs2 s4 hrec
                  obtain ⟨t2, hte⟩ : ∃ t2, takeText (c :: r) = c :: t2 := by
                    rcases takeText_head c r with h0 | h0
                    · exfalso
                      cases r with
                      | nil => simp [takeText, hc] at h0
                      | cons d r2 =>
                          by_cases hcd : c = '\x7b' ∧ d = '\x7b'
                          · exact hb (by
                              rw [hcd.1, hcd.2]
                              rw [show ('\x7b' :: '\x7b' :: r2 : Text) =
                                "\x7b\x7b".data ++ r2 from rfl]
                              exact isPrefixOf_append _ _)
                          · rw [takeText_step r2 hc hcd] at h0
                            simp at h0
                    · exact h0
                  simp only [lineWF, Bool.and_eq_true]
                  refine ⟨⟨⟨⟨?_, ?_⟩, ?_⟩, ?_⟩, hwfs2⟩
                  · rw [hte]
                    simp
                  · simp only [List.all_eq_true]
                    intro x hx
                    have := takeText_all_not_newline (c :: r) x hx
                    simpa using this
                  · simp [takeText_no_openbrace]
                  · cases fs2 with
                    | nil => rfl
                    | cons fr fs3 =>
                        cases fr with
                        | text t3 =>
                            exfalso
                            rcases takeText_drop_shape (c :: r) with
                              h0 | ⟨u, h0⟩ | h0
                            · rw [h0] at hrec
                              cases f with
                              | zero => simp [parseFragments] at hrec
                              | succ f2 => simp [parseFragments] at hrec
                            · rw [h0] at hrec
                              have := parseFragments_nl f F u _ _ hrec
                              simp at this
                            · have := parseFragments_brace f F _ _ _ h0 hrec
                              obtain ⟨e2, fs4, heq⟩ := this
                              simp at heq
                        | interp e2 =>
                            rcases takeText_drop_shape (c :: r) with
                              h0 | ⟨u, h0⟩ | h0
                            · exfalso
                              rw [h0] at hrec
                              cases f with
                              | zero => simp [parseFragments] at hrec
                              | succ f2 => simp [parseFragments] at hrec
                            · exfalso
                              rw [h0] at hrec
                              have := parseFragments_nl f F u _ _ hrec
                              simp at this
                            · have := takeText_last_brace (c :: r) h0
                              simpa using this

theorem parseParamTail_sound (F : Nat) (v : Bool) (n : Text)
    (hn : isIdent n = true) : ∀ (s : Text) (p : Param) (s2 : Text),
    parseParamTail F v n s = some (p, s2) → paramWF p = true := by
  intro s p s2 h
  cases s with
  | nil =>
      simp only [parseParamTail] at h
      have h2 := Option.some.inj h
      have h3 : (⟨n, v, none⟩ : Param) = p := congrArg Prod.fst h2
      rw [← h3]
      simp [paramWF, hn]
  | cons c s3 =>
      simp only [parseParamTail] at h
      by_cases hc : c = '='
      · rw [if_pos hc] at h
        cases hpe : parseExpr F s3 with
        | none => rw [hpe] at h; simp at h
        | some pr =>
            obtain ⟨e, s4⟩ := pr
            rw [hpe] at h
            simp only [] at h
            have h2 := Option.some.inj h
            have h3 : (⟨n, v, some e⟩ : Param) = p := congrArg Prod.fst h2
            rw [← h3]
            simp only [paramWF, Bool.and_eq_true]
            exact ⟨hn, parseExpr_sound F s3 e s4 hpe⟩
      · rw [if_neg hc] at h
        have h2 := Option.some.inj h
        have h3 : (⟨n, v, none⟩ : Param) = p := congrArg Prod.fst h2
        rw [← h3]
        simp [paramWF, hn]

theorem parseParam_sound (F : Nat) (s : Text) (p : Param) (s2 : Text)
    (h : parseParam F s = some (p, s2)) : paramWF p = true := by
  cases s with
  | nil => simp [parseParam] at h
  | cons c r =>
      simp only [parseParam] at h
      by_cases hc : c = '+'
      · rw [if_pos hc] at h
        cases hid : parseIdent r with
        | none => rw [hid] at h; simp at h
        | some pr =>
            obtain ⟨n, s3⟩ := pr
            rw [hid] at h
            simp only [] at h
            exact parseParamTail_sound F true n
              (parseIdent_sound r n s3 hid).1 s3 p s2 h
      · rw [if_neg hc] at h
        cases hid : parseIdent (c :: r) with
        | none => rw [hid] at h; simp at h
        | some pr =>
            obtain ⟨n, s3⟩ := pr
            rw [hid] at h
            simp only [] at h
            exact parseParamTail_sound F false n
              (parseIdent_sound (c :: r) n s3 hid).1 s3 p s2 h

theorem parseParams_sound : ∀ (F fuelP : Nat) (s : Text) (ps : List Param)
    (s2 : Text), parseParams F fuelP s = some (ps, s2) →
    ps.all paramWF = true ∧ (∀ p1 ps3, ps = p1 :: ps3 → ∃ w, s = ' ' :: w) := by
  intro F fuelP
  induction fuelP with
  | zero => intro s ps s2 h; simp [parseParams] at h
  | succ f ih =>
      intro s ps s2 h
      cases s with
      | nil =>
          simp only [parseParams] at h
          have h2 := Option.some.inj h
          have h3 : ([] : List Param) = ps := congrArg Prod.fst h2
          rw [← h3]
          exact ⟨rfl, fun p1 ps3 heq => absurd heq (by simp)⟩
      | cons c r =>
          simp only [parseParams] at h
          by_cases hc : c = ' '
          · rw [if_pos hc] at h
            cases hp : parseParam F r with
            | none => rw [hp] at h; simp at h
            | some pr =>
                obtain ⟨p, s3⟩ := pr
                rw [hp] at h
                simp only [] at h
                cases hrec : parseParams F f s3 with
                | none => rw [hrec] at h; simp at h
                | some pr2 =>
                    obtain ⟨ps2, s4⟩ := pr2
                    rw [hrec] at h
                    simp only [] at h
                    have h2 := Option.some.inj h
                    have hps : p :: ps2 = ps := congrArg Prod.fst h2
                    rw [← hps]
                    obtain ⟨hw2, -⟩ := ih s3 ps2 s4 hrec
                    constructor
                    · simp only [List.all_cons, Bool.and_eq_true]
                      exact ⟨parseParam_sound F r p s3 hp, hw2⟩
                    · intro p1 ps3 heq
                      exact ⟨r, by rw [hc]⟩
          · rw [if_neg hc] at h
            have h2 := Option.some.inj h
            have h3 : ([] : List Param) = ps := congrArg Prod.fst h2
            rw [← h3]
            exact ⟨rfl, fun p1 ps3 heq => absurd heq (by simp)⟩

theorem parseDeps_sound : ∀ (fuelD : Nat) (s : Text) (ds : List Text)
    (s2 : Text), parseDeps fuelD s = some (ds, s2) →
    ds.all isIdent = true := by
  intro fuelD
  induction fuelD with
  | zero => intro s ds s2 h; simp [parseDeps] at h
  | succ f ih =>
      intro s ds s2 h
      cases s with
      | nil =>
          simp only [parseDeps] at h
          have h2 := Option.some.inj h
          have h3 : ([] : List Text) = ds := congrArg Prod.fst h2
          rw [← h3]
          rfl
      | cons c r =>
          simp only [parseDeps] at h
          by_cases hc : c = ' '
          · rw [if_pos hc] at h
            cases hid : parseIdent r with
            | none => rw [hid] at h; simp at h
            | some pr =>
                obtain ⟨d, s3⟩ := pr
                rw [hid] at h
                simp only [] at h
                cases hrec : parseDeps f s3 with
                | none => rw [hrec] at h; simp at h
                | some pr2 =>
                    obtain ⟨ds2, s4⟩ := pr2
                    rw [hrec] at h
                    simp only [] at h
                    have h2 := Option.some.inj h
                    have hds : d :: ds2 = ds := congrArg Prod.fst h2
                    rw [← hds]
                    simp only [List.all_cons, Bool.and_eq_true]
                    exact ⟨(parseIdent_sound r d s3 hid).1, ih s3 ds2 s4 hrec⟩
          · rw [if_neg hc] at h
            have h2 := Option.some.inj h
            have h3 : ([] : List Text) = ds := congrArg Prod.fst h2
            rw [← h3]
            rfl

theorem parseBodyLines_sound : ∀ (F fuelL : Nat) (s : Text)
    (body : List (List Fragment)) (s2 : Text),
    parseBodyLines F fuelL s = some (body, s2) → body.all lineWF = true := by
  intro F fuelL
  induction fuelL with
  | zero => intro s body s2 h; simp [parseBodyLines] at h
  | succ f ih =>
      intro s body s2 h
      simp only [parseBodyLines] at h
      by_cases hp : "    ".data.isPrefixOf s = true
      · rw [if_pos hp] at h
        cases hf : parseFragments F F (s.drop 4) with
        | none => rw [hf] at h; simp at h
        | some pr =>
            obtain ⟨frags, s3⟩ := pr
            rw [hf] at h
            simp only [] at h
            cases hrec : parseBodyLines F f s3 with
            | none => rw [hrec] at h; simp at h
            | some pr2 =>
                obtain ⟨ls, s4⟩ := pr2
                rw [hrec] at h
                simp only [] at h
                have h2 := Option.some.inj h
                have h3 : frags :: ls = body := congrArg Prod.fst h2
                rw [← h3]
                simp only [List.all_cons, Bool.and_eq_true]
                exact ⟨parseFragments_sound F F (s.drop 4) frags s3 hf,
                  ih s3 ls s4 hrec⟩
      · rw [if_neg hp] at h
        have h2 := Option.some.inj h
        have h3 : ([] : List (List Fragment)) = body := congrArg Prod.fst h2
        rw [← h3]
        rfl

theorem parseRecipeRest_sound (F : Nat) (n : Text) (q : Bool) (s : Text)
    (r : RecipeAst) (s3 : Text) (h : parseRecipeRest F n q s = some (r, s3)) :
    r.name = n ∧ r.quiet = q ∧ r.params.all paramWF = true ∧
      r.deps.all isIdent = true ∧ r.body.all lineWF = true ∧
      (∀ p1 ps3, r.params = p1 :: ps3 → ∃ w, s = ' ' :: w) := by
  simp only [parseRecipeRest] at h
  cases hps : parseParams F F s with
  | none => rw [hps] at h; simp at h
  | some pr =>
      obtain ⟨ps, s2⟩ := pr
      rw [hps] at h
      simp only [] at h
      cases s2 with
      | nil => simp at h
      | cons c s3a =>
          simp only [] at h
          by_cases hc : c = ':'
          · rw [if_pos hc] at h
            cases hds : parseDeps F s3a with
            | none => rw [hds] at h; simp at h
            | some pr2 =>
                obtain ⟨ds, s4⟩ := pr2
                rw [hds] at h
                simp only [] at h
                cases s4 with
                | nil => simp at h
                | cons c2 s5 =>
                    simp only [] at h
                    by_cases hc2 : c2 = '\n'
                    · rw [if_pos hc2] at h
                      cases hbl : parseBodyLines F F s5 with
                      | none => rw [hbl] at h; simp at h
                      | some pr3 =>
                          obtain ⟨body, s6⟩ := pr3
                          rw [hbl] at h
                          simp only [] at h
                          have h2 := Option.some.inj h
                          have hr : (⟨n, q, ps, ds, body⟩ : RecipeAst) = r :=
                            congrArg Prod.fst h2
                          rw [← hr]
                          obtain ⟨hpw, hsp⟩ :=
                            parseParams_sound F F s ps (c :: s3a) hps
                          refine ⟨rfl, rfl, hpw, ?_, ?_, ?_⟩
                          · exact parseDeps_sound F s3a ds (c2 :: s5) hds
                          · exact parseBodyLines_sound F F s5 body s6 hbl
                          · intro p1 ps3 heq
                            exact hsp p1 ps3 heq
                    · rw [if_neg hc2] at h
                      simp at h
          · rw [if_neg hc] at h
            simp at h

theorem parseAssignBody_sound (F : Nat) (s : Text) (ne : Text × Expr)
    (s2 : Text) (h : parseAssignBody F s = some (ne, s2)) :
    isIdent ne.1 = true ∧ exprWF ne.2 = true := by
  simp only [parseAssignBody] at h
  cases hid : parseIdent s with
  | none => rw [hid] at h; simp at h
  | some pr =>
      obtain ⟨n, s3⟩ := pr
      rw [hid] at h
      simp only [] at h
      by_cases hp : " := ".data.isPrefixOf s3 = true
      · rw [if_pos hp] at h
        cases hpe : parseExpr F (s3.drop 4) with
        | none => rw [hpe] at h; simp at h
        | some pr2 =>
            obtain ⟨e, s4⟩ := pr2
            rw [hpe] at h
            simp only [] at h
            cases s4 with
            | nil => simp at h
            | cons c s5 =>
                simp only [] at h
                by_cases hc : c = '\n'
                · rw [if_pos hc] at h
                  have h2 := Option.some.inj h
                  have h3 : (n, e) = ne := congrArg Prod.fst h2
                  rw [← h3]
                  exact ⟨(parseIdent_sound s n s3 hid).1,
                    parseExpr_sound F _ e _ hpe⟩
                · rw [if_neg hc] at h
                  simp at h
      · rw [if_neg hp] at h
        simp at h

theorem parseItem_sound (F : Nat) (s : Text) (item : Item) (s2 : Text)
    (h : parseItem F s = some (item, s2)) : itemWF item = true := by
  simp only [parseItem] at h
  by_cases hal : "alias ".data.isPrefixOf s = true
  · rw [if_pos hal] at h
    cases hid : parseIdent (s.drop 6) with
    | none => rw [hid] at h; simp at h
    | some pr =>
        obtain ⟨n, s3⟩ := pr
        rw [hid] at h
        simp only [] at h
        by_cases hp : " := ".data.isPrefixOf s3 = true
        · rw [if_pos hp] at h
          cases hid2 : parseIdent (s3.drop 4) with
          | none => rw [hid2] at h; simp at h
          | some pr2 =>
              obtain ⟨t, s4⟩ := pr2
              rw [hid2] at h
              simp only [] at h
              cases s4 with
              | nil => simp at h
              | cons c s5 =>
                  simp only [] at h
                  by_cases hc : c = '\n'
                  · rw [if_pos hc] at h
                    have h2 := Option.some.inj h
                    have h3 : Item.al ⟨n, t⟩ = item := congrArg Prod.fst h2
                    rw [← h3]
                    simp only [itemWF, aliasWF, Bool.and_eq_true]
                    exact ⟨(parseIdent_sound _ n s3 hid).1,
                      (parseIdent_sound _ t _ hid2).1⟩
                  · rw [if_neg hc] at h
                    simp at h
        · rw [if_neg hp] at h
          simp at h
  · rw [if_neg hal] at h
    by_cases hex : "export ".data.isPrefixOf s = true
    · rw [if_pos hex] at h
      cases hab : parseAssignBody F (s.drop 7) with
      | none => rw [hab] at h; simp at h
      | some pr =>
          obtain ⟨ne, s3⟩ := pr
          rw [hab] at h
          simp only [] at h
          have h2 := Option.some.inj h
          have h3 : Item.asg ⟨ne.1, ne.2, true⟩ = item := congrArg Prod.fst h2
          rw [← h3]
          obtain ⟨hn, he⟩ := parseAssignBody_sound F (s.drop 7) ne s3 hab
          simp only [itemWF, assignmentWF, Bool.and_eq_true]
          exact ⟨⟨hn, he⟩, by simp⟩
    · rw [if_neg hex] at h
      cases s with
      | nil => simp at h
      | cons c r =>
          simp only [] at h
          by_cases hq : c = '@'
          · rw [if_pos hq] at h
            cases hid : parseIdent r with
            | none => rw [hid] at h; simp at h
            | some pr =>
                obtain ⟨n, s3⟩ := pr
                rw [hid] at h
                simp only [] at h
                cases hrr : parseRecipeRest F n true s3 with
                | none => rw [hrr] at h; simp at h
                | some pr2 =>
                    obtain ⟨rc, s4⟩ := pr2
                    rw [hrr] at h
                    simp only [] at h
                    have h2 := Option.some.inj h
                    have h3 : Item.recipe rc = item := congrArg Prod.fst h2
                    rw [← h3]
                    obtain ⟨hrn, hrq, hrp, hrd, hrb, -⟩ :=
                      parseRecipeRest_sound F n true s3 rc s4 hrr
                    simp only [itemWF, recipeWF, Bool.and_eq_true]
                    refine ⟨⟨⟨⟨?_, hrp⟩, hrd⟩, hrb⟩, ?_⟩
                    · rw [hrn]
                      exact (parseIdent_sound r n s3 hid).1
                    · rw [hrq]
                      simp
          · rw [if_neg hq] at h
            cases hid : parseIdent (c :: r) with
            | none => rw [hid] at h; simp at h
            | some pr =>
                obtain ⟨n, s3⟩ := pr
                rw [hid] at h
                simp only [] at h
                obtain ⟨hn, hdec⟩ := parseIdent_sound (c :: r) n s3 hid
                by_cases hp : " := ".data.isPrefixOf s3 = true
                · rw [if_pos hp] at h
                  cases hpe : parseExpr F (s3.drop 4) with
                  | none => rw [hpe] at h; simp at h
                  | some pr2 =>
                      obtain ⟨e, s4⟩ := pr2
                      rw [hpe] at h
                      simp only [] at h
                      cases s4 with
                      | nil => simp at h
                      | cons c2 s5 =>
                          simp only [] at h
                          by_cases hc2 : c2 = '\n'
                          · rw [if_pos hc2] at h
                            have h2 := Option.some.inj h
                            have h3 : Item.asg ⟨n, e, false⟩ = item :=
                              congrArg Prod.fst h2
                            rw [← h3]
                            obtain ⟨w, hw⟩ := isPrefixOf_exists _ _ hp
                            have hnal : ¬ n = "alias".data := by
                              intro hcon
                              apply hal
                              rw [hdec, hw, hcon]
                              rw [show (" := ".data ++ w : Text) =
                                ' ' :: (":= ".data ++ w) from rfl]
                              rw [show ("alias ".data : Text) =
                                "alias".data ++ [' '] from rfl]
                              rw [show ("alias".data ++
                                (' ' :: (":= ".data ++ w)) : Text) =
                                ("alias".data ++ [' ']) ++ (":= ".data ++ w)
                                from by simp]
                              exact isPrefixOf_append _ _
                            have hnex : ¬ n = "export".data := by
                              intro hcon
                              apply hex
                              rw [hdec, hw, hcon]
                              rw [show (" := ".data ++ w : Text) =
                                ' ' :: (":= ".data ++ w) from rfl]
                              rw [show ("export ".data : Text) =
                                "export".data ++ [' '] from rfl]
                              rw [show ("export".data ++
                                (' ' :: (":= ".data ++ w)) : Text) =
                                ("export".data ++ [' ']) ++ (":= ".data ++ w)
                                from by simp]
                              exact isPrefixOf_append _ _
                            simp only [itemWF, assignmentWF, Bool.and_eq_true]
                            refine ⟨⟨hn, parseExpr_sound F _ e _ hpe⟩, ?_⟩
                            simp [hnal, hnex]
                          · rw [if_neg hc2] at h
                            simp at h
                · rw [if_neg hp] at h
                  cases hrr : parseRecipeRest F n false s3 with
                  | none => rw [hrr] at h; simp at h
                  | some pr2 =>
                      obtain ⟨rc, s4⟩ := pr2
                      rw [hrr] at h
                      simp only [] at h
                      have h2 := Option.some.inj h
                      have h3 : Item.recipe rc = item := congrArg Prod.fst h2
                      rw [← h3]
                      obtain ⟨hrn, hrq, hrp, hrd, hrb, hsp⟩ :=
                        parseRecipeRest_sound F n false s3 rc s4 hrr
                      simp only [itemWF, recipeWF, Bool.and_eq_true]
                      refine ⟨⟨⟨⟨?_, hrp⟩, hrd⟩, hrb⟩, ?_⟩
                      · rw [hrn]
                        exact hn
                      · cases hps0 : rc.params with
                        | nil => simp [hps0]
                        | cons p1 ps3 =>
                            obtain ⟨w, hw⟩ := hsp p1 ps3 hps0
                            have hnal : ¬ rc.name = "alias".data := by
                              intro hcon
                              apply hal
                              have hn2 : n = "alias".data := by
                                rw [← hrn]
                                exact hcon
                              rw [hdec, hw, hn2]
                              rw [show ("alias ".data : Text) =
                                "alias".data ++ [' '] from rfl]
                              rw [show ("alias".data ++ (' ' :: w) : Text) =
                                ("alias".data ++ [' ']) ++ w from by simp]
                              exact isPrefixOf_append _ _
                            have hnex : ¬ rc.name = "export".data := by
                              intro hcon
                              apply hex
                              have hn2 : n = "export".data := by
                                rw [← hrn]
                                exact hcon
                              rw [hdec, hw, hn2]
                              rw [show ("export ".data : Text) =
                                "export".data ++ [' '] from rfl]
                              rw [show ("export".data ++ (' ' :: w) : Text) =
                                ("export".data ++ [' ']) ++ w from by simp]
                              exact isPrefixOf_append _ _
                            simp [hrq, hnal, hnex]

theorem consItem_WF (item : Item) (j : Justfile) (hi : itemWF item = true)
    (hj : justfileWF j = true) : justfileWF (consItem item j) = true := by
  cases item with
  | asg a =>
      simp only [itemWF] at hi
      simp only [consItem, justfileWF, Bool.and_eq_true, List.all_cons]
        at hj ⊢
      exact ⟨⟨⟨hi, hj.1.1⟩, hj.1.2⟩, hj.2⟩
  | al a =>
      simp only [itemWF] at hi
      simp only [consItem, justfileWF, Bool.and_eq_true, List.all_cons]
        at hj ⊢
      exact ⟨⟨hj.1.1, ⟨hi, hj.1.2⟩⟩, hj.2⟩
  | recipe r =>
      simp only [itemWF] at hi
      simp only [consItem, justfileWF, Bool.and_eq_true, List.all_cons]
        at hj ⊢
      exact ⟨⟨hj.1.1, hj.1.2⟩, ⟨hi, hj.2⟩⟩

theorem parseItems_sound : ∀ (F fuelI : Nat) (s : Text) (j : Justfile),
    parseItems F fuelI s = some j → justfileWF j = true := by
  intro F fuelI
  induction fuelI with
  | zero => intro s j h; simp [parseItems] at h
  | succ f ih =>
      intro s j h
      cases s with
      | nil =>
          simp only [parseItems] at h
          have h2 := Option.some.inj h
          rw [← h2]
          rfl
      | cons c r =>
          simp only [parseItems] at h
          cases hit : parseItem F (c :: r) with
          | none => rw [hit] at h; simp at h
          | some pr =>
              obtain ⟨item, s2⟩ := pr
              rw [hit] at h
              simp only [] at h
              cases hrec : parseItems F f s2 with
              | none => rw [hrec] at h; simp at h
              | some j2 =>
                  rw [hrec] at h
                  simp only [] at h
                  have h2 := Option.some.inj h
                  rw [← h2]
                  exact consItem_WF item j2
                    (parseItem_sound F (c :: r) item s2 hit) (ih s2 j2 hrec)

/-- Soundness: every justfile the compile step produces satisfies the
printer-relevant well-formedness invariants. -/
theorem parseJustfile_sound (text : Text) (j : Justfile)
    (h : parseJustfile text = some j) : justfileWF j = true :=
  parseItems_sound _ _ _ _ h

/-! ## Claim C1: round-trip stability of the dump -/

/-- C1: round-trip stability of `--dump`: for every justfile `j` that the
compile step produces (`parseJustfile text = some j` for some source
`text`), `--dump` prints text whose re-parse succeeds and whose re-dump is
byte-identical to the first dump; indeed the re-parse returns `j` itself. -/
theorem dump_round_trip (text : Text) (j : Justfile)
    (h : parseJustfile text = some j) :
    ∃ j2, parseJustfile (dumpJustfile j) = some j2 ∧
      dumpJustfile j2 = dumpJustfile j :=
  ⟨j, parse_dump j (parseJustfile_sound text j h), rfl⟩

/-- C1 witness: the round-trip at a concrete justfile with assignments,
an alias and recipes exercising parameters, defaults, variadics,
dependencies, interpolations and bodies. -/
theorem dump_round_trip_witness :
    ∃ j2, parseJustfile (dumpJustfile rtJf) = some j2 ∧
      dumpJustfile j2 = dumpJustfile rtJf :=
  dump_round_trip rtText rtJf (parse_dump rtJf (by decide))

/-! ## Claim C2: dependency execution order -/

/-- C2: for every invocation of recipes whose dependency graph is acyclic
(witnessed by a rank function decreasing along dependencies and bounded on
the requested recipes), the planner succeeds with an order that runs each
recipe at most once, runs every dependency before its dependent, and
contains every requested recipe; and on the `order` test graph
(`b: a`, `a`, `d: c`, `c: b`) invoked as `a d` the recipes run in the
order `a b c d`. -/
theorem dependency_order (g : DepGraph) (targets : List Text) (rank : Text → Nat)
    (hrank : ∀ p ∈ g, ∀ d ∈ p.2, rank d < rank p.1)
    (htargets : ∀ x ∈ targets, rank x < g.length + 1) :
    (∃ order, plan g targets = some order ∧ order.Nodup ∧ depsBefore g order ∧
      ∀ x ∈ targets, x ∈ order) ∧
    plan orderTestGraph ["a".data, "d".data] =
      some ["a".data, "b".data, "c".data, "d".data] := by
  constructor
  · have hrank2 : ∀ n, ∀ d ∈ depsOf g n, rank d < rank n := by
      intro n d hd
      unfold depsOf at hd
      cases hlk : g.lookup n with
      | none => rw [hlk] at hd; simp at hd
      | some deps =>
          rw [hlk] at hd
          simp only [Option.getD_some] at hd
          exact hrank (n, deps) (mem_of_lookup hlk) d hd
    obtain ⟨out, ext, hvm, hout, hnd, hdb, hbound, hsub⟩ :=
      (visit_sound g rank hrank2 (g.length + 1)).2 targets [] htargets
        List.nodup_nil
        (by
          intro pre n post h d hd
          exact absurd h.symm (by simp))
    exact ⟨out, hvm, hnd, hdb, hsub⟩
  · rfl

/-- Witness for C2: the order theorem at the `order` test graph, with the
concrete topological rank a=0, b=1, c=2, d=3. -/
theorem dependency_order_witness :
    plan orderTestGraph ["a".data, "d".data] =
      some ["a".data, "b".data, "c".data, "d".data] :=
  (dependency_order orderTestGraph ["a".data, "d".data] rankTest
    (by decide) (by decide)).2

theorem runLines_ok (status : Text → Nat) (rname : Text) :
    ∀ (lines : List (Nat × Text)) (acc : List (Text × Nat × Text)),
      (∀ lc ∈ lines, status lc.2 = 0) →
      runLines status rname lines acc = ⟨acc ++ tagLines rname lines, none⟩ := by
  intro lines
  induction lines with
  | nil => intro acc h; simp [runLines, tagLines]
  | cons lc rest ih =>
      intro acc h
      rcases lc with ⟨ln, cmd⟩
      have hc : status cmd = 0 := h (ln, cmd) (by simp)
      simp [runLines, hc, ih _ (fun x hx => h x (by simp [hx])), tagLines]

theorem runLines_fail (status : Text → Nat) (rname : Text) :
    ∀ (lines1 : List (Nat × Text)) (L : Nat) (cmd : Text)
      (lines2 : List (Nat × Text)) (acc : List (Text × Nat × Text)),
      (∀ lc ∈ lines1, status lc.2 = 0) → ¬ status cmd = 0 →
      runLines status rname (lines1 ++ (L, cmd) :: lines2) acc =
        ⟨acc ++ tagLines rname lines1 ++ [(rname, L, cmd)],
          some (rname, L, status cmd)⟩ := by
  intro lines1
  induction lines1 with
  | nil =>
      intro L cmd lines2 acc h hN
      simp [runLines, hN, tagLines]
  | cons lc rest ih =>
      intro L cmd lines2 acc h hN
      rcases lc with ⟨ln, c⟩
      have hc : status c = 0 := h (ln, c) (by simp)
      simp [runLines, hc, ih L cmd lines2 _ (fun x hx => h x (by simp [hx])) hN,
        tagLines]

theorem runRecipes_append_ok (status : Text → Nat) :
    ∀ (rs1 : List RecipeRun) (rest : List RecipeRun)
      (acc : List (Text × Nat × Text)),
      (∀ r ∈ rs1, ∀ lc ∈ r.cmds, status lc.2 = 0) →
      runRecipes status (rs1 ++ rest) acc =
        runRecipes status rest (acc ++ flattenRuns rs1) := by
  intro rs1
  induction rs1 with
  | nil => intro rest acc h; simp [flattenRuns]
  | cons r rs ih =>
      intro rest acc h
      show runRecipes status (r :: (rs ++ rest)) acc = _
      rw [runRecipes]
      rw [runLines_ok status r.name r.cmds acc (h r (by simp))]
      simp only []
      rw [ih rest _ (fun x hx => h x (by simp [hx]))]
      simp [flattenRuns, tagLines]

/-! ## Claim C3: exit-code propagation -/

/-- C3 counterexample: in the `status_passthrough` scenario (recipe
`recipe`, line 6, `exit 100`) the runner's error message quotes the recipe
name in backticks — `Recipe \x60recipe\x60 failed on line 6 with exit code
100`, exactly as the integration test asserts — which differs from the
claim's `Recipe "recipe" failed on line 6 with exit code 100`. -/
theorem exit_code_counterexample :
    runMessage (runRecipes statusTest rsTest []) =
      some "Recipe `recipe` failed on line 6 with exit code 100".data ∧
    runStatus (runRecipes statusTest rsTest []) = 100 ∧
    ("Recipe `recipe` failed on line 6 with exit code 100".data : Text) ≠
      "Recipe \"recipe\" failed on line 6 with exit code 100".data := by
  refine ⟨by decide, by decide, by decide⟩

/-- C3 (amended): if the command on line L of recipe X is reached (all
earlier commands of the invocation exited 0) and exits with nonzero status
N (0<N<256), the runner prints the error
`Recipe \x60X\x60 failed on line L with exit code N` (recipe name quoted
in backticks), exits with status N, and runs no subsequent command of any
recipe — the executed commands are exactly the preceding ones plus the
failing one. -/
theorem exit_code_propagation (status : Text → Nat) (rs1 rs2 : List RecipeRun)
    (X : Text) (lines1 lines2 : List (Nat × Text)) (L : Nat) (cmd : Text) (N : Nat)
    (hpre : ∀ r ∈ rs1, ∀ lc ∈ r.cmds, status lc.2 = 0)
    (hl1 : ∀ lc ∈ lines1, status lc.2 = 0)
    (hcmd : status cmd = N) (hN : 0 < N) (hN256 : N < 256) :
    runRecipes status (rs1 ++ ⟨X, lines1 ++ (L, cmd) :: lines2⟩ :: rs2) [] =
      ⟨flattenRuns rs1 ++ tagLines X lines1 ++ [(X, L, cmd)], some (X, L, N)⟩ ∧
    runStatus (runRecipes status (rs1 ++ ⟨X, lines1 ++ (L, cmd) :: lines2⟩ :: rs2) []) = N ∧
    runMessage (runRecipes status (rs1 ++ ⟨X, lines1 ++ (L, cmd) :: lines2⟩ :: rs2) []) =
      some (failureMessage X L N) := by
  have hNz : ¬ status cmd = 0 := by omega
  have h1 : runRecipes status (rs1 ++ ⟨X, lines1 ++ (L, cmd) :: lines2⟩ :: rs2) [] =
      ⟨flattenRuns rs1 ++ tagLines X lines1 ++ [(X, L, cmd)], some (X, L, N)⟩ := by
    rw [runRecipes_append_ok status rs1 _ [] hpre]
    rw [runRecipes]
    rw [runLines_fail status X lines1 L cmd lines2 _ hl1 hNz]
    simp [hcmd]
  refine ⟨h1, ?_, ?_⟩
  · rw [h1]
    rfl
  · rw [h1]
    rfl

/-- Witness for C3: the amended theorem at the `status_passthrough`
scenario. -/
theorem exit_code_propagation_witness :
    runRecipes statusTest rsTest [] =
      ⟨[("recipe".data, 6, "exit 100".data)], some ("recipe".data, 6, 100)⟩ := by
  have h := (exit_code_propagation statusTest [] [] "recipe".data [] [] 6
    "exit 100".data 100 (by simp) (by simp) (by decide) (by decide) (by decide)).1
  simpa [flattenRuns, tagLines] using h

/-! ## Claim C4: backtick result trimming -/

/-- C4: for every captured backtick stdout, exactly one trailing newline is
removed when present — the remainder, including any further newlines and
all leading/trailing spaces, is preserved verbatim — and a stdout with no
trailing newline is used unchanged. -/
theorem backtick_result_trimming (s : Text) :
    backtickValue (s ++ ['\n']) = s ∧
    (s.getLast? ≠ some '\n' → backtickValue s = s) := by
  constructor
  · unfold backtickValue
    rw [show (s ++ ['\n']).reverse = '\n' :: s.reverse by simp]
    simp
  · intro h
    unfold backtickValue
    rcases hrev : s.reverse with _ | ⟨c, rest⟩
    · rfl
    · show (if c = '\n' then rest.reverse else s) = s
      have hc : ¬ c = '\n' := by
        intro hc
        apply h
        rw [← List.head?_reverse, hrev, hc]
        rfl
      rw [if_neg hc]

/-- Witness for C4: the backtick outputs `Hello, \n` and `Hello, ` (note
the trailing space) both yield the value `Hello, `. -/
theorem backtick_result_trimming_witness :
    backtickValue ("Hello, ".data ++ ['\n']) = "Hello, ".data ∧
    backtickValue "Hello, ".data = "Hello, ".data :=
  ⟨(backtick_result_trimming "Hello, ".data).1,
   (backtick_result_trimming "Hello, ".data).2 (by decide)⟩

/-! ## Claim C5: overridden assignments are never evaluated -/

/-- C5: (i) assignment evaluation does not depend on the expressions of
overridden assignments — replacing each overridden expression by any other
expression leaves the outcome unchanged, so those expressions (backticks
included) are never evaluated; (ii) on success every overridden
assignment's name maps to its override value in the resulting scope;
(iii) concretely, in the `overrides_not_evaluated` test scenario the
override `foo=bar` suppresses the failing backtick `exit 1` and evaluation
succeeds with `foo` bound to `bar`. -/
theorem overrides_not_evaluated :
    (∀ (shell : Shell) (ov scope : List (Text × Text)) (asgs asgs2 : List Assignment),
      List.Forall₂ (fun a b => a.name = b.name ∧
        (ov.lookup a.name = none → a.expression = b.expression)) asgs asgs2 →
      evalAssignments shell ov asgs scope = evalAssignments shell ov asgs2 scope) ∧
    (∀ (shell : Shell) (ov : List (Text × Text)) (asgs : List Assignment)
        (scope sc : List (Text × Text)),
      evalAssignments shell ov asgs scope = .ok sc →
      (asgs.map Assignment.name).Nodup →
      (∀ a ∈ asgs, scope.lookup a.name = none) →
      ∀ a ∈ asgs, ∀ v, ov.lookup a.name = some v → sc.lookup a.name = some v) ∧
    evalAssignments failingShell ovTest asgsTest [] = .ok scTest := by
  refine ⟨?_, ?_, ?_⟩
  · intro shell ov scope asgs asgs2 h
    induction h generalizing scope with
    | nil => rfl
    | cons hab h ih =>
        rename_i a b l1 l2
        obtain ⟨hn, he⟩ := hab
        simp only [evalAssignments]
        rw [← hn]
        cases hov : ov.lookup a.name with
        | some v => exact ih _
        | none =>
            rw [he hov]
            cases hev : evalExpr shell scope b.expression with
            | ok v => exact ih _
            | error e => rfl
  · intro shell ov asgs
    induction asgs with
    | nil =>
        intro scope sc h hnd hsc a ha
        simp at ha
    | cons b rest ih =>
        intro scope sc h hnd hsc a ha v hov
        simp only [evalAssignments] at h
        rcases List.mem_cons.mp ha with rfl | hmem
        · -- the overridden head assignment
          split at h
          · rename_i w hw
            obtain ⟨ext, hext⟩ := evalAssignments_extends shell ov rest _ _ h
            have hvw : v = w := by
              rw [hov] at hw
              exact Option.some.inj hw
            rw [hext, List.append_assoc, lookup_append]
            rw [hsc a (by simp)]
            simp only [List.singleton_append, List.lookup]
            simp [hvw]
          · rename_i hw
            rw [hov] at hw
            exact absurd hw (by simp)
        · -- an assignment further down the list
          have hbn : ∀ r ∈ rest, ¬ r.name = b.name := by
            intro r hr hrn
            have := List.nodup_cons.mp hnd
            exact this.1 (by
              rw [← hrn]
              exact List.mem_map_of_mem Assignment.name hr)
          have hscope2 : ∀ w, ∀ r ∈ rest,
              (scope ++ [(b.name, w)]).lookup r.name = none := by
            intro w r hr
            rw [lookup_append, hsc r (by simp [hr])]
            simp only [List.lookup]
            rw [show (r.name == b.name) = false from
              beq_eq_false_iff_ne.mpr (hbn r hr)]
          split at h
          · rename_i w hw
            exact ih _ _ h (List.nodup_cons.mp hnd).2 (hscope2 w) a hmem v hov
          · split at h
            · rename_i hw w2 hev
              exact ih _ _ h (List.nodup_cons.mp hnd).2 (hscope2 w2) a hmem v hov
            · exact absurd h (by simp)
  · rfl

/-- Witness for C5: in the test scenario the resulting scope binds `foo`
to the override value `bar`. -/
theorem overrides_not_evaluated_witness :
    List.lookup "foo".data scTest = some "bar".data := by
  have h := overrides_not_evaluated
  exact h.2.1 failingShell ovTest asgsTest [] scTest h.2.2 (by decide) (by decide)
    ⟨"foo".data, .backtick "exit 1".data, false⟩ (by decide) "bar".data (by decide)

/-! ## Claim C6: `env_var` lookup order and failure -/

/-- C6 counterexample: when the key `FOO` is present in neither the dotenv
mapping nor the environment, `env_var` fails with the message
`environment variable \x60FOO\x60 not present` — the key is quoted in
backticks — which differs from the claim's unquoted
`environment variable FOO not present`. -/
theorem env_var_counterexample :
    env_var ⟨[], fun _ => none, []⟩ "FOO".data =
      .error "environment variable `FOO` not present".data ∧
    ("environment variable `FOO` not present".data : Text) ≠
      "environment variable FOO not present".data := by
  refine ⟨rfl, by decide⟩

/-- C6 (amended): `env_var(key)` returns the dotenv mapping's value when
the key is present there; otherwise it returns the process environment's
value; and when the key is present in neither, it fails with the error
`environment variable \x60X\x60 not present` (the given key X quoted in
backticks). -/
theorem env_var_lookup (ctx : FunctionContext) (key : Text) :
    (∀ v, ctx.dotenv.lookup key = some v → env_var ctx key = .ok v) ∧
    (ctx.dotenv.lookup key = none →
      ∀ v, ctx.env key = some v → env_var ctx key = .ok v) ∧
    (ctx.dotenv.lookup key = none → ctx.env key = none →
      env_var ctx key =
        .error ("environment variable `".data ++ key ++ "` not present".data)) := by
  refine ⟨fun v hv => ?_, fun hd v hv => ?_, fun hd he => ?_⟩
  · unfold env_var
    rw [hv]
  · unfold env_var
    rw [hd, hv]
  · unfold env_var
    rw [hd, he]

/-- Witness for C6: the amended lookup theorem at an empty context and the
key `FOO`. -/
theorem env_var_lookup_witness :
    env_var ⟨[], fun _ => none, []⟩ "FOO".data =
      .error ("environment variable `".data ++ "FOO".data ++ "` not present".data) :=
  (env_var_lookup ⟨[], fun _ => none, []⟩ "FOO".data).2.2 rfl rfl

/-! ## Claim C10: totality of the string transforms -/

/-- C10: the built-in functions `clean`, `join`, `lowercase`, `uppercase`,
`replace` and `trim` are total — they return `Ok` on every input — while
the path-component extractors (`extension`, `file_name`, `file_stem`,
`parent_directory`, `without_extension`), the environment lookup `env_var`
and the context-dependent `justfile_directory` each have a reachable error
branch. -/
theorem string_functions_total :
    (∀ ctx p, (clean ctx p).isOk = true) ∧
    (∀ ctx a b, (join ctx a b).isOk = true) ∧
    (∀ ctx s, (lowercase ctx s).isOk = true) ∧
    (∀ ctx s, (uppercase ctx s).isOk = true) ∧
    (∀ ctx s pat rep, (replace ctx s pat rep).isOk = true) ∧
    (∀ ctx s, (trim ctx s).isOk = true) ∧
    (∃ ctx p, (extension ctx p).isOk = false) ∧
    (∃ ctx p, (file_name ctx p).isOk = false) ∧
    (∃ ctx p, (file_stem ctx p).isOk = false) ∧
    (∃ ctx p, (parent_directory ctx p).isOk = false) ∧
    (∃ ctx p, (without_extension ctx p).isOk = false) ∧
    (∃ ctx k, (env_var ctx k).isOk = false) ∧
    (∃ ctx, (justfile_directory ctx).isOk = false) := by
  refine ⟨fun ctx p => rfl, fun ctx a b => rfl, fun ctx s => rfl, fun ctx s => rfl,
    fun ctx s pat rep => rfl, fun ctx s => rfl,
    ⟨⟨[], fun _ => none, []⟩, "foo".data, by decide⟩,
    ⟨⟨[], fun _ => none, []⟩, "/".data, by decide⟩,
    ⟨⟨[], fun _ => none, []⟩, "/".data, by decide⟩,
    ⟨⟨[], fun _ => none, []⟩, "/".data, by decide⟩,
    ⟨⟨[], fun _ => none, []⟩, "/".data, by decide⟩,
    ⟨⟨[], fun _ => none, []⟩, "FOO".data, by decide⟩,
    ⟨⟨[], fun _ => none, "/".data⟩, by decide⟩⟩

/-- Witness for C9: the amended theorem at the interpreter `/bin/cmd`. -/
theorem shebang_new_none_amended_witness :
    Shebang.interpreter_filename ⟨"/bin".data ++ '/' :: "cmd".data, none⟩ =
      "cmd".data ∧
    Shebang.script_filename ⟨"/bin".data ++ '/' :: "cmd".data, none⟩ "foo".data =
      Shebang.script_filename ⟨"cmd".data, none⟩ "foo".data ∧
    Shebang.include_shebang_line ⟨"/bin".data ++ '/' :: "cmd".data, none⟩ =
      Shebang.include_shebang_line ⟨"cmd".data, none⟩ :=
  shebang_new_none_amended.2.2 "/bin".data "cmd".data '/' none "foo".data
    (Or.inl rfl) (by decide)

end JustSpec
